import Mathlib

/-!
# Verification of the `path` package (JSON paths)

A shallow embedding of `instance.go` and `javascript.go`, and the properties proved
about it.

* A Go `string` is a finite sequence of bytes: `GoString := List Nat`, each element the
  numeric value of one byte; `len(s)` is `s.length` and every offset is a byte offset.
* A Go `int` is a 64-bit signed integer, carried as an `Int` in `[-2^63, 2^63)`.
* A slice `[]interface{}` is `Option (List Comp)`: `none` is the nil slice and `some xs`
  a non-nil slice holding `xs`. Slices are values: the sharing of backing arrays is not
  modelled.
* A function that can fault at run time (index or slice out of range) returns an
  `Option` whose `none` is the fault.
* A returned `error` is an `Option`: `none` is the nil error.

The standard-library functions the package calls (`regexp`, `strconv`, `unicode/utf8`,
`encoding/json`) are modelled from their documented behaviour. The unicode
printability tables that `strconv.IsPrint` uses above U+00FF are a parameter `tbl`.
A finite `float64` is carried exactly, as a sign, a mantissa and a binary exponent.
-/

namespace path

/-! ## Data model -/

/-- A Go string, as its bytes. -/
abbrev GoString := List Nat

/-- The bytes of an ASCII literal (used to write test inputs). -/
def ascii (s : String) : GoString := s.toList.map Char.toNat

/-- One path component: an object key (Go `string`) or an array index (Go `int`). -/
inductive Comp where
  | str (s : GoString)
  | int (v : Int)
deriving DecidableEq, Repr

/-- The Go struct `P`: `components []interface{}`; `none` is the nil slice. -/
structure P where
  components : Option (List Comp)
deriving DecidableEq, Repr

/-- The elements of a slice (`range` over it): a nil slice has none. -/
def elems (c : Option (List Comp)) : List Comp := c.getD []

/-- Go's built-in `append(s, xs...)`: appending nothing to a nil slice leaves it nil. -/
def goAppend (s : Option (List Comp)) (xs : List Comp) : Option (List Comp) :=
  match s, xs with
  | none, [] => none
  | s, xs => some (elems s ++ xs)

/-- A string slice expression `s[a:b]`; `none` when it is out of range. -/
def goSlice (s : GoString) (a b : Nat) : Option GoString :=
  if a ≤ b ∧ b ≤ s.length then some ((s.drop a).take (b - a)) else none

/-! ## Character classes of Go's `regexp` (ASCII only) -/

/-- The class `\d`. -/
def isDigit (b : Nat) : Bool := 48 ≤ b && b ≤ 57

/-- The class `\w`: `[0-9A-Za-z_]`. -/
def isWord (b : Nat) : Bool :=
  (48 ≤ b && b ≤ 57) || (65 ≤ b && b ≤ 90) || b == 95 || (97 ≤ b && b ≤ 122)

/-- The regexp `canDot`, `^\w+$`, as `canDot.MatchString`. -/
def canDot (v : GoString) : Bool := !v.isEmpty && v.all isWord

/-! ## `unicode/utf8` -/

/-- The replacement character U+FFFD, `utf8.RuneError`. -/
def RuneError : Nat := 0xFFFD

/-- A continuation byte `10xxxxxx`. -/
def isCont (b : Nat) : Bool := 0x80 ≤ b && b ≤ 0xBF

/-- Model of `utf8.DecodeRuneInString`: the first rune of `s` and its width in bytes;
an empty input gives `(RuneError, 0)` and an invalid encoding `(RuneError, 1)`. -/
def DecodeRune (s : GoString) : Nat × Nat :=
  match s with
  | [] => (RuneError, 0)
  | b0 :: t =>
    if b0 < 0x80 then (b0, 1)
    else if 0xC2 ≤ b0 ∧ b0 ≤ 0xDF then
      match t with
      | b1 :: _ => if isCont b1 then ((b0 % 0x20) * 0x40 + b1 % 0x40, 2) else (RuneError, 1)
      | _ => (RuneError, 1)
    else if 0xE0 ≤ b0 ∧ b0 ≤ 0xEF then
      match t with
      | b1 :: b2 :: _ =>
        let lo := if b0 = 0xE0 then 0xA0 else 0x80
        let hi := if b0 = 0xED then 0x9F else 0xBF
        if lo ≤ b1 ∧ b1 ≤ hi ∧ isCont b2 then
          ((b0 % 0x10) * 0x1000 + (b1 % 0x40) * 0x40 + b2 % 0x40, 3)
        else (RuneError, 1)
      | _ => (RuneError, 1)
    else if 0xF0 ≤ b0 ∧ b0 ≤ 0xF4 then
      match t with
      | b1 :: b2 :: b3 :: _ =>
        let lo := if b0 = 0xF0 then 0x90 else 0x80
        let hi := if b0 = 0xF4 then 0x8F else 0xBF
        if lo ≤ b1 ∧ b1 ≤ hi ∧ isCont b2 ∧ isCont b3 then
          ((b0 % 0x08) * 0x40000 + (b1 % 0x40) * 0x1000 + (b2 % 0x40) * 0x40 + b3 % 0x40, 4)
        else (RuneError, 1)
      | _ => (RuneError, 1)
    else (RuneError, 1)

/-- Model of `utf8.ValidRune`: not a surrogate and at most U+10FFFF. -/
def ValidRune (r : Nat) : Bool := r < 0xD800 || (0xDFFF < r && r ≤ 0x10FFFF)

/-- Model of `utf8.AppendRune`: the UTF-8 encoding of `r`; an invalid rune is encoded
as U+FFFD. -/
def EncodeRune (r : Nat) : GoString :=
  if r < 0x80 then [r]
  else if r < 0x800 then [0xC0 + r / 0x40, 0x80 + r % 0x40]
  else if !ValidRune r then [0xEF, 0xBF, 0xBD]
  else if r < 0x10000 then [0xE0 + r / 0x1000, 0x80 + (r / 0x40) % 0x40, 0x80 + r % 0x40]
  else [0xF0 + r / 0x40000, 0x80 + (r / 0x1000) % 0x40, 0x80 + (r / 0x40) % 0x40, 0x80 + r % 0x40]

/-- Model of `utf8.ValidString`, with `skip` bytes of the current rune still to pass. -/
def validUTF8From : Nat → GoString → Bool
  | _, [] => true
  | skip + 1, _ :: t => validUTF8From skip t
  | 0, b :: t =>
    let d := DecodeRune (b :: t)
    if d.1 = RuneError ∧ d.2 = 1 then false else validUTF8From (d.2 - 1) t

/-- Model of `utf8.ValidString`. -/
def ValidString (s : GoString) : Bool := validUTF8From 0 s

/-- The UTF-8 bytes of a Lean string (used to write test inputs). -/
def utf8 (s : String) : GoString := (s.toList.map (fun c => EncodeRune c.toNat)).flatten

/-! ## `strconv`: integers -/

/-- The decimal digits of `n`, most significant first, as ASCII bytes; `fuel` bounds the
number of digits. -/
def natDigits : Nat → Nat → GoString → GoString
  | 0, _, acc => acc
  | fuel + 1, n, acc =>
    if n < 10 then (48 + n) :: acc else natDigits fuel (n / 10) ((48 + n % 10) :: acc)

/-- Model of `strconv.FormatUint(n, 10)`. -/
def formatNat (n : Nat) : GoString := natDigits (n + 1) n []

/-- Model of `strconv.FormatInt(v, 10)`: a `-` sign for a negative value. -/
def FormatInt (v : Int) : GoString :=
  if v < 0 then 45 :: formatNat v.natAbs else formatNat v.natAbs

/-- The value of a run of ASCII decimal digits. -/
def digitsVal (ds : GoString) : Nat := ds.foldl (fun acc d => acc * 10 + (d - 48)) 0

/-- Model of `strconv.Atoi` for a 64-bit `int`: an optional sign, then one or more
decimal digits, the value within `[-2^63, 2^63)`; `none` is a returned error. -/
def Atoi (s : GoString) : Option Int :=
  let neg := s.head? = some 45
  let ds := if s.head? = some 45 ∨ s.head? = some 43 then s.drop 1 else s
  if ds.isEmpty || !ds.all isDigit then none
  else
    let n := digitsVal ds
    if neg then (if n ≤ 2 ^ 63 then some (-(n : Int)) else none)
    else (if n < 2 ^ 63 then some (n : Int) else none)

/-! ## `strconv`: quoting -/

/-- The digit `lowerhex[n]` for `n < 16`. -/
def hexDigit (n : Nat) : Nat := if n < 10 then 48 + n else 87 + n

/-- The low `w` hexadecimal digits of `v`, most significant first. -/
def hexDigits : Nat → Nat → GoString
  | 0, _ => []
  | w + 1, v => hexDigit ((v / 16 ^ w) % 16) :: hexDigits w v

/-- Model of `strconv.IsPrint`: the Latin-1 fast path is in the code, the tables used
above U+00FF are the parameter `tbl`. -/
def IsPrint (tbl : Nat → Bool) (r : Nat) : Bool :=
  if r ≤ 0xFF then
    if 0x20 ≤ r ∧ r ≤ 0x7E then true
    else if 0xA1 ≤ r ∧ r ≤ 0xFF then r != 0xAD
    else false
  else tbl r

/-- Model of `strconv.appendEscapedRune` (not ASCII-only, not graphic-only). -/
def appendEscapedRune (tbl : Nat → Bool) (r : Nat) (quote : Nat) : GoString :=
  if r = quote ∨ r = 92 then [92, r]
  else if IsPrint tbl r then EncodeRune r
  else if r = 7 then [92, 97]
  else if r = 8 then [92, 98]
  else if r = 12 then [92, 102]
  else if r = 10 then [92, 110]
  else if r = 13 then [92, 114]
  else if r = 9 then [92, 116]
  else if r = 11 then [92, 118]
  else if r < 32 ∨ r = 0x7F then [92, 120] ++ hexDigits 2 r
  else if !ValidRune r then [92, 117] ++ hexDigits 4 RuneError
  else if r < 0x10000 then [92, 117] ++ hexDigits 4 r
  else [92, 85] ++ hexDigits 8 r

/-- The loop of `strconv.appendQuotedWith`, with `skip` bytes of the current rune still
to pass. -/
def quoteLoop (tbl : Nat → Bool) : Nat → GoString → GoString
  | _, [] => []
  | skip + 1, _ :: t => quoteLoop tbl skip t
  | 0, b :: t =>
    let d := if b ≥ 0x80 then DecodeRune (b :: t) else (b, 1)
    if d.2 = 1 ∧ d.1 = RuneError then
      [92, 120, hexDigit (b / 16), hexDigit (b % 16)] ++ quoteLoop tbl 0 t
    else appendEscapedRune tbl d.1 34 ++ quoteLoop tbl (d.2 - 1) t

/-- Model of `strconv.Quote`: a double-quoted Go string literal. -/
def Quote (tbl : Nat → Bool) (s : GoString) : GoString := [34] ++ quoteLoop tbl 0 s ++ [34]

/-- Model of `strconv`'s `unhex`. -/
def unhex (c : Nat) : Option Nat :=
  if 48 ≤ c ∧ c ≤ 57 then some (c - 48)
  else if 97 ≤ c ∧ c ≤ 102 then some (c - 97 + 10)
  else if 65 ≤ c ∧ c ≤ 70 then some (c - 65 + 10)
  else none

/-- The value `v = v<<4 | x` accumulated over a run of hexadecimal digits. -/
def hexVal : GoString → Nat → Option Nat
  | [], v => some v
  | c :: t, v =>
    match unhex c with
    | none => none
    | some x => hexVal t (v * 16 + x)

/-- The value of an octal digit, if `c` is one. -/
def octDigit (c : Nat) : Option Nat := if 48 ≤ c ∧ c ≤ 55 then some (c - 48) else none

/-- Model of `strconv.UnquoteChar(s, quote)`: the value, whether it is a multibyte
rune, and the number of bytes of `s` consumed; `none` is `ErrSyntax`. -/
def UnquoteChar (s : GoString) (quote : Nat) : Option (Nat × Bool × Nat) :=
  match s with
  | [] => none
  | c :: t =>
    if c = quote ∧ (quote = 39 ∨ quote = 34) then none
    else if c ≥ 0x80 then some ((DecodeRune s).1, true, (DecodeRune s).2)
    else if c ≠ 92 then some (c, false, 1)
    else
      match t with
      | [] => none
      | e :: u =>
        if e = 97 then some (7, false, 2)
        else if e = 98 then some (8, false, 2)
        else if e = 102 then some (12, false, 2)
        else if e = 110 then some (10, false, 2)
        else if e = 114 then some (13, false, 2)
        else if e = 116 then some (9, false, 2)
        else if e = 118 then some (11, false, 2)
        else if e = 120 ∨ e = 117 ∨ e = 85 then
          let n := if e = 120 then 2 else if e = 117 then 4 else 8
          if u.length < n then none
          else
            match hexVal (u.take n) 0 with
            | none => none
            | some v =>
              if e = 120 then some (v, false, 2 + n)
              else if !ValidRune v then none
              else some (v, true, 2 + n)
        else if 48 ≤ e ∧ e ≤ 55 then
          match u with
          | d1 :: d2 :: _ =>
            match octDigit d1, octDigit d2 with
            | some x1, some x2 =>
              let v := ((e - 48) * 8 + x1) * 8 + x2
              if v > 255 then none else some (v, false, 4)
            | _, _ => none
          | _ => none
        else if e = 92 then some (92, false, 2)
        else if e = 39 ∨ e = 34 then (if e ≠ quote then none else some (e, false, 2))
        else none

/-- The bytes `Unquote` appends for one unquoted character. -/
def runeBytes (r : Nat) (multibyte : Bool) : GoString :=
  if r < 0x80 ∨ !multibyte then [r] else EncodeRune r

/-- The loop of `strconv.Unquote` over the text after the opening quote, with `skip`
bytes of the current character still to pass: the unquoted bytes and the input left
when the loop stops (at the quote byte or at the end); `none` is `ErrSyntax`. -/
def unquoteLoop (quote : Nat) : Nat → GoString → Option (GoString × GoString)
  | _, [] => some ([], [])
  | skip + 1, _ :: t => unquoteLoop quote skip t
  | 0, c :: t =>
    if c = quote then some ([], c :: t)
    else
      match UnquoteChar (c :: t) quote with
      | none => none
      | some (r, multibyte, n) =>
        if c = 10 then none
        else
          match unquoteLoop quote (n - 1) t with
          | none => none
          | some (buf, rest) => some (runeBytes r multibyte ++ buf, rest)

/-- Model of `strconv.Unquote`: `s` is a double-quoted, single-quoted or back-quoted Go
literal with nothing after it; `none` is a returned error. (The fast path of the
library for literals without escapes returns what the general loop returns.) -/
def Unquote (s : GoString) : Option GoString :=
  match s with
  | [] => none
  | q :: t =>
    if q = 34 then
      match unquoteLoop 34 0 t with
      | some (buf, [34]) => some buf
      | _ => none
    else if q = 39 then
      match t with
      | [] => none
      | c :: u =>
        if c = 39 then (if u = [] then some [] else none)
        else
          match UnquoteChar t 39 with
          | none => none
          | some (r, multibyte, n) =>
            if c = 10 then none
            else if t.drop n = [39] then some (runeBytes r multibyte) else none
    else if q = 96 then
      if t.getLast? = some 96 ∧ !(t.dropLast.contains 96) then
        some (t.dropLast.filter (fun b => b != 13))
      else none
    else none

/-! ## `javascript.go`: rendering -/

/-- The body of the loop of `P.ToJS`: the builder `b` after the component `c` is
written to it. -/
def writeComp (tbl : Nat → Bool) (b : GoString) (c : Comp) : GoString :=
  match c with
  | Comp.str v =>
    if canDot v then (if b.length > 0 then b ++ [46] else b) ++ v
    else b ++ [91] ++ Quote tbl v ++ [93]
  | Comp.int v => b ++ [91] ++ FormatInt v ++ [93]

/-- The method `P.ToJS`: the builder is threaded through the components. -/
def ToJS (tbl : Nat → Bool) (p : P) : GoString :=
  (elems p.components).foldl (writeComp tbl) []

/-! ## `javascript.go`: the token pattern `pieceReg`

Go's `regexp` picks, at the leftmost position where some alternative matches, the
match a backtracking engine would find first. Each alternative of `pieceReg` is
deterministic (the byte at hand decides how the match goes on), so its match at a
position is computed by a single left-to-right pass. Matching is done on bytes: the
bytes that matter to the pattern are ASCII, and a byte of a multi-byte or invalid
encoding is matched by `[^"\\]` and by `.` exactly as the rune it belongs to. -/

/-- The alternative `^\w+` at a position: the length of the match. -/
def matchBare (atStart : Bool) (s : GoString) : Option Nat :=
  if atStart ∧ (s.takeWhile isWord).length > 0 then some (s.takeWhile isWord).length else none

/-- The alternative `dotString`, `\.\w+`. -/
def matchDotString (s : GoString) : Option Nat :=
  match s with
  | [] => none
  | c :: t =>
    if c = 46 ∧ (t.takeWhile isWord).length > 0 then some ((t.takeWhile isWord).length + 1)
    else none

/-- The alternative `bracketNumber`, `\[\d+\]`. -/
def matchBracketNumber (s : GoString) : Option Nat :=
  match s with
  | [] => none
  | c :: t =>
    if c = 91 ∧ (t.takeWhile isDigit).length > 0
        ∧ (t.drop (t.takeWhile isDigit).length).head? = some 93 then
      some ((t.takeWhile isDigit).length + 2)
    else none

/-- The part `(?:[^"\\]|(?:\\.))*"\]` of `bracketString`: the length of its match. -/
def matchStringTail : GoString → Option Nat
  | [] => none
  | c :: t =>
    if c = 34 then (if t.head? = some 93 then some 2 else none)
    else if c = 92 then
      match t with
      | [] => none
      | d :: u => if d = 10 then none else (matchStringTail u).map (fun n => n + 2)
    else (matchStringTail t).map (fun n => n + 1)

/-- The alternative `bracketString`, `\["(?:[^"\\]|(?:\\.))*"\]`. -/
def matchBracketString (s : GoString) : Option Nat :=
  match s with
  | c :: d :: t => if c = 91 ∧ d = 34 then (matchStringTail t).map (fun n => n + 2) else none
  | _ => none

/-- The match of `pieceReg` that starts at the head of `s`, `atStart` telling whether
that is offset 0 of the text: the alternatives in their order of priority. -/
def pieceRegAt (atStart : Bool) (s : GoString) : Option Nat :=
  match matchBare atStart s with
  | some n => some n
  | none =>
    match matchDotString s with
    | some n => some n
    | none =>
      match matchBracketNumber s with
      | some n => some n
      | none => matchBracketString s

/-- The scan of `FindAllStringIndex`: `s` is the text from offset `off` on, `skip` the
number of bytes still inside the last match. A new match is looked for at each
offset outside the matches found so far. -/
def findAllFrom : Bool → Nat → Nat → GoString → List (Nat × Nat)
  | _, _, _, [] => []
  | _, off, skip + 1, _ :: t => findAllFrom false (off + 1) skip t
  | atStart, off, 0, c :: t =>
    match pieceRegAt atStart (c :: t) with
    | some n => (off, off + n) :: findAllFrom false (off + 1) (n - 1) t
    | none => findAllFrom false (off + 1) 0 t

/-- Model of `pieceReg.FindAllStringIndex(s, -1)`: the successive non-overlapping
matches, leftmost first, as `(start, end)` byte offsets. -/
def FindAllStringIndex (s : GoString) : List (Nat × Nat) := findAllFrom true 0 0 s

/-! ## `javascript.go`: parsing -/

/-- What the loop body of `FromJSPartial` does with the matched text `m`: the
component it appends, or the error it returns; `none` is an out-of-range fault of
`m[0]` or `m[1:len(m)-1]`. -/
def decodePiece (m : GoString) : Option (Except String Comp) :=
  match m with
  | [] => none
  | c :: _ =>
    if c = 46 then some (Except.ok (Comp.str (m.drop 1)))
    else if c = 91 then
      match goSlice m 1 (m.length - 1) with
      | none => none
      | some inner =>
        match Atoi inner with
        | some v => some (Except.ok (Comp.int v))
        | none =>
          match Unquote inner with
          | some v => some (Except.ok (Comp.str v))
          | none => some (Except.error "could not parse portion in square brackets")
    else some (Except.ok (Comp.str m))

/-- The `for` loop of `FromJSPartial` over the matches still to visit, and the code
after it: `p` and `lastIndex` are the loop's variables. The result is
`(p, idx, err)`; `none` is a run-time fault. -/
def fromJSLoop (s : GoString) : List (Nat × Nat) → P → Nat → Option (P × Nat × Option String)
  | [], p, lastIndex =>
    if lastIndex ≠ s.length then some (p, lastIndex, none) else some (p, s.length, none)
  | idx :: rest, p, lastIndex =>
    if idx.1 ≠ lastIndex then some (p, lastIndex, none)
    else
      match goSlice s idx.1 idx.2 with
      | none => none
      | some m =>
        match decodePiece m with
        | none => none
        | some (Except.error e) => some (p, 0, some e)
        | some (Except.ok c) => fromJSLoop s rest { components := goAppend p.components [c] } idx.2

/-- The function `FromJSPartial`: `(p, idx, err)`, `err = none` being the nil error;
`none` is a run-time fault. -/
def FromJSPartial (s : GoString) : Option (P × Nat × Option String) :=
  if s.length = 0 then some ({ components := some [] }, 0, none)
  else if s.head? = some 46 then some ({ components := some [] }, 0, none)
  else fromJSLoop s (FindAllStringIndex s) { components := some [] } 0

/-- The function `FromJS`: `(p, err)`; `none` is a run-time fault. -/
def FromJS (s : GoString) : Option (P × Option String) :=
  match FromJSPartial s with
  | none => none
  | some (p, idx, err) =>
    if err ≠ none then some (p, err)
    else if idx ≠ s.length then some (p, some "could not parse entire string")
    else some (p, none)

/-! ## `instance.go`: construction and access -/

/-- The method `P.Len`. -/
def P.Len (p : P) : Nat := (elems p.components).length

/-! ## `encoding/json`: encoding -/

/-- The table `htmlSafeSet` of `encoding/json`: the ASCII bytes written as they are. -/
def htmlSafe (b : Nat) : Bool :=
  0x20 ≤ b && b < 0x80 && b != 34 && b != 38 && b != 60 && b != 62 && b != 92

/-- The loop of `encoding/json`'s `appendString` (with HTML escaping, as `json.Marshal`
calls it), with `skip` bytes of the current rune still to pass. The escapes are those
of Go 1.22 and later; earlier versions write `\u0008` and `\u000c` for the bytes 8 and
12, which are read back as the same bytes. -/
def jsonStringLoop : Nat → GoString → GoString
  | _, [] => []
  | skip + 1, _ :: t => jsonStringLoop skip t
  | 0, b :: t =>
    if b < 0x80 then
      (if htmlSafe b then [b]
        else if b = 92 ∨ b = 34 then [92, b]
        else if b = 8 then [92, 98]
        else if b = 12 then [92, 102]
        else if b = 10 then [92, 110]
        else if b = 13 then [92, 114]
        else if b = 9 then [92, 116]
        else [92, 117, 48, 48, hexDigit (b / 16), hexDigit (b % 16)]) ++ jsonStringLoop 0 t
    else if (DecodeRune (b :: t)).1 = RuneError ∧ (DecodeRune (b :: t)).2 = 1 then
      [92, 117, 102, 102, 102, 100] ++ jsonStringLoop 0 t
    else if (DecodeRune (b :: t)).1 = 0x2028 ∨ (DecodeRune (b :: t)).1 = 0x2029 then
      [92, 117, 50, 48, 50, hexDigit ((DecodeRune (b :: t)).1 % 16)]
        ++ jsonStringLoop ((DecodeRune (b :: t)).2 - 1) t
    else (b :: t).take (DecodeRune (b :: t)).2 ++ jsonStringLoop ((DecodeRune (b :: t)).2 - 1) t

/-- Model of the JSON string literal `json.Marshal` writes for a Go string. -/
def jsonString (s : GoString) : GoString := [34] ++ jsonStringLoop 0 s ++ [34]

/-- The JSON text `json.Marshal` writes for one component: a string literal, or the
decimal digits of an `int`. -/
def encodeComp (c : Comp) : GoString :=
  match c with
  | Comp.str s => jsonString s
  | Comp.int v => FormatInt v

/-- The encoded elements separated by commas. -/
def joinComma : List GoString → GoString
  | [] => []
  | [x] => x
  | x :: y :: rest => x ++ [44] ++ joinComma (y :: rest)

/-- Model of `json.Marshal` on a non-nil `[]interface{}` of strings and ints (for which
it returns no error). -/
def jsonMarshal (cs : List Comp) : GoString := [91] ++ joinComma (cs.map encodeComp) ++ [93]

/-- The method `P.MarshalJSON`: nil components are replaced by an empty slice. -/
def MarshalJSON (p : P) : GoString :=
  jsonMarshal (match p.components with
    | none => []
    | some cs => cs)

/-! ## `encoding/json`: decoding

`json.Unmarshal` first checks the syntax of the whole text, then stores the value.
The model reads the text into tokens, builds the value with the stack of open arrays
and objects that the scanner of `encoding/json` keeps, and stores it into a
`[]interface{}`. -/

/-- A finite `float64`: the value `(-1)^neg * mant * 2^exp`. -/
structure Float64 where
  neg : Bool
  mant : Nat
  exp : Int
deriving DecidableEq, Repr

/-- The test `math.Floor(v) == v` on a finite `float64`. -/
def Float64.isIntegral (f : Float64) : Bool :=
  decide (0 ≤ f.exp) || f.mant % 2 ^ (-f.exp).toNat == 0

/-- The conversion `int(v)` of a `float64` with `math.Floor(v) == v`. A value outside
`[-2^63, 2^63)` has an implementation-specific result in Go; the model takes the one
of amd64, `-2^63`. -/
def Float64.toInt (f : Float64) : Int :=
  let mag : Nat := if 0 ≤ f.exp then f.mant * 2 ^ f.exp.toNat else f.mant / 2 ^ (-f.exp).toNat
  let v : Int := if f.neg then -(mag : Int) else (mag : Int)
  if -(2 : Int) ^ 63 ≤ v ∧ v < (2 : Int) ^ 63 then v else -(2 : Int) ^ 63

/-- The position of the highest set bit of `n` (0 for `n < 2`); `fuel` bounds the
number of halvings. -/
def log2Fuel : Nat → Nat → Nat
  | 0, _ => 0
  | fuel + 1, n => if n < 2 then 0 else log2Fuel fuel (n / 2) + 1

/-- The quotient `a / b` rounded to the nearest integer, a tie going to the even one. -/
def divRoundEven (a b : Nat) : Nat :=
  if 2 * (a % b) < b then a / b
  else if b < 2 * (a % b) then a / b + 1
  else if (a / b) % 2 = 0 then a / b
  else a / b + 1

/-- The `float64` nearest to `n / d` (IEEE 754 round to nearest, ties to even), as
`strconv.ParseFloat(s, 64)` returns it; `none` when the rounded value reaches `2^1024`
(`ParseFloat` returns an error). With `2^e ≤ n / d < 2^(e+1)` the result is the multiple
of `2^t` nearest to `n / d`, where `t = e - 52`, or `-1074` for a subnormal result. -/
def roundFloat64 (neg : Bool) (n d : Nat) : Option Float64 :=
  if n = 0 then some ⟨neg, 0, 0⟩
  else
    let e0 : Int := (log2Fuel n n : Int) - (log2Fuel d d : Int)
    let ge : Bool :=
      if 0 ≤ e0 then decide (d * 2 ^ e0.toNat ≤ n) else decide (d ≤ n * 2 ^ (-e0).toNat)
    let e : Int := if ge then e0 else e0 - 1
    if 1023 < e then none
    else
      let t : Int := max (e - 52) (-1074)
      let m : Nat := divRoundEven (n * 2 ^ (-t).toNat) (d * 2 ^ t.toNat)
      if e = 1023 ∧ 2 ^ 53 ≤ m then none else some ⟨neg, m, t⟩

/-- A value `json.Unmarshal` stores into an `interface{}`: `nil`, `bool`, `float64`,
`string`, `[]interface{}`, or `map[string]interface{}` (kept as the members in the
order of the text). -/
inductive JVal where
  | null
  | bool (b : Bool)
  | num (f : Float64)
  | str (s : GoString)
  | arr (xs : List JVal)
  | obj (kvs : List (GoString × JVal))

/-- A token of a JSON text. -/
inductive JTok where
  | lbrack
  | rbrack
  | lbrace
  | rbrace
  | comma
  | colon
  | lit (v : JVal)

/-- The value of the four hexadecimal digits of a `\uXXXX` escape (`getu4`). -/
def getu4 (s : GoString) : Option Nat :=
  match s with
  | a :: b :: c :: d :: _ => hexVal [a, b, c, d] 0
  | _ => none

/-- One character of a JSON string literal, `s` starting at it (not at the closing
quote): the bytes `unquote` writes for it and the number of bytes of `s` it takes;
`none` when the scanner rejects it. Invalid UTF-8 and lone surrogates become U+FFFD. -/
def jsonUnquoteChar (s : GoString) : Option (GoString × Nat) :=
  match s with
  | [] => none
  | c :: t =>
    if c = 92 then
      match t with
      | [] => none
      | e :: u =>
        if e = 34 ∨ e = 92 ∨ e = 47 then some ([e], 2)
        else if e = 98 then some ([8], 2)
        else if e = 102 then some ([12], 2)
        else if e = 110 then some ([10], 2)
        else if e = 114 then some ([13], 2)
        else if e = 116 then some ([9], 2)
        else if e = 117 then
          match getu4 u with
          | none => none
          | some rr =>
            if 0xD800 ≤ rr ∧ rr < 0xE000 then
              (match u.drop 4 with
                | 92 :: 117 :: v =>
                  match getu4 v with
                  | some rr1 =>
                    if rr < 0xDC00 ∧ 0xDC00 ≤ rr1 ∧ rr1 < 0xE000 then
                      some (EncodeRune ((rr - 0xD800) * 0x400 + (rr1 - 0xDC00) + 0x10000), 12)
                    else some (EncodeRune RuneError, 6)
                  | none => some (EncodeRune RuneError, 6)
                | _ => some (EncodeRune RuneError, 6))
            else some (EncodeRune rr, 6)
        else none
    else if c < 0x20 then none
    else if c < 0x80 then some ([c], 1)
    else some (EncodeRune (DecodeRune s).1, (DecodeRune s).2)

/-- The text of a JSON string literal after its opening quote, with `skip` bytes of the
current character still to pass: the Go string it denotes and the text after the
closing quote. -/
def jsonUnquoteLoop : Nat → GoString → Option (GoString × GoString)
  | _, [] => none
  | skip + 1, _ :: t => jsonUnquoteLoop skip t
  | 0, c :: t =>
    if c = 34 then some ([], t)
    else
      match jsonUnquoteChar (c :: t) with
      | none => none
      | some (out, n) =>
        match jsonUnquoteLoop (n - 1) t with
        | none => none
        | some (buf, rest) => some (out ++ buf, rest)

/-- A JSON number at the head of `s`: its `float64` value and the number of bytes of
the literal; `none` when the text is not a number or the value overflows. -/
def jsonNumber (s : GoString) : Option (Float64 × Nat) :=
  let neg := s.head? = some 45
  let s1 := if neg then s.drop 1 else s
  let ip := if s1.head? = some 48 then [48] else s1.takeWhile isDigit
  if ip.isEmpty then none
  else
    let s2 := s1.drop ip.length
    let hasFrac := s2.head? = some 46
    let fp := if hasFrac then (s2.drop 1).takeWhile isDigit else []
    if hasFrac ∧ fp.isEmpty then none
    else
      let s3 := if hasFrac then s2.drop (1 + fp.length) else s2
      let hasExp := s3.head? = some 101 ∨ s3.head? = some 69
      let s4 := s3.drop 1
      let hasSign := s4.head? = some 43 ∨ s4.head? = some 45
      let s5 := if hasSign then s4.drop 1 else s4
      let ep := if hasExp then s5.takeWhile isDigit else []
      if hasExp ∧ ep.isEmpty then none
      else
        let len := (if neg then 1 else 0) + ip.length + (if hasFrac then 1 + fp.length else 0)
          + (if hasExp then 1 + (if hasSign then 1 else 0) + ep.length else 0)
        let ex : Int := (if s4.head? = some 45 then -(digitsVal ep : Int) else (digitsVal ep : Int))
          - (fp.length : Int)
        let m := digitsVal (ip ++ fp)
        match roundFloat64 neg (m * 10 ^ ex.toNat) (10 ^ (-ex).toNat) with
        | none => none
        | some f => some (f, len)

/-- The token at the head of `s` (`none` for white space) and the number of bytes it
takes; the outer `none` when no token starts there. -/
def jsonLexOne (s : GoString) : Option (Option JTok × Nat) :=
  match s with
  | [] => none
  | c :: t =>
    if c = 32 ∨ c = 9 ∨ c = 13 ∨ c = 10 then some (none, 1)
    else if c = 91 then some (some JTok.lbrack, 1)
    else if c = 93 then some (some JTok.rbrack, 1)
    else if c = 123 then some (some JTok.lbrace, 1)
    else if c = 125 then some (some JTok.rbrace, 1)
    else if c = 44 then some (some JTok.comma, 1)
    else if c = 58 then some (some JTok.colon, 1)
    else if c = 34 then
      match jsonUnquoteLoop 0 t with
      | none => none
      | some (v, rest) => some (some (JTok.lit (JVal.str v)), s.length - rest.length)
    else if s.take 4 = [116, 114, 117, 101] then some (some (JTok.lit (JVal.bool true)), 4)
    else if s.take 5 = [102, 97, 108, 115, 101] then some (some (JTok.lit (JVal.bool false)), 5)
    else if s.take 4 = [110, 117, 108, 108] then some (some (JTok.lit JVal.null), 4)
    else
      match jsonNumber s with
      | none => none
      | some (f, n) => some (some (JTok.lit (JVal.num f)), n)

/-- The tokens of a JSON text, with `skip` bytes of the current token still to pass. -/
def jsonLex : Nat → GoString → Option (List JTok)
  | _, [] => some []
  | skip + 1, _ :: t => jsonLex skip t
  | 0, c :: t =>
    match jsonLexOne (c :: t) with
    | none => none
    | some (tok, n) =>
      match jsonLex (n - 1) t with
      | none => none
      | some toks =>
        match tok with
        | none => some toks
        | some k => some (k :: toks)

/-- An array or object still open while a JSON text is read. -/
inductive JFrame where
  | arr (done : List JVal)
  | obj (done : List (GoString × JVal)) (key : Option GoString)

/-- What the scanner of `encoding/json` expects next. -/
inductive JMode where
  | beginValue
  | beginValueOrEmpty
  | beginStringOrEmpty
  | beginString
  | objectKey
  | endValue
  | endTop (v : JVal)

/-- A value is complete: it goes into the innermost open array or object, or is the
value of the text. -/
def jsonFinish (v : JVal) (stack : List JFrame) : Option (JMode × List JFrame) :=
  match stack with
  | [] => some (JMode.endTop v, [])
  | JFrame.arr done :: rest => some (JMode.endValue, JFrame.arr (done ++ [v]) :: rest)
  | JFrame.obj done (some k) :: rest =>
    some (JMode.endValue, JFrame.obj (done ++ [(k, v)]) none :: rest)
  | JFrame.obj _ none :: _ => none

/-- The nesting limit `maxNestingDepth` of `encoding/json`. -/
def maxNestingDepth : Nat := 10000

/-- One step of the scanner on a token; `none` is a syntax error. -/
def jsonStep (mode : JMode) (stack : List JFrame) (tok : JTok) : Option (JMode × List JFrame) :=
  match mode, tok with
  | JMode.beginValue, JTok.lit v => jsonFinish v stack
  | JMode.beginValueOrEmpty, JTok.lit v => jsonFinish v stack
  | JMode.beginValue, JTok.lbrack =>
    if stack.length + 1 ≤ maxNestingDepth then
      some (JMode.beginValueOrEmpty, JFrame.arr [] :: stack) else none
  | JMode.beginValueOrEmpty, JTok.lbrack =>
    if stack.length + 1 ≤ maxNestingDepth then
      some (JMode.beginValueOrEmpty, JFrame.arr [] :: stack) else none
  | JMode.beginValue, JTok.lbrace =>
    if stack.length + 1 ≤ maxNestingDepth then
      some (JMode.beginStringOrEmpty, JFrame.obj [] none :: stack) else none
  | JMode.beginValueOrEmpty, JTok.lbrace =>
    if stack.length + 1 ≤ maxNestingDepth then
      some (JMode.beginStringOrEmpty, JFrame.obj [] none :: stack) else none
  | JMode.beginValueOrEmpty, JTok.rbrack =>
    (match stack with
      | JFrame.arr done :: rest => jsonFinish (JVal.arr done) rest
      | _ => none)
  | JMode.beginStringOrEmpty, JTok.rbrace =>
    (match stack with
      | JFrame.obj done none :: rest => jsonFinish (JVal.obj done) rest
      | _ => none)
  | JMode.beginStringOrEmpty, JTok.lit (JVal.str k) =>
    (match stack with
      | JFrame.obj done none :: rest => some (JMode.objectKey, JFrame.obj done (some k) :: rest)
      | _ => none)
  | JMode.beginString, JTok.lit (JVal.str k) =>
    (match stack with
      | JFrame.obj done none :: rest => some (JMode.objectKey, JFrame.obj done (some k) :: rest)
      | _ => none)
  | JMode.objectKey, JTok.colon => some (JMode.beginValue, stack)
  | JMode.endValue, JTok.comma =>
    (match stack with
      | JFrame.arr _ :: _ => some (JMode.beginValue, stack)
      | JFrame.obj _ none :: _ => some (JMode.beginString, stack)
      | _ => none)
  | JMode.endValue, JTok.rbrack =>
    (match stack with
      | JFrame.arr done :: rest => jsonFinish (JVal.arr done) rest
      | _ => none)
  | JMode.endValue, JTok.rbrace =>
    (match stack with
      | JFrame.obj done none :: rest => jsonFinish (JVal.obj done) rest
      | _ => none)
  | _, _ => none

/-- The scanner run over the tokens: the value of the text, if it is well formed. -/
def jsonRun : List JTok → JMode → List JFrame → Option JVal
  | [], JMode.endTop v, _ => some v
  | [], _, _ => none
  | tok :: rest, mode, stack =>
    match jsonStep mode stack tok with
    | none => none
    | some (mode', stack') => jsonRun rest mode' stack'

/-- The value of a JSON text; `none` when `json.Unmarshal` returns an error for it
whatever the target (a syntax error, or a number out of the range of `float64`). -/
def jsonParse (b : GoString) : Option JVal :=
  match jsonLex 0 b with
  | none => none
  | some toks => jsonRun toks JMode.beginValue []

/-- Model of `json.Unmarshal(b, &comps)` for `comps` of type `[]interface{}`: the
elements stored; `none` is a returned error. The text must be an array, or `null`,
which sets the slice to nil. -/
def jsonUnmarshalSlice (b : GoString) : Option (List JVal) :=
  match jsonParse b with
  | some (JVal.arr xs) => some xs
  | some JVal.null => some []
  | _ => none

/-! ## `instance.go`: decoding -/

/-- The errors `UnmarshalJSON` returns. -/
inductive UnmarshalError where
  | decode
  | unexpectedFloat (v : Float64)
  | unexpectedValue (v : JVal)

/-- The `for` loop of `UnmarshalJSON` over the decoded values still to visit; `p` is the
receiver. The result is the receiver after the call and the error returned. -/
def unmarshalLoop : List JVal → P → P × Option UnmarshalError
  | [], p => (p, none)
  | c :: rest, p =>
    match c with
    | JVal.num v =>
      if !v.isIntegral then (p, some (UnmarshalError.unexpectedFloat v))
      else unmarshalLoop rest { components := goAppend p.components [Comp.int v.toInt] }
    | JVal.str s => unmarshalLoop rest { components := goAppend p.components [Comp.str s] }
    | v => (p, some (UnmarshalError.unexpectedValue v))

/-- The method `(*P).UnmarshalJSON`: the receiver after the call and the error
returned (`none` is the nil error). -/
def UnmarshalJSON (p : P) (b : GoString) : P × Option UnmarshalError :=
  match jsonUnmarshalSlice b with
  | none => (p, some UnmarshalError.decode)
  | some comps => unmarshalLoop comps { components := some [] }

/-! ## `instance.go`: concatenation and the debug form, on component values -/

/-- The method `P.Path` on component values: the components of each argument that is
not nil are appended in order. -/
def P.Path (p : P) (paths : List P) : P :=
  paths.foldl (fun acc pi =>
    if pi.components ≠ none then { components := goAppend acc.components (elems pi.components) }
    else acc) p

/-- The method `P.String`: the bytes `json.Marshal` returns for the components, nil
components being replaced by an empty slice; the error is dropped. -/
def P.String (p : P) : GoString :=
  jsonMarshal (match p.components with
    | none => []
    | some cs => cs)

/-! ## `instance.go`: slices and their backing arrays

`Str`, `Int`, `Path` and `Sub` are written with the built-in `append` and a slice
expression. What these return depends on the capacity of the backing array of
`p.components` and on which slices share that array, so the methods are modelled here
over a store of backing arrays. The type `P` above records the elements of a slice
only. -/

/-- An element of a `[]interface{}` backing array: `none` is the nil interface value,
which an array holds wherever nothing was stored. -/
abbrev Cell := Option Comp

/-- The backing arrays allocated so far; an array is named by its position. -/
abbrev Heap := List (List Cell)

/-- A non-nil `[]interface{}`: its backing array and its length. Every slice that a `P`
holds is a literal or a result of `append`, so it starts at the first element of its
array and its capacity is the length of that array. -/
structure Slice where
  arr : Nat
  len : Nat
deriving DecidableEq, Repr

/-- The Go struct `P` with its slice header; `none` is the nil slice. -/
structure HP where
  components : Option Slice
deriving DecidableEq, Repr

/-- The backing array at address `a`. -/
def array (h : Heap) (a : Nat) : List Cell := h.getD a []

/-- The built-in `len`. -/
def goLen (s : Option Slice) : Nat :=
  match s with
  | none => 0
  | some sl => sl.len

/-- The built-in `cap`. -/
def goCap (h : Heap) (s : Option Slice) : Nat :=
  match s with
  | none => 0
  | some sl => (array h sl.arr).length

/-- The elements of a slice, in order. -/
def cells (h : Heap) (s : Option Slice) : List Cell :=
  match s with
  | none => []
  | some sl => (array h sl.arr).take sl.len

/-- The built-in `append(s, xs...)`: when the elements fit in the capacity of `s` they
are stored in its backing array after the first `len(s)` elements and the array is
shared with the result; otherwise a new array is allocated, of the capacity
`grow (cap s) n` that the runtime picks for the new length `n`, the elements are copied
to it, and the rest of it is nil. -/
def heapAppend (grow : Nat → Nat → Nat) (h : Heap) (s : Option Slice) (xs : List Cell) :
    Heap × Option Slice :=
  let n := goLen s + xs.length
  if n ≤ goCap h s then
    match s with
    | none => (h, none)
    | some sl =>
      (h.set sl.arr ((array h sl.arr).take sl.len ++ xs ++ (array h sl.arr).drop n),
        some { arr := sl.arr, len := n })
  else
    (h ++ [cells h s ++ xs ++ List.replicate (grow (goCap h s) n - n) none],
      some { arr := h.length, len := n })

/-- The capacity `runtime.growslice` picks for a `[]interface{}` of capacity `c` that
must hold `n` elements, while the result stays within 16 elements (above that, size
classes and a slower growth apply): `n` when `n` exceeds `2c`, else `2c`. -/
def growslice (c n : Nat) : Nat := if n > 2 * c then n else 2 * c

/-- The method `P.Str`: the strings are appended one at a time. -/
def HP.Str (grow : Nat → Nat → Nat) (h : Heap) (p : HP) (s : List GoString) : Heap × HP :=
  s.foldl (fun st si =>
    ((heapAppend grow st.1 st.2.components [some (Comp.str si)]).1,
      { components := (heapAppend grow st.1 st.2.components [some (Comp.str si)]).2 })) (h, p)

/-- The method `P.Int`: the ints are appended one at a time. -/
def HP.Int (grow : Nat → Nat → Nat) (h : Heap) (p : HP) (i : List Int) : Heap × HP :=
  i.foldl (fun st ii =>
    ((heapAppend grow st.1 st.2.components [some (Comp.int ii)]).1,
      { components := (heapAppend grow st.1 st.2.components [some (Comp.int ii)]).2 })) (h, p)

/-- The method `P.Path`: the elements of each argument that is not nil, as they are
when its turn comes, are appended in one `append`. -/
def HP.Path (grow : Nat → Nat → Nat) (h : Heap) (p : HP) (paths : List HP) : Heap × HP :=
  paths.foldl (fun st pi =>
    if pi.components ≠ none then
      ((heapAppend grow st.1 st.2.components (cells st.1 pi.components)).1,
        { components := (heapAppend grow st.1 st.2.components (cells st.1 pi.components)).2 })
    else st) (h, p)

/-- The helper `Str`: `P{}.Str(s...)`. -/
def Str (grow : Nat → Nat → Nat) (h : Heap) (s : List GoString) : Heap × HP :=
  HP.Str grow h { components := none } s

/-- The method `P.Len` on a slice header. -/
def HP.Len (p : HP) : Nat := goLen p.components

/-- The method `P.At`: the index expression faults unless `0 <= i < len`. -/
def HP.At (h : Heap) (p : HP) (i : ℤ) : Option Cell :=
  if 0 ≤ i ∧ i < (goLen p.components : ℤ) then
    some ((cells h p.components).getD i.toNat none)
  else none

/-- The method `P.Sub`. The slice expression `(p.components)[start:end]` faults unless
`0 <= start <= end <= cap(p.components)`; its elements are appended to the empty
literal `[]interface{}{}`. -/
def HP.Sub (grow : Nat → Nat → Nat) (h : Heap) (p : HP) (idxs : List ℤ) :
    Option (Heap × HP) :=
  let start : ℤ :=
    match idxs with
    | [] => 0
    | i :: _ => i
  let end_ : ℤ :=
    match idxs with
    | _ :: j :: _ => j
    | _ => (goLen p.components : ℤ)
  if 0 ≤ start ∧ start ≤ end_ ∧ end_ ≤ (goCap h p.components : ℤ) then
    let whole : List Cell :=
      match p.components with
      | none => []
      | some sl => array h sl.arr
    let r := heapAppend grow (h ++ [[]]) (some { arr := h.length, len := 0 })
      ((whole.drop start.toNat).take (end_.toNat - start.toNat))
    some (r.1, { components := r.2 })
  else none


/-! ## Definitions used to state and prove the properties -/

/-- The first byte of `z`, if there is one, is not a word character. -/
def notWordHead (z : GoString) : Prop := ∀ c, z.head? = some c → isWord c = false

/-- The loop of `FromJSPartial` entered with `lastIndex = pre.length`, the text being
`pre ++ rest` and the matches still to visit those found in `rest`. -/
def scanAt (pre : GoString) (a : Bool) (rest : GoString) (p : P) :
    Option (P × Nat × Option String) :=
  fromJSLoop (pre ++ rest) (findAllFrom a pre.length 0 rest) p pre.length

/-- The text `t` cannot go on a parsed path: it is empty, or its first byte is neither a
word character nor `[` and `t` does not begin with `.` followed by a word character. -/
def stopsTokens (t : GoString) : Bool :=
  match t with
  | [] => true
  | c :: u =>
    !isWord c && c != 91 &&
      !(c == 46 && (match u with
        | [] => false
        | d :: _ => isWord d))

/-- Every bracket token of `s` is the rendering, by `ToJS`, of the component it is
decoded to: a bracketed integer is written as `strconv.FormatInt` writes it, a bracketed
string is `strconv.Quote` of a text that `canDot` rejects. -/
def bracketsCanonical (tbl : Nat → Bool) (s : GoString) : Bool :=
  (FindAllStringIndex s).all (fun m =>
    match goSlice s m.1 m.2 with
    | none => true
    | some tok =>
      if tok.head? = some 91 then
        match decodePiece tok with
        | some (Except.ok c) => ToJS tbl { components := some [c] } == tok
        | _ => true
      else true)

/-- The `float64` that the decimal text of the `int` `v` is read as. -/
def floatOfInt (v : Int) : Float64 :=
  (roundFloat64 (decide (v < 0)) v.natAbs 1).getD ⟨false, 0, 0⟩

/-- The value `json.Unmarshal` stores for the JSON text of the component `c`, when `c`
is a valid UTF-8 string or an `int` of magnitude at most `2^53`. -/
def decodedComp (c : Comp) : JVal :=
  match c with
  | Comp.str s => JVal.str s
  | Comp.int v => JVal.num (floatOfInt v)

/-- The component survives the JSON encoding: a valid UTF-8 string, or an `int` of
magnitude at most `2^53`. -/
def jsonExact (c : Comp) : Prop :=
  match c with
  | Comp.str s => ValidString s = true
  | Comp.int v => v.natAbs ≤ 2 ^ 53

/-- The tokens of a JSON array after one of its elements: the other elements, each
after a comma, and the closing bracket. -/
def restToks : List JVal → List JTok
  | [] => [JTok.rbrack]
  | v :: r => JTok.comma :: JTok.lit v :: restToks r

/-- The tokens of a JSON array after its opening bracket. -/
def arrayToks : List JVal → List JTok
  | [] => [JTok.rbrack]
  | v :: r => JTok.lit v :: restToks r

/-- The component `UnmarshalJSON` appends for a decoded value: the string, or `int(v)`
for a number that passes the test `math.Floor(v) == v`; `none` for a value it rejects. -/
def compOf (x : JVal) : Option Comp :=
  match x with
  | JVal.str s => some (Comp.str s)
  | JVal.num f => if f.isIntegral then some (Comp.int f.toInt) else none
  | _ => none

/-- The error `UnmarshalJSON` returns for a decoded value it rejects. -/
def errorOf (x : JVal) : UnmarshalError :=
  match x with
  | JVal.num f => UnmarshalError.unexpectedFloat f
  | v => UnmarshalError.unexpectedValue v

/-- Printable ASCII other than `&`, `<` and `>`: the bytes for which Go's quoting and
JSON's HTML-safe quoting write the same text. -/
def jsonLike (v : GoString) : Bool :=
  v.all (fun b => 0x20 ≤ b && b ≤ 0x7E && b != 38 && b != 60 && b != 62)

/-- Bytes of `jsonLike` text that need no escape at all. -/
def plainText (v : GoString) : Bool :=
  jsonLike v && v.all (fun b => b != 34 && b != 92)

/-- The slice header points into the store: its array is allocated and its length is
within the capacity. -/
def okSlice (h : Heap) (s : Option Slice) : Bool :=
  match s with
  | none => true
  | some sl => decide (sl.arr < h.length) && decide (sl.len ≤ (array h sl.arr).length)

/-- The slice `t` holds no element of the backing array of `s` beyond `len(s)`: a write
by `append(s, ...)` into the spare capacity of `s` does not reach an element of `t`. -/
def covers (s t : Option Slice) : Bool :=
  match s, t with
  | some sl, some tl => tl.arr != sl.arr || decide (tl.len ≤ sl.len)
  | _, _ => true

/-- The element holding the string key with the ASCII text `s`. -/
def strCell (s : String) : Cell := some (Comp.str (ascii s))

/-- The store and path after `base := path.Str("a", "b", "c")` in an empty store. -/
def aliasBase : Heap × HP := Str growslice [] [ascii "a", ascii "b", ascii "c"]

/-- Then `q2 := base.Str("d")`. -/
def aliasQ2 : Heap × HP := HP.Str growslice aliasBase.1 aliasBase.2 [ascii "d"]

/-- Then `q1 := path.Str("z")`. -/
def aliasQ1 : Heap × HP := Str growslice aliasQ2.1 [ascii "z"]

/-- Then `r := base.Path(q1, q2)`. -/
def aliasResult : Heap × HP := HP.Path growslice aliasQ1.1 aliasBase.2 [aliasQ1.2, aliasQ2.2]

/-- The component a token stands for, in the words of the tokenization contract: a bare
identifier (first token only) or a dotted identifier (later tokens only) is a string
key, `[` + digits + `]` is the integer key of their decimal value when that is an
`int`, and `["` + text + `"]` is the string key `strconv.Unquote` reads from the quoted
text. Anything else is not a token. -/
def tokenComp (first : Bool) (t : GoString) : Option Comp :=
  match t with
  | [] => none
  | c :: u =>
    if c = 46 then (if !first && canDot u then some (Comp.str u) else none)
    else if c = 91 then
      if u.getLast? = some 93 then
        if !u.dropLast.isEmpty && u.dropLast.all isDigit then
          (if digitsVal u.dropLast < 2 ^ 63 then some (Comp.int (digitsVal u.dropLast))
            else none)
        else if u.dropLast.head? = some 34 then (Unquote u.dropLast).map Comp.str
        else none
      else none
    else if first && canDot t then some (Comp.str t) else none

/-- The components a list of tokens stands for, `first` telling whether the list starts
at the head of the text; `none` when one of them is not a token. -/
def decodeTokens : Bool → List GoString → Option (List Comp)
  | _, [] => some []
  | first, t :: ts =>
    match tokenComp first t, decodeTokens false ts with
    | some c, some cs => some (c :: cs)
    | _, _ => none

/-- The token `ToJS` writes for the component `c`, `first` telling whether the builder
is still empty. -/
def renderTok (tbl : Nat → Bool) (first : Bool) (c : Comp) : GoString :=
  match c with
  | Comp.str v =>
    if canDot v then (if first then v else 46 :: v) else [91] ++ Quote tbl v ++ [93]
  | Comp.int v => [91] ++ FormatInt v ++ [93]

/-- The tokens `ToJS` writes for a list of components. -/
def renderToks (tbl : Nat → Bool) : Bool → List Comp → List GoString
  | _, [] => []
  | first, c :: cs => renderTok tbl first c :: renderToks tbl false cs

/-- A component the parser can return: a Go string (bytes below 256), or an `int` that
is not negative. -/
def parseable (c : Comp) : Bool :=
  match c with
  | Comp.str v => v.all (fun b => decide (b < 256))
  | Comp.int v => decide (0 ≤ v) && decide (v < 2 ^ 63)


/-! ## Lemmas: the token pattern and the parsing loop -/

theorem findAllFrom_skip (b : Bool) (k off : Nat) (t : GoString) :
    findAllFrom b off (k + 1) t = findAllFrom false (off + (k + 1)) 0 (t.drop (k + 1)) := by
  induction k generalizing b off t with
  | zero =>
    cases t with
    | nil => simp [findAllFrom]
    | cons c u => simp [findAllFrom]
  | succ k ih =>
    cases t with
    | nil => simp [findAllFrom]
    | cons c u =>
      rw [findAllFrom, ih]
      simp only [List.drop_succ_cons]
      congr 1
      omega

theorem findAllFrom_start_ge (b : Bool) (off k : Nat) (t : GoString) :
    ∀ m ∈ findAllFrom b off k t, off + k ≤ m.1 := by
  induction t generalizing b off k with
  | nil => simp [findAllFrom]
  | cons c u ih =>
    intro m hm
    cases k with
    | succ k =>
      rw [findAllFrom] at hm
      have := ih _ _ _ m hm
      omega
    | zero =>
      rw [findAllFrom] at hm
      split at hm
      · rcases List.mem_cons.mp hm with h | h
        · subst h; simp
        · have := ih _ _ _ m h
          omega
      · have := ih _ _ _ m hm
        omega

theorem takeWhile_length_eq_iff (p : Nat → Bool) (y : GoString) (n : Nat) :
    (y.takeWhile p).length = n ↔
      n ≤ y.length ∧ (∀ c ∈ y.take n, p c = true) ∧ (∀ c, y[n]? = some c → p c = false) := by
  induction y generalizing n with
  | nil =>
    simp
    constructor
    · intro h; exact h.symm
    · intro h; exact h.symm
  | cons b u ih =>
    rw [List.takeWhile_cons]
    by_cases hb : p b = true
    · simp only [hb, if_true, List.length_cons]
      cases n with
      | zero => simp [hb]
      | succ n =>
        simp only [Nat.add_right_cancel_iff, List.take_succ_cons, List.mem_cons,
          List.getElem?_cons_succ, Nat.add_le_add_iff_right]
        rw [ih n]
        constructor
        · rintro ⟨h1, h2, h3⟩
          refine ⟨h1, ?_, h3⟩
          intro c hc
          rcases hc with rfl | hc
          · exact hb
          · exact h2 c hc
        · rintro ⟨h1, h2, h3⟩
          exact ⟨h1, fun c hc => h2 c (Or.inr hc), h3⟩
    · simp only [hb, if_false, List.length_nil]
      cases n with
      | zero => simp [hb]
      | succ n =>
        simp only [List.take_succ_cons, List.mem_cons]
        constructor
        · intro h; simp at h
        · rintro ⟨_, h2, _⟩
          exact absurd (h2 b (Or.inl rfl)) hb

theorem pieceRegAt_nil (a : Bool) : pieceRegAt a [] = none := by
  simp [pieceRegAt, matchBare, matchDotString, matchBracketNumber, matchBracketString]

theorem matchBare_nonword (a : Bool) (c : Nat) (t : GoString) (h : isWord c = false) :
    matchBare a (c :: t) = none := by
  simp [matchBare, List.takeWhile_cons, h]

theorem matchBracketString_head (c : Nat) (t : GoString) (h : c ≠ 91) :
    matchBracketString (c :: t) = none := by
  cases t <;> simp [matchBracketString, h]

theorem pieceRegAt_dot (a : Bool) (t : GoString) :
    pieceRegAt a (46 :: t) = matchDotString (46 :: t) := by
  have h1 : matchBare a (46 :: t) = none := matchBare_nonword a 46 t (by decide)
  have h3 : matchBracketNumber (46 :: t) = none := by simp [matchBracketNumber]
  have h4 : matchBracketString (46 :: t) = none := matchBracketString_head 46 t (by decide)
  simp only [pieceRegAt, h1, h3, h4]
  cases matchDotString (46 :: t) <;> rfl

theorem pieceRegAt_bracket (a : Bool) (t : GoString) :
    pieceRegAt a (91 :: t) =
      (match matchBracketNumber (91 :: t) with
        | some n => some n
        | none => matchBracketString (91 :: t)) := by
  have h1 : matchBare a (91 :: t) = none := matchBare_nonword a 91 t (by decide)
  have h2 : matchDotString (91 :: t) = none := by simp [matchDotString]
  simp only [pieceRegAt, h1, h2]

theorem pieceRegAt_other (a : Bool) (c : Nat) (t : GoString) (h1 : c ≠ 46) (h2 : c ≠ 91) :
    pieceRegAt a (c :: t) = matchBare a (c :: t) := by
  have h2' : matchDotString (c :: t) = none := by simp [matchDotString, h1]
  have h3 : matchBracketNumber (c :: t) = none := by simp [matchBracketNumber, h2]
  have h4 : matchBracketString (c :: t) = none := matchBracketString_head c t h2
  simp only [pieceRegAt, h2', h3, h4]
  cases matchBare a (c :: t) <;> rfl

theorem takeWhile_take_append (p : Nat → Bool) (x z : GoString) (n : Nat)
    (h : (x.takeWhile p).length = n) (hz : ∀ c, z.head? = some c → p c = false) :
    ((x.take n ++ z).takeWhile p).length = n := by
  rw [takeWhile_length_eq_iff] at h ⊢
  obtain ⟨h1, h2, _⟩ := h
  have hl : (x.take n).length = n := by simp [h1]
  refine ⟨by simp [hl], ?_, ?_⟩
  · intro c hc
    rw [List.take_append_of_le_length (by omega), List.take_take] at hc
    simp only [Nat.min_self] at hc
    exact h2 c hc
  · intro c hc
    rw [List.getElem?_append_right (by omega), hl, Nat.sub_self] at hc
    apply hz c
    rw [← hc]
    cases z <;> simp

theorem takeWhile_next (p : Nat → Bool) (x : GoString) :
    ∀ c, (x.drop (x.takeWhile p).length).head? = some c → p c = false := by
  intro c hc
  have h := (takeWhile_length_eq_iff p x _).mp rfl
  rw [List.head?_drop] at hc
  exact h.2.2 c hc

theorem matchStringTail_bounds (y : GoString) (m : Nat) (h : matchStringTail y = some m) :
    2 ≤ m ∧ m ≤ y.length := by
  induction y using matchStringTail.induct generalizing m with
  | case1 => simp [matchStringTail] at h
  | case2 t ht =>
    unfold matchStringTail at h
    simp [ht] at h
    subst h
    cases t with
    | nil => simp at ht
    | cons => simp
  | case3 t ht =>
    unfold matchStringTail at h
    simp [ht] at h
  | case4 =>
    unfold matchStringTail at h
    simp at h
  | case5 u =>
    unfold matchStringTail at h
    simp at h
  | case6 e u he _ ih =>
    unfold matchStringTail at h
    simp [he] at h
    obtain ⟨k, hk, rfl⟩ := h
    have := ih k hk
    simp
    omega
  | case7 b t h1 h2 ih =>
    unfold matchStringTail at h
    simp [h1, h2] at h
    obtain ⟨k, hk, rfl⟩ := h
    have := ih k hk
    simp
    omega

theorem matchStringTail_take_append (y z : GoString) (m : Nat)
    (h : matchStringTail y = some m) : matchStringTail (y.take m ++ z) = some m := by
  induction y using matchStringTail.induct generalizing m with
  | case1 => simp [matchStringTail] at h
  | case2 t ht =>
    unfold matchStringTail at h
    simp [ht] at h
    subst h
    cases t with
    | nil => simp at ht
    | cons c u =>
      simp at ht
      subst ht
      simp [matchStringTail]
  | case3 t ht =>
    unfold matchStringTail at h
    simp [ht] at h
  | case4 =>
    unfold matchStringTail at h
    simp at h
  | case5 u =>
    unfold matchStringTail at h
    simp at h
  | case6 e u he _ ih =>
    unfold matchStringTail at h
    simp [he] at h
    obtain ⟨k, hk, rfl⟩ := h
    have := ih k hk
    simp only [List.take_succ_cons, List.cons_append]
    unfold matchStringTail
    simp [he, this]
  | case7 b t h1 h2 ih =>
    unfold matchStringTail at h
    simp [h1, h2] at h
    obtain ⟨k, hk, rfl⟩ := h
    have := ih k hk
    simp only [List.take_succ_cons, List.cons_append]
    unfold matchStringTail
    simp [h1, h2, this]

theorem takeWhile_length_le (p : Nat → Bool) (x : GoString) :
    (x.takeWhile p).length ≤ x.length :=
  ((takeWhile_length_eq_iff p x _).mp rfl).1

theorem matchBare_eq_some (a : Bool) (x : GoString) (n : Nat) :
    matchBare a x = some n ↔ a = true ∧ 0 < n ∧ (x.takeWhile isWord).length = n := by
  unfold matchBare
  constructor
  · intro h
    split at h
    · rename_i hc
      simp only [Option.some.injEq] at h
      exact ⟨hc.1, by omega, h⟩
    · simp at h
  · rintro ⟨h1, h2, h3⟩
    rw [if_pos ⟨h1, by omega⟩, h3]

theorem matchDotString_eq_some (c : Nat) (t : GoString) (n : Nat) :
    matchDotString (c :: t) = some n ↔
      c = 46 ∧ 1 < n ∧ (t.takeWhile isWord).length + 1 = n := by
  simp only [matchDotString]
  constructor
  · intro h
    split at h
    · rename_i hc
      simp only [Option.some.injEq] at h
      exact ⟨hc.1, by omega, h⟩
    · simp at h
  · rintro ⟨h1, h2, h3⟩
    rw [if_pos ⟨h1, by omega⟩, h3]

theorem matchBracketNumber_eq_some (c : Nat) (t : GoString) (n : Nat) :
    matchBracketNumber (c :: t) = some n ↔
      c = 91 ∧ 0 < (t.takeWhile isDigit).length
        ∧ (t.drop (t.takeWhile isDigit).length).head? = some 93
        ∧ (t.takeWhile isDigit).length + 2 = n := by
  simp only [matchBracketNumber]
  constructor
  · intro h
    split at h
    · rename_i hc
      simp only [Option.some.injEq] at h
      exact ⟨hc.1, hc.2.1, hc.2.2, h⟩
    · simp at h
  · rintro ⟨h1, h2, h3, h4⟩
    rw [if_pos ⟨h1, h2, h3⟩, h4]

theorem matchBracketString_eq_some (x : GoString) (n : Nat) :
    matchBracketString x = some n ↔
      ∃ u m, x = 91 :: 34 :: u ∧ matchStringTail u = some m ∧ n = m + 2 := by
  unfold matchBracketString
  constructor
  · intro h
    split at h
    · rename_i c d t
      split at h
      · rename_i hc
        obtain ⟨rfl, rfl⟩ := hc
        simp only [Option.map_eq_some'] at h
        obtain ⟨m, hm, rfl⟩ := h
        exact ⟨t, m, rfl, hm, rfl⟩
      · simp at h
    · simp at h
  · rintro ⟨u, m, rfl, hm, rfl⟩
    simp [hm]

/-- A match of `pieceReg` is not empty and lies within the text. -/
theorem pieceRegAt_bounds (a : Bool) (x : GoString) (n : Nat) (h : pieceRegAt a x = some n) :
    1 ≤ n ∧ n ≤ x.length := by
  rcases x with _ | ⟨c, t⟩
  · simp [pieceRegAt_nil] at h
  · by_cases h46 : c = 46
    · subst h46
      rw [pieceRegAt_dot, matchDotString_eq_some] at h
      have := takeWhile_length_le isWord t
      simp only [List.length_cons]
      omega
    · by_cases h91 : c = 91
      · subst h91
        rw [pieceRegAt_bracket] at h
        cases hn : matchBracketNumber (91 :: t) with
        | some k =>
          rw [hn] at h
          simp only [Option.some.injEq] at h
          subst h
          rw [matchBracketNumber_eq_some] at hn
          obtain ⟨_, h2, h3, h4⟩ := hn
          have hlt : (t.takeWhile isDigit).length < t.length := by
            by_contra hge
            rw [List.drop_eq_nil_of_le (by omega)] at h3
            simp at h3
          simp only [List.length_cons]
          omega
        | none =>
          rw [hn] at h
          simp only at h
          rw [matchBracketString_eq_some] at h
          obtain ⟨u, m, hx, hm, rfl⟩ := h
          have := matchStringTail_bounds u m hm
          rw [hx]
          simp only [List.length_cons]
          omega
      · rw [pieceRegAt_other a c t h46 h91, matchBare_eq_some] at h
        have := takeWhile_length_le isWord (c :: t)
        omega

theorem notWordHead_nil : notWordHead [] := by
  intro c h; simp at h

/-- After an identifier token the next byte is not a word character. -/
theorem pieceRegAt_next (a : Bool) (x : GoString) (n : Nat) (h : pieceRegAt a x = some n)
    (hb : x.head? ≠ some 91) : notWordHead (x.drop n) := by
  rcases x with _ | ⟨c, t⟩
  · simp [pieceRegAt_nil] at h
  · by_cases h46 : c = 46
    · subst h46
      rw [pieceRegAt_dot, matchDotString_eq_some] at h
      obtain ⟨_, _, rfl⟩ := h
      simp only [List.drop_succ_cons]
      exact takeWhile_next isWord t
    · have h91 : c ≠ 91 := by simpa using hb
      rw [pieceRegAt_other a c t h46 h91, matchBare_eq_some] at h
      obtain ⟨_, _, rfl⟩ := h
      exact takeWhile_next isWord (c :: t)

/-- A match of `pieceReg` depends only on the matched bytes and, for an identifier, on
the byte after them not being a word character. -/
theorem pieceRegAt_take_append (a : Bool) (x z : GoString) (n : Nat)
    (h : pieceRegAt a x = some n) (hz : x.head? = some 91 ∨ notWordHead z) :
    pieceRegAt a (x.take n ++ z) = some n := by
  rcases x with _ | ⟨c, t⟩
  · simp [pieceRegAt_nil] at h
  · have hb := pieceRegAt_bounds a _ n h
    obtain ⟨k, rfl⟩ : ∃ k, n = k + 1 := ⟨n - 1, by omega⟩
    simp only [List.take_succ_cons, List.cons_append]
    by_cases h46 : c = 46
    · subst h46
      have hz' : notWordHead z := by
        rcases hz with hz | hz
        · simp at hz
        · exact hz
      rw [pieceRegAt_dot, matchDotString_eq_some] at h ⊢
      obtain ⟨_, h2, h3⟩ := h
      refine ⟨rfl, h2, ?_⟩
      have h3' : (t.takeWhile isWord).length = k := by omega
      rw [takeWhile_take_append isWord t z k h3' hz']
    · by_cases h91 : c = 91
      · subst h91
        rw [pieceRegAt_bracket] at h ⊢
        cases hn : matchBracketNumber (91 :: t) with
        | some j =>
          rw [hn] at h
          simp only [Option.some.injEq] at h
          subst h
          rw [matchBracketNumber_eq_some] at hn
          obtain ⟨_, h2, h3, h4⟩ := hn
          have hd : (t.takeWhile isDigit).length + 1 = k := by omega
          have hlen : ((t.take k ++ z).takeWhile isDigit).length = (t.takeWhile isDigit).length := by
            rw [takeWhile_length_eq_iff]
            have h0 := (takeWhile_length_eq_iff isDigit t _).mp rfl
            simp only [List.length_cons] at hb
            refine ⟨by simp; omega, ?_, ?_⟩
            · intro c hc
              apply h0.2.1 c
              rw [List.take_append_of_le_length (by simp; omega), List.take_take] at hc
              rw [Nat.min_eq_left (by omega)] at hc
              exact hc
            · intro c hc
              rw [List.getElem?_append_left (by simp; omega), List.getElem?_take_of_lt (by omega)]
                at hc
              exact h0.2.2 c hc
          have hm : matchBracketNumber (91 :: (t.take k ++ z)) = some (k + 1) := by
            rw [matchBracketNumber_eq_some, hlen]
            refine ⟨rfl, h2, ?_, by omega⟩
            rw [List.head?_drop] at h3 ⊢
            simp only [List.length_cons] at hb
            rw [List.getElem?_append_left (by simp; omega), List.getElem?_take_of_lt (by omega)]
            exact h3
          rw [hm]
        | none =>
          rw [hn] at h
          simp only at h
          rw [matchBracketString_eq_some] at h
          obtain ⟨u, m, hx, hm, hk⟩ := h
          simp only [List.cons.injEq, true_and] at hx
          subst hx
          have hkm : k = m + 1 := by omega
          subst hkm
          simp only [List.take_succ_cons, List.cons_append]
          have hnone : matchBracketNumber (91 :: 34 :: (u.take m ++ z)) = none := by
            simp [matchBracketNumber, List.takeWhile_cons, isDigit]
          rw [hnone]
          simp only
          rw [matchBracketString_eq_some]
          exact ⟨_, m, rfl, matchStringTail_take_append u z m hm, rfl⟩
      · have hz' : notWordHead z := by
          rcases hz with hz | hz
          · simp at hz; exact absurd hz h91
          · exact hz
        rw [pieceRegAt_other a c t h46 h91, matchBare_eq_some] at h
        obtain ⟨h1, h2, h3⟩ := h
        have := takeWhile_take_append isWord (c :: t) z (k + 1) h3 hz'
        simp only [List.take_succ_cons, List.cons_append] at this
        rw [pieceRegAt_other a c _ h46 h91, matchBare_eq_some]
        exact ⟨h1, h2, this⟩

theorem fromJSLoop_gap (s : GoString) (ms : List (Nat × Nat)) (p : P) (last : Nat)
    (h : ∀ m ∈ ms, last < m.1) : fromJSLoop s ms p last = some (p, last, none) := by
  cases ms with
  | nil =>
    simp only [fromJSLoop]
    split
    · rfl
    · rename_i hl
      simp only [ne_eq, Decidable.not_not] at hl
      rw [hl]
  | cons m rest =>
    have := h m (List.mem_cons_self _ _)
    simp only [fromJSLoop]
    rw [if_pos (by omega)]

theorem scanAt_none (pre : GoString) (a : Bool) (rest : GoString) (p : P)
    (h : pieceRegAt a rest = none) : scanAt pre a rest p = some (p, pre.length, none) := by
  unfold scanAt
  apply fromJSLoop_gap
  intro m hm
  cases rest with
  | nil => simp [findAllFrom] at hm
  | cons c t =>
    rw [findAllFrom, h] at hm
    have := findAllFrom_start_ge _ _ _ _ m hm
    omega

theorem goSlice_append (pre rest : GoString) (n : Nat) (h : n ≤ rest.length) :
    goSlice (pre ++ rest) pre.length (pre.length + n) = some (rest.take n) := by
  unfold goSlice
  rw [if_pos ⟨by omega, by simp; omega⟩]
  simp

theorem scanAt_some (pre : GoString) (a : Bool) (rest : GoString) (p : P) (n : Nat)
    (h : pieceRegAt a rest = some n) :
    scanAt pre a rest p =
      (match decodePiece (rest.take n) with
        | none => none
        | some (Except.error e) => some (p, 0, some e)
        | some (Except.ok c) =>
          scanAt (pre ++ rest.take n) false (rest.drop n)
            { components := goAppend p.components [c] }) := by
  have hb := pieceRegAt_bounds a rest n h
  unfold scanAt
  cases rest with
  | nil => simp at hb; omega
  | cons c t =>
    obtain ⟨k, rfl⟩ : ∃ k, n = k + 1 := ⟨n - 1, by omega⟩
    rw [findAllFrom, h]
    simp only [fromJSLoop, ne_eq, not_true_eq_false, if_false]
    rw [goSlice_append pre (c :: t) (k + 1) hb.2]
    simp only
    have hfa : findAllFrom false (pre.length + 1) (k + 1 - 1) t
        = findAllFrom false (pre ++ List.take (k + 1) (c :: t)).length 0 (List.drop (k + 1) (c :: t)) := by
      have hl : (pre ++ List.take (k + 1) (c :: t)).length = pre.length + (k + 1) := by
        simp only [List.length_append, List.length_take]
        omega
      rw [hl]
      cases k with
      | zero => simp
      | succ k =>
        have := findAllFrom_skip false k (pre.length + 1) t
        simp only [Nat.add_sub_cancel, List.drop_succ_cons]
        rw [this]
        congr 1
        omega
    have hs : pre ++ c :: t = (pre ++ List.take (k + 1) (c :: t)) ++ List.drop (k + 1) (c :: t) := by
      rw [List.append_assoc, List.take_append_drop]
    have hl : (pre ++ List.take (k + 1) (c :: t)).length = pre.length + (k + 1) := by
      simp only [List.length_append, List.length_take]
      omega
    rw [hfa, ← hl, ← hs]

theorem FromJSPartial_eq_scanAt (s : GoString) (h0 : s ≠ []) (h1 : s.head? ≠ some 46) :
    FromJSPartial s = scanAt [] true s { components := some [] } := by
  unfold FromJSPartial scanAt FindAllStringIndex
  rw [if_neg (by simpa using h0), if_neg h1]
  rfl

theorem notWordHead_append (x z : GoString) (hx : x ≠ [] → notWordHead x)
    (hz : x = [] → notWordHead z) : notWordHead (x ++ z) := by
  cases x with
  | nil => simpa using hz rfl
  | cons c t =>
    intro d hd
    exact hx (by simp) d (by simpa using hd)

/-- The match found at the head of `rest` is found again when `t` is appended, as long
as `t` does not continue an identifier. -/
theorem pieceRegAt_append (a : Bool) (rest t : GoString) (n : Nat)
    (h : pieceRegAt a rest = some n) (ht : notWordHead t) :
    pieceRegAt a (rest ++ t) = some n := by
  have hb := pieceRegAt_bounds a rest n h
  have hsplit : rest ++ t = rest.take n ++ (rest.drop n ++ t) := by
    rw [← List.append_assoc, List.take_append_drop]
  rw [hsplit]
  apply pieceRegAt_take_append a rest _ n h
  by_cases h91 : rest.head? = some 91
  · exact Or.inl h91
  · right
    apply notWordHead_append
    · intro _
      exact pieceRegAt_next a rest n h h91
    · intro _
      exact ht

/-- The index returned without an error lies between the offset where the loop was
entered and the end of the text. -/
theorem scanAt_idx_bounds (rest : GoString) :
    ∀ (pre : GoString) (a : Bool) (p q : P) (idx : Nat),
      scanAt pre a rest p = some (q, idx, none) →
        pre.length ≤ idx ∧ idx ≤ pre.length + rest.length := by
  generalize hlen : rest.length = k
  induction k using Nat.strong_induction_on generalizing rest with
  | _ k ih =>
    subst hlen
    intro pre a p q idx h
    cases hm : pieceRegAt a rest with
    | none =>
      rw [scanAt_none pre a rest p hm] at h
      simp only [Option.some.injEq, Prod.mk.injEq] at h
      omega
    | some n =>
      have hb := pieceRegAt_bounds a rest n hm
      rw [scanAt_some pre a rest p n hm] at h
      rcases hd : decodePiece (rest.take n) with _ | ⟨e | c⟩
      · rw [hd] at h; simp at h
      · rw [hd] at h; simp at h
      · rw [hd] at h
        simp only at h
        have := ih (rest.drop n).length (by simp; omega) (rest.drop n) rfl _ _ _ _ _ h
        simp only [List.length_append, List.length_take, List.length_drop] at this
        omega

/-- Parsing `rest ++ t`, where `rest` is consumed whole and `t` does not continue an
identifier, goes on at `t` from the state reached at the end of `rest`. -/
theorem scanAt_append (rest : GoString) :
    ∀ (pre : GoString) (a : Bool) (p q : P) (t : GoString),
      scanAt pre a rest p = some (q, pre.length + rest.length, none) → notWordHead t →
        scanAt pre a (rest ++ t) p = scanAt (pre ++ rest) (a && rest.isEmpty) t q := by
  generalize hlen : rest.length = k
  induction k using Nat.strong_induction_on generalizing rest with
  | _ k ih =>
    subst hlen
    intro pre a p q t h ht
    cases hm : pieceRegAt a rest with
    | none =>
      rw [scanAt_none pre a rest p hm] at h
      simp only [Option.some.injEq, Prod.mk.injEq, and_true] at h
      have hr : rest = [] := List.eq_nil_of_length_eq_zero (by omega)
      subst hr
      simp [h.1]
    | some n =>
      have hb := pieceRegAt_bounds a rest n hm
      have hne : rest ≠ [] := by
        intro h0; subst h0; simp at hb; omega
      rw [scanAt_some pre a rest p n hm] at h
      rw [scanAt_some pre a (rest ++ t) p n (pieceRegAt_append a rest t n hm ht)]
      rw [List.take_append_of_le_length hb.2, List.drop_append_of_le_length hb.2]
      rcases hd : decodePiece (rest.take n) with _ | ⟨e | c⟩
      · rw [hd] at h; simp at h
      · rw [hd] at h; simp at h
      · rw [hd] at h
        simp only at h ⊢
        have hl : (pre ++ rest.take n).length + (rest.drop n).length = pre.length + rest.length := by
          simp only [List.length_append, List.length_take, List.length_drop]
          omega
        rw [← hl] at h
        have := ih (rest.drop n).length (by simp; omega) (rest.drop n) rfl _ _ _ _ t h ht
        rw [this, List.append_assoc, List.take_append_drop]
        have : rest.isEmpty = false := by
          cases rest with
          | nil => exact absurd rfl hne
          | cons => rfl
        simp [this]

/-- A matched identifier token is decoded without an error. -/
theorem decodePiece_ident (m : GoString) (h0 : m ≠ []) (h : m.head? ≠ some 91) :
    ∃ c, decodePiece m = some (Except.ok c) := by
  cases m with
  | nil => exact absurd rfl h0
  | cons c t =>
    have h91 : c ≠ 91 := by simpa using h
    unfold decodePiece
    by_cases h46 : c = 46
    · exact ⟨Comp.str t, by simp [h46]⟩
    · exact ⟨Comp.str (c :: t), by simp [h46, h91]⟩

theorem takeWhile_length_append_ge (p : Nat → Bool) (x z : GoString) :
    (x.takeWhile p).length ≤ ((x ++ z).takeWhile p).length := by
  rw [List.takeWhile_append]
  split
  · rename_i h
    simp only [List.length_append]
    omega
  · exact Nat.le_refl _

/-- An identifier matched at the head of `x` is still matched, possibly longer, when
more text follows `x`. -/
theorem pieceRegAt_extend (a : Bool) (x z : GoString) (n : Nat)
    (h : pieceRegAt a x = some n) (hb : x.head? ≠ some 91) :
    ∃ n', n ≤ n' ∧ pieceRegAt a (x ++ z) = some n' := by
  rcases x with _ | ⟨c, t⟩
  · simp [pieceRegAt_nil] at h
  · simp only [List.cons_append]
    by_cases h46 : c = 46
    · subst h46
      rw [pieceRegAt_dot, matchDotString_eq_some] at h
      obtain ⟨_, h2, h3⟩ := h
      have := takeWhile_length_append_ge isWord t z
      refine ⟨((t ++ z).takeWhile isWord).length + 1, by omega, ?_⟩
      rw [pieceRegAt_dot, matchDotString_eq_some]
      exact ⟨rfl, by omega, rfl⟩
    · have h91 : c ≠ 91 := by simpa using hb
      rw [pieceRegAt_other a c t h46 h91, matchBare_eq_some] at h
      obtain ⟨h1, h2, h3⟩ := h
      have := takeWhile_length_append_ge isWord (c :: t) z
      simp only [List.cons_append] at this
      refine ⟨((c :: (t ++ z)).takeWhile isWord).length, by omega, ?_⟩
      rw [pieceRegAt_other a c _ h46 h91, matchBare_eq_some]
      exact ⟨h1, by omega, rfl⟩

/-- If the text `x` is consumed whole, then parsing a text that starts with `x` does
not stop with a nil error before the end of `x`. -/
theorem scanAt_extend (x : GoString) :
    ∀ (pre : GoString) (a : Bool) (p q : P) (z : GoString) (r : P) (idx : Nat),
      scanAt pre a x p = some (q, pre.length + x.length, none) →
      scanAt pre a (x ++ z) p = some (r, idx, none) →
        pre.length + x.length ≤ idx := by
  generalize hlen : x.length = k
  induction k using Nat.strong_induction_on generalizing x with
  | _ k ih =>
    subst hlen
    intro pre a p q z r idx h hz
    cases hm : pieceRegAt a x with
    | none =>
      rw [scanAt_none pre a x p hm] at h
      simp only [Option.some.injEq, Prod.mk.injEq, and_true] at h
      have := scanAt_idx_bounds _ _ _ _ _ _ hz
      omega
    | some n =>
      have hb := pieceRegAt_bounds a x n hm
      rw [scanAt_some pre a x p n hm] at h
      by_cases hsame : x.head? = some 91 ∨ n < x.length
      · have hm' : pieceRegAt a (x ++ z) = some n := by
          have hsplit : x ++ z = x.take n ++ (x.drop n ++ z) := by
            rw [← List.append_assoc, List.take_append_drop]
          rw [hsplit]
          apply pieceRegAt_take_append a x _ n hm
          by_cases h91 : x.head? = some 91
          · exact Or.inl h91
          · right
            have hlt : n < x.length := by
              rcases hsame with h | h
              · exact absurd h h91
              · exact h
            apply notWordHead_append
            · intro _
              exact pieceRegAt_next a x n hm h91
            · intro h0
              have : (x.drop n).length = 0 := by rw [h0]; rfl
              simp only [List.length_drop] at this
              omega
        rw [scanAt_some pre a (x ++ z) p n hm'] at hz
        rw [List.take_append_of_le_length hb.2, List.drop_append_of_le_length hb.2] at hz
        rcases hd : decodePiece (x.take n) with _ | ⟨e | c⟩
        · rw [hd] at h; simp at h
        · rw [hd] at h; simp at h
        · rw [hd] at h hz
          simp only at h hz
          have hl : (pre ++ x.take n).length + (x.drop n).length = pre.length + x.length := by
            simp only [List.length_append, List.length_take, List.length_drop]
            omega
          rw [← hl] at h
          have := ih (x.drop n).length (by simp; omega) (x.drop n) rfl _ _ _ _ z r idx h hz
          omega
      · have h91 : x.head? ≠ some 91 := fun h91 => hsame (Or.inl h91)
        have hn : n = x.length := by
          have : ¬ n < x.length := fun hlt => hsame (Or.inr hlt)
          omega
        obtain ⟨n', hn', hm'⟩ := pieceRegAt_extend a x z n hm h91
        have hb' := pieceRegAt_bounds a (x ++ z) n' hm'
        rw [scanAt_some pre a (x ++ z) p n' hm'] at hz
        have hne : (x ++ z).take n' ≠ [] := by
          intro h0
          have : ((x ++ z).take n').length = 0 := by rw [h0]; rfl
          rw [List.length_take] at this
          omega
        have hhead : ((x ++ z).take n').head? ≠ some 91 := by
          cases x with
          | nil => simp at hb; omega
          | cons c t =>
            obtain ⟨j, rfl⟩ : ∃ j, n' = j + 1 := ⟨n' - 1, by omega⟩
            simpa using h91
        obtain ⟨c, hc⟩ := decodePiece_ident _ hne hhead
        rw [hc] at hz
        simp only at hz
        have := scanAt_idx_bounds _ _ _ _ _ _ hz
        simp only [List.length_append, List.length_take] at this hb'
        omega

/-- The part of the text up to the returned index is consumed whole, with the same
path, when it is parsed on its own. -/
theorem scanAt_truncate (rest : GoString) :
    ∀ (pre : GoString) (a : Bool) (p q : P) (idx : Nat),
      scanAt pre a rest p = some (q, idx, none) →
        scanAt pre a (rest.take (idx - pre.length)) p = some (q, idx, none) := by
  generalize hlen : rest.length = k
  induction k using Nat.strong_induction_on generalizing rest with
  | _ k ih =>
    subst hlen
    intro pre a p q idx h
    cases hm : pieceRegAt a rest with
    | none =>
      rw [scanAt_none pre a rest p hm] at h
      simp only [Option.some.injEq, Prod.mk.injEq, and_true] at h
      obtain ⟨rfl, rfl⟩ := h
      simp only [Nat.sub_self, List.take_zero]
      exact scanAt_none pre a [] p (pieceRegAt_nil a)
    | some n =>
      have hb := pieceRegAt_bounds a rest n hm
      have h' := h
      rw [scanAt_some pre a rest p n hm] at h
      rcases hd : decodePiece (rest.take n) with _ | ⟨e | c⟩
      · rw [hd] at h; simp at h
      · rw [hd] at h; simp at h
      · rw [hd] at h
        simp only at h
        have hbd := scanAt_idx_bounds _ _ _ _ _ _ h
        have hi := ih (rest.drop n).length (by simp; omega) (rest.drop n) rfl _ _ _ _ _ h
        have hl : (pre ++ rest.take n).length = pre.length + n := by
          simp only [List.length_append, List.length_take]
          omega
        rw [hl] at hi hbd
        have hsplit : rest.take (idx - pre.length)
            = rest.take n ++ (rest.drop n).take (idx - (pre.length + n)) := by
          have : idx - pre.length = n + (idx - (pre.length + n)) := by omega
          rw [this, List.take_add]
        have hm' : pieceRegAt a (rest.take (idx - pre.length)) = some n := by
          rw [hsplit]
          apply pieceRegAt_take_append a rest _ n hm
          by_cases h91 : rest.head? = some 91
          · exact Or.inl h91
          · right
            intro d hd'
            apply pieceRegAt_next a rest n hm h91 d
            cases hq : (rest.drop n).take (idx - (pre.length + n)) with
            | nil => rw [hq] at hd'; simp at hd'
            | cons e u =>
              rw [hq] at hd'
              simp only [List.head?_cons, Option.some.injEq] at hd'
              subst hd'
              have hpre := List.take_prefix (idx - (pre.length + n)) (rest.drop n)
              rw [hq] at hpre
              obtain ⟨w, hw⟩ := hpre
              rw [← hw]
              rfl
        rw [scanAt_some pre a _ p n hm']
        have htk : (rest.take (idx - pre.length)).take n = rest.take n := by
          rw [List.take_take, Nat.min_eq_left (by omega)]
        have hdk : (rest.take (idx - pre.length)).drop n
            = (rest.drop n).take (idx - (pre.length + n)) := by
          rw [List.drop_take]
          congr 1
          omega
        rw [htk, hd, hdk]
        exact hi

theorem FromJS_ok_iff (s : GoString) (p : P) :
    FromJS s = some (p, none) ↔ FromJSPartial s = some (p, s.length, none) := by
  unfold FromJS
  constructor
  · intro h
    rcases hp : FromJSPartial s with _ | ⟨q, idx, err⟩
    · rw [hp] at h; simp at h
    · rw [hp] at h
      simp only at h
      cases err with
      | some e => simp at h
      | none =>
        simp only [ne_eq, not_true_eq_false, if_false] at h
        by_cases hi : idx = s.length
        · simp [hi] at h
          rw [h, hi]
        · simp [hi] at h
  · intro h
    rw [h]
    simp

theorem FromJSPartial_nil : FromJSPartial [] = some ({ components := some [] }, 0, none) := by
  simp [FromJSPartial]

theorem FromJSPartial_dot (t : GoString) :
    FromJSPartial (46 :: t) = some ({ components := some [] }, 0, none) := by
  simp [FromJSPartial]

theorem stopsTokens_spec (t : GoString) (h : stopsTokens t = true) :
    (∀ a, pieceRegAt a t = none) ∧ notWordHead t := by
  cases t with
  | nil => exact ⟨fun a => pieceRegAt_nil a, notWordHead_nil⟩
  | cons c u =>
    simp only [stopsTokens, Bool.and_eq_true, Bool.not_eq_true', bne_iff_ne, ne_eq,
      Bool.and_eq_false_iff, beq_eq_false_iff_ne] at h
    obtain ⟨⟨hw, h91⟩, hdot⟩ := h
    refine ⟨fun a => ?_, ?_⟩
    · by_cases h46 : c = 46
      · subst h46
        rw [pieceRegAt_dot]
        cases hm : matchDotString (46 :: u) with
        | none => rfl
        | some n =>
          rw [matchDotString_eq_some] at hm
          rcases hdot with hdot | hdot
          · exact absurd rfl hdot
          · cases u with
            | nil => simp at hm; omega
            | cons d v =>
              simp only at hdot
              simp [List.takeWhile_cons, hdot] at hm
              omega
      · rw [pieceRegAt_other a c u h46 h91]
        exact matchBare_nonword a c u hw
    · intro d hd
      simp only [List.head?_cons, Option.some.injEq] at hd
      subst hd
      exact hw

/-- Statement of claim C5 for all inputs. -/
theorem FromJSPartial_append (s t : GoString) (p : P) (hs : FromJS s = some (p, none))
    (ht : (∀ a, pieceRegAt a t = none) ∧ notWordHead t) :
    FromJSPartial (s ++ t) = some (p, s.length, none) := by
  rw [FromJS_ok_iff] at hs
  by_cases h0 : s = []
  · subst h0
    rw [FromJSPartial_nil] at hs
    simp only [Option.some.injEq, Prod.mk.injEq, List.length_nil, and_true] at hs
    subst hs
    simp only [List.nil_append, List.length_nil]
    by_cases ht0 : t = []
    · subst ht0; exact FromJSPartial_nil
    · by_cases h46 : t.head? = some 46
      · cases t with
        | nil => exact absurd rfl ht0
        | cons c u =>
          simp only [List.head?_cons, Option.some.injEq] at h46
          subst h46
          exact FromJSPartial_dot u
      · rw [FromJSPartial_eq_scanAt t ht0 h46]
        exact scanAt_none [] true t _ (ht.1 true)
  · have h46 : s.head? ≠ some 46 := by
      intro h46
      cases s with
      | nil => exact absurd rfl h0
      | cons c u =>
        simp only [List.head?_cons, Option.some.injEq] at h46
        subst h46
        rw [FromJSPartial_dot] at hs
        simp at hs
    rw [FromJSPartial_eq_scanAt s h0 h46] at hs
    have h0' : s ++ t ≠ [] := by simp [h0]
    have h46' : (s ++ t).head? ≠ some 46 := by
      rw [List.head?_append_of_ne_nil s h0]
      exact h46
    rw [FromJSPartial_eq_scanAt _ h0' h46']
    have hs' : scanAt [] true s { components := some [] }
        = some (p, ([] : GoString).length + s.length, none) := by
      simpa using hs
    rw [scanAt_append s [] true _ p t hs' ht.2]
    have : s.isEmpty = false := by
      cases s with
      | nil => exact absurd rfl h0
      | cons => rfl
    simp only [List.nil_append, this, Bool.and_false]
    exact scanAt_none s false t p (ht.1 false)

theorem FromJS_head_ne_dot (s : GoString) (p : P) (hs : FromJS s = some (p, none))
    (h0 : s ≠ []) : s.head? ≠ some 46 := by
  rw [FromJS_ok_iff] at hs
  intro h46
  cases s with
  | nil => exact absurd rfl h0
  | cons c u =>
    simp only [List.head?_cons, Option.some.injEq] at h46
    subst h46
    rw [FromJSPartial_dot] at hs
    simp at hs

/-- Parsing `s ++ t`, for an accepted `s` and a `t` that starts with a byte other than a
word character or a dot, goes on at `t` from the path of `s`. -/
theorem FromJSPartial_append_scanAt (s t : GoString) (p : P)
    (hs : FromJS s = some (p, none)) (ht : notWordHead t) (ht0 : t ≠ [])
    (ht46 : t.head? ≠ some 46) :
    FromJSPartial (s ++ t) = scanAt s s.isEmpty t p := by
  by_cases h0 : s = []
  · subst h0
    rw [FromJS_ok_iff, FromJSPartial_nil] at hs
    simp only [Option.some.injEq, Prod.mk.injEq, List.length_nil, and_true] at hs
    subst hs
    simp only [List.nil_append, List.isEmpty_nil]
    exact FromJSPartial_eq_scanAt t ht0 ht46
  · have h46 := FromJS_head_ne_dot s p hs h0
    rw [FromJS_ok_iff, FromJSPartial_eq_scanAt s h0 h46] at hs
    have h0' : s ++ t ≠ [] := by simp [h0]
    have h46' : (s ++ t).head? ≠ some 46 := by
      rw [List.head?_append_of_ne_nil s h0]
      exact h46
    rw [FromJSPartial_eq_scanAt _ h0' h46']
    have hs' : scanAt [] true s { components := some [] }
        = some (p, ([] : GoString).length + s.length, none) := by
      simpa using hs
    rw [scanAt_append s [] true _ p t hs' ht]
    have : s.isEmpty = false := by
      cases s with
      | nil => exact absurd rfl h0
      | cons => rfl
    simp [this]

theorem pieceRegAt_bracket_flag (a b : Bool) (x : GoString) (h : x.head? = some 91) :
    pieceRegAt a x = pieceRegAt b x := by
  cases x with
  | nil => simp at h
  | cons c t =>
    simp only [List.head?_cons, Option.some.injEq] at h
    subst h
    rw [pieceRegAt_bracket, pieceRegAt_bracket]

/-- A matched bracket token has at least three bytes. -/
theorem pieceRegAt_bracket_len (a : Bool) (x : GoString) (n : Nat)
    (h : pieceRegAt a x = some n) (h91 : x.head? = some 91) : 3 ≤ n := by
  cases x with
  | nil => simp at h91
  | cons c t =>
    simp only [List.head?_cons, Option.some.injEq] at h91
    subst h91
    rw [pieceRegAt_bracket] at h
    cases hn : matchBracketNumber (91 :: t) with
    | some k =>
      rw [hn] at h
      simp only [Option.some.injEq] at h
      subst h
      rw [matchBracketNumber_eq_some] at hn
      omega
    | none =>
      rw [hn] at h
      simp only at h
      rw [matchBracketString_eq_some] at h
      obtain ⟨u, m, _, hm, rfl⟩ := h
      have := matchStringTail_bounds u m hm
      omega

/-- What the loop body does with a matched bracket token. -/
theorem decodePiece_bracket (t : GoString) (n : Nat) (h91 : t.head? = some 91)
    (hn : 2 ≤ n) (hl : n ≤ t.length) :
    decodePiece (t.take n) =
      (match Atoi ((t.drop 1).take (n - 2)) with
        | some v => some (Except.ok (Comp.int v))
        | none =>
          match Unquote ((t.drop 1).take (n - 2)) with
          | some v => some (Except.ok (Comp.str v))
          | none => some (Except.error "could not parse portion in square brackets")) := by
  cases t with
  | nil => simp at h91
  | cons c u =>
    simp only [List.head?_cons, Option.some.injEq] at h91
    subst h91
    obtain ⟨k, rfl⟩ : ∃ k, n = k + 2 := ⟨n - 2, by omega⟩
    simp only [List.length_cons] at hl
    have hs : goSlice (List.take (k + 2) (91 :: u)) 1 ((List.take (k + 2) (91 :: u)).length - 1)
        = some (u.take k) := by
      unfold goSlice
      rw [if_pos (by simp; omega)]
      simp only [List.take_succ_cons, List.drop_succ_cons, List.drop_zero, List.length_cons,
        List.length_take]
      rw [List.take_take]
      congr 2
      omega
    simp only [decodePiece, List.take_succ_cons] at hs ⊢
    simp only [show (91 : Nat) ≠ 46 by decide, if_false, if_true]
    rw [hs]
    simp only [List.drop_succ_cons, List.drop_zero, Nat.add_sub_cancel]

theorem decodePiece_error (m : GoString) (e : String)
    (h : decodePiece m = some (Except.error e)) :
    e = "could not parse portion in square brackets" := by
  unfold decodePiece at h
  split at h
  · simp at h
  · split at h
    · simp at h
    · split at h
      · split at h
        · simp at h
        · split at h
          · simp at h
          · split at h
            · simp at h
            · simp only [Option.some.injEq, Except.error.injEq] at h
              exact h.symm
      · simp at h

theorem fromJSLoop_error (s : GoString) (ms : List (Nat × Nat)) :
    ∀ (p q : P) (last idx : Nat) (e : String),
      fromJSLoop s ms p last = some (q, idx, some e) →
        idx = 0 ∧ e = "could not parse portion in square brackets" := by
  induction ms with
  | nil =>
    intro p q last idx e h
    simp only [fromJSLoop] at h
    split at h <;> simp at h
  | cons m rest ih =>
    intro p q last idx e h
    simp only [fromJSLoop] at h
    split at h
    · simp at h
    · rcases hs : goSlice s m.1 m.2 with _ | tok
      · rw [hs] at h; simp at h
      · rw [hs] at h
        simp only at h
        rcases hd : decodePiece tok with _ | ⟨e' | c⟩
        · rw [hd] at h; simp at h
        · rw [hd] at h
          simp only [Option.some.injEq, Prod.mk.injEq] at h
          obtain ⟨_, h2, h3⟩ := h
          subst h3
          exact ⟨h2.symm, decodePiece_error tok e' hd⟩
        · rw [hd] at h
          exact ih _ _ _ _ _ h

theorem FromJSPartial_error (s : GoString) (p : P) (idx : Nat) (e : String)
    (h : FromJSPartial s = some (p, idx, some e)) :
    idx = 0 ∧ e = "could not parse portion in square brackets" := by
  unfold FromJSPartial at h
  split at h
  · simp at h
  · split at h
    · simp at h
    · exact fromJSLoop_error _ _ _ _ _ _ _ h

theorem FromJSPartial_idx_le (s : GoString) (p : P) (idx : Nat)
    (h : FromJSPartial s = some (p, idx, none)) : idx ≤ s.length := by
  by_cases h0 : s = []
  · subst h0
    rw [FromJSPartial_nil] at h
    simp only [Option.some.injEq, Prod.mk.injEq, and_true] at h
    omega
  · by_cases h46 : s.head? = some 46
    · cases s with
      | nil => exact absurd rfl h0
      | cons c u =>
        simp only [List.head?_cons, Option.some.injEq] at h46
        subst h46
        rw [FromJSPartial_dot] at h
        simp only [Option.some.injEq, Prod.mk.injEq, and_true] at h
        omega
    · rw [FromJSPartial_eq_scanAt s h0 h46] at h
      have := scanAt_idx_bounds _ _ _ _ _ _ h
      simpa using this.2

theorem findAllFrom_some (a : Bool) (off : Nat) (rest : GoString) (n : Nat)
    (h : pieceRegAt a rest = some n) :
    findAllFrom a off 0 rest = (off, off + n) :: findAllFrom false (off + n) 0 (rest.drop n) := by
  have hb := pieceRegAt_bounds a rest n h
  cases rest with
  | nil => simp at hb; omega
  | cons c t =>
    obtain ⟨k, rfl⟩ : ∃ k, n = k + 1 := ⟨n - 1, by omega⟩
    rw [findAllFrom, h]
    simp only [Nat.add_sub_cancel, List.drop_succ_cons]
    congr 1
    cases k with
    | zero => simp
    | succ k =>
      rw [findAllFrom_skip false k (off + 1) t]
      congr 1
      omega

theorem ToJS_append (tbl : Nat → Bool) (cs : List Comp) (c : Comp) :
    ToJS tbl { components := goAppend (some cs) [c] }
      = writeComp tbl (ToJS tbl { components := some cs }) c := by
  simp [ToJS, goAppend, elems, List.foldl_append]

theorem canDot_of_takeWhile (x : GoString) (n : Nat) (h : (x.takeWhile isWord).length = n)
    (hn : 0 < n) : canDot (x.take n) = true := by
  have h' := (takeWhile_length_eq_iff isWord x n).mp h
  unfold canDot
  simp only [Bool.and_eq_true, Bool.not_eq_true', List.all_eq_true]
  refine ⟨?_, h'.2.1⟩
  cases x with
  | nil => simp at h'; omega
  | cons c t =>
    obtain ⟨k, rfl⟩ : ∃ k, n = k + 1 := ⟨n - 1, by omega⟩
    rfl

theorem writeComp_bracket (tbl : Nat → Bool) (pre tok : GoString) (c : Comp)
    (h91 : tok.head? = some 91) (h : writeComp tbl [] c = tok) :
    writeComp tbl pre c = pre ++ tok := by
  cases c with
  | int v =>
    simp only [writeComp] at h ⊢
    rw [← h]
    simp
  | str v =>
    simp only [writeComp] at h ⊢
    by_cases hc : canDot v = true
    · exfalso
      simp only [hc, if_true, List.length_nil, Nat.lt_irrefl, if_false, List.nil_append] at h
      subst h
      cases v with
      | nil => simp at h91
      | cons d w =>
        simp only [List.head?_cons, Option.some.injEq] at h91
        subst h91
        simp [canDot, isWord] at hc
    · simp only [hc] at h ⊢
      rw [← h]
      simp

theorem scanAt_ToJS (tbl : Nat → Bool) (rest : GoString) :
    ∀ (pre : GoString) (a : Bool) (cs : List Comp) (q : P),
      ToJS tbl { components := some cs } = pre →
      ((a = true ∧ pre = [] ∧ rest.head? ≠ some 46) ∨ (a = false ∧ pre ≠ [])) →
      scanAt pre a rest { components := some cs } = some (q, pre.length + rest.length, none) →
      (∀ m ∈ findAllFrom a pre.length 0 rest, ∀ tok c,
        goSlice (pre ++ rest) m.1 m.2 = some tok → tok.head? = some 91 →
        decodePiece tok = some (Except.ok c) → writeComp tbl [] c = tok) →
      ToJS tbl q = pre ++ rest := by
  generalize hlen : rest.length = k
  induction k using Nat.strong_induction_on generalizing rest with
  | _ k ih =>
    subst hlen
    intro pre a cs q hpre hst h hcan
    cases hm : pieceRegAt a rest with
    | none =>
      rw [scanAt_none pre a rest _ hm] at h
      simp only [Option.some.injEq, Prod.mk.injEq, and_true] at h
      have hr : rest = [] := List.eq_nil_of_length_eq_zero (by omega)
      subst hr
      rw [← h.1, hpre]
      simp
    | some n =>
      have hb := pieceRegAt_bounds a rest n hm
      rw [scanAt_some pre a rest _ n hm] at h
      rw [findAllFrom_some a pre.length rest n hm] at hcan
      rcases hd : decodePiece (rest.take n) with _ | ⟨e | c⟩
      · rw [hd] at h; simp at h
      · rw [hd] at h; simp at h
      · rw [hd] at h
        simp only at h
        have hl : (pre ++ rest.take n).length + (rest.drop n).length = pre.length + rest.length := by
          simp only [List.length_append, List.length_take, List.length_drop]
          omega
        have hl2 : (pre ++ rest.take n).length = pre.length + n := by
          simp only [List.length_append, List.length_take]
          omega
        have hne : rest.take n ≠ [] := by
          intro h0
          have : (rest.take n).length = 0 := by rw [h0]; rfl
          rw [List.length_take] at this
          omega
        have hw : writeComp tbl pre c = pre ++ rest.take n := by
          rcases rest with _ | ⟨b, t⟩
          · simp at hb; omega
          · obtain ⟨j, rfl⟩ : ∃ j, n = j + 1 := ⟨n - 1, by omega⟩
            by_cases h46 : b = 46
            · subst h46
              have ha : a = false ∧ pre ≠ [] := by
                rcases hst with hst | hst
                · simp at hst
                · exact hst
              rw [pieceRegAt_dot, matchDotString_eq_some] at hm
              obtain ⟨_, h2, h3⟩ := hm
              have hcd := canDot_of_takeWhile t j (by omega) (by omega)
              simp only [List.take_succ_cons, decodePiece, if_true, List.drop_succ_cons,
                List.drop_zero, Option.some.injEq, Except.ok.injEq] at hd
              subst hd
              have hpl : pre.length > 0 := List.length_pos.mpr ha.2
              simp [writeComp, hcd, hpl]
            · by_cases h91 : b = 91
              · subst h91
                apply writeComp_bracket tbl pre _ c (by simp)
                apply hcan (pre.length, pre.length + (j + 1)) (List.mem_cons_self _ _) _ c
                  (goSlice_append pre _ (j + 1) hb.2) (by simp) hd
              · rw [pieceRegAt_other a b t h46 h91, matchBare_eq_some] at hm
                obtain ⟨h1, h2, h3⟩ := hm
                have hp : pre = [] := by
                  rcases hst with hst | hst
                  · exact hst.2.1
                  · rw [h1] at hst; simp at hst
                have hcd := canDot_of_takeWhile (b :: t) (j + 1) h3 h2
                simp only [List.take_succ_cons, decodePiece, h46, h91, if_false,
                  Option.some.injEq, Except.ok.injEq] at hd
                subst hd hp
                simp only [List.take_succ_cons] at hcd
                simp [writeComp, hcd]
        have hq := ih (rest.drop n).length (by simp; omega) (rest.drop n) rfl
          (pre ++ rest.take n) false (cs ++ [c]) q
          (by
            have := ToJS_append tbl cs c
            simp only [goAppend] at this
            simp only [elems, Option.getD_some] at this
            rw [this, hpre, hw])
          (Or.inr ⟨rfl, by simp [hne]⟩)
          (by
            rw [hl]
            have : goAppend (some cs) [c] = some (cs ++ [c]) := by simp [goAppend, elems]
            rw [← this]
            exact h)
          (by
            intro m hmem tok c' hs h91 hdec
            rw [List.append_assoc, List.take_append_drop] at hs
            apply hcan m _ tok c' hs h91 hdec
            rw [hl2] at hmem
            exact List.mem_cons_of_mem _ hmem)
        rw [hq, List.append_assoc, List.take_append_drop]

/-- The prefix up to the index returned with a nil error is accepted by `FromJS`, with
the same path. -/
theorem FromJS_take_idx (s : GoString) (p : P) (idx : Nat)
    (h : FromJSPartial s = some (p, idx, none)) : FromJS (s.take idx) = some (p, none) := by
  have hle := FromJSPartial_idx_le s p idx h
  rw [FromJS_ok_iff, List.length_take, Nat.min_eq_left hle]
  by_cases h0 : s = []
  · subst h0
    rw [FromJSPartial_nil] at h
    simp only [Option.some.injEq, Prod.mk.injEq, and_true] at h
    obtain ⟨rfl, rfl⟩ := h
    exact FromJSPartial_nil
  · by_cases h46 : s.head? = some 46
    · cases s with
      | nil => exact absurd rfl h0
      | cons c u =>
        simp only [List.head?_cons, Option.some.injEq] at h46
        subst h46
        rw [FromJSPartial_dot] at h
        simp only [Option.some.injEq, Prod.mk.injEq, and_true] at h
        obtain ⟨rfl, rfl⟩ := h
        exact FromJSPartial_nil
    · rw [FromJSPartial_eq_scanAt s h0 h46] at h
      have ht := scanAt_truncate s [] true _ p idx h
      simp only [List.length_nil, Nat.sub_zero] at ht
      by_cases hi : idx = 0
      · subst hi
        simp only [List.take_zero] at ht ⊢
        rw [scanAt_none [] true [] _ (pieceRegAt_nil true)] at ht
        simp only [List.length_nil, Option.some.injEq, Prod.mk.injEq, and_true] at ht
        rw [← ht]
        exact FromJSPartial_nil
      · have hne : s.take idx ≠ [] := by
          intro hnil
          have : (s.take idx).length = 0 := by rw [hnil]; rfl
          rw [List.length_take] at this
          have : 0 < s.length := List.length_pos.mpr h0
          omega
        have hhd : (s.take idx).head? ≠ some 46 := by
          cases s with
          | nil => exact absurd rfl h0
          | cons c u =>
            obtain ⟨k, rfl⟩ : ∃ k, idx = k + 1 := ⟨idx - 1, by omega⟩
            simpa using h46
        rw [FromJSPartial_eq_scanAt _ hne hhd]
        exact ht


/-! ## The claims about the JS syntax -/

/-- C1 at the path `[-1]`: `ToJS` renders it as `"[-1]"`, and `FromJS("[-1]")` returns
the empty path with the error "could not parse entire string", because the pattern
`bracketNumber` admits digits only. -/
theorem ToJS_negative_rejected (tbl : Nat → Bool) :
    ToJS tbl { components := some [Comp.int (-1)] } = ascii "[-1]" ∧
    FromJS (ToJS tbl { components := some [Comp.int (-1)] })
      = some ({ components := some [] }, some "could not parse entire string") := by
  have h : ToJS tbl { components := some [Comp.int (-1)] } = ascii "[-1]" := rfl
  rw [h]
  exact ⟨rfl, by decide⟩

/-- C2 fails as stated: `FromJS` accepts `"[007]"` and `["abc"]`, with the paths `[7]`
and `["abc"]`, which `ToJS` renders as `"[7]"` and `"abc"`. -/
theorem FromJS_ToJS_not_identity :
    FromJS (ascii "[007]") = some ({ components := some [Comp.int 7] }, none) ∧
    (∀ tbl, ToJS tbl { components := some [Comp.int 7] } = ascii "[7]") ∧
    ascii "[7]" ≠ ascii "[007]" ∧
    FromJS (ascii "[\"abc\"]") = some ({ components := some [Comp.str (ascii "abc")] }, none) ∧
    (∀ tbl, ToJS tbl { components := some [Comp.str (ascii "abc")] } = ascii "abc") ∧
    ascii "abc" ≠ ascii "[\"abc\"]" := by
  refine ⟨by decide, fun _ => rfl, by decide, by decide, fun _ => rfl, by decide⟩

/-- C2, amended. For every string `s` that `FromJS` accepts, with path `p`, if every
bracket token of `s` is the rendering of the component it is decoded to (a bracketed
integer is written as `FormatInt` writes it, a bracketed string is `Quote` of a text
that is not made of word characters only), then `p.ToJS()` equals `s` byte for byte. -/
theorem ToJS_FromJS_canonical (tbl : Nat → Bool) (s : GoString) (p : P)
    (h : FromJS s = some (p, none)) (hc : bracketsCanonical tbl s = true) :
    ToJS tbl p = s := by
  by_cases h0 : s = []
  · subst h0
    rw [FromJS_ok_iff, FromJSPartial_nil] at h
    simp only [Option.some.injEq, Prod.mk.injEq, List.length_nil, and_true] at h
    rw [← h]
    rfl
  · have h46 := FromJS_head_ne_dot s p h h0
    rw [FromJS_ok_iff, FromJSPartial_eq_scanAt s h0 h46] at h
    have := scanAt_ToJS tbl s [] true [] p rfl (Or.inl ⟨rfl, rfl, h46⟩)
      (by simpa using h)
      (by
        intro m hm tok c hs h91 hd
        unfold bracketsCanonical at hc
        rw [List.all_eq_true] at hc
        have := hc m hm
        simp only [List.nil_append] at hs
        rw [hs] at this
        simp only [h91, if_true, hd, beq_iff_eq] at this
        exact this)
    simpa using this

/-- C2, amended, at `s = a["b c"][10].d`. -/
theorem ToJS_FromJS_canonical_witness :
    ToJS (fun _ => true) { components := some [Comp.str (ascii "a"), Comp.str (ascii "b c"),
        Comp.int 10, Comp.str (ascii "d")] }
      = ascii "a[\"b c\"][10].d" :=
  ToJS_FromJS_canonical (fun _ => true) (ascii "a[\"b c\"][10].d") _ (by decide) (by decide)

/-- C4 fails as stated: on `"["`, `"[[]"`, `"outputs[abc]"` and `outputs["""]` the
function `FromJSPartial` returns the path parsed so far, the offset of the `[`, and a
nil error. -/
theorem FromJSPartial_open_bracket_no_error :
    FromJSPartial (ascii "[") = some ({ components := some [] }, 0, none) ∧
    FromJSPartial (ascii "[[]") = some ({ components := some [] }, 0, none) ∧
    FromJSPartial (ascii "outputs[abc]")
      = some ({ components := some [Comp.str (ascii "outputs")] }, 7, none) ∧
    FromJSPartial (ascii "outputs[\"\"\"]")
      = some ({ components := some [Comp.str (ascii "outputs")] }, 7, none) := by
  refine ⟨by decide, by decide, by decide, by decide⟩

/-- C4, amended. Let `s` be accepted by `FromJS` with path `p` and let `t` begin with
`[`. If no match of `pieceReg` starts at that `[`, `FromJSPartial(s + t)` returns `p`,
the offset `len(s)` and a nil error. If a match of `n` bytes starts there and both
`strconv.Atoi` and `strconv.Unquote` reject the text between its brackets,
`FromJSPartial(s + t)` returns the error "could not parse portion in square brackets"
(with `p` and the index 0). -/
theorem FromJSPartial_bracket_error (s t : GoString) (p : P)
    (hs : FromJS s = some (p, none)) (ht : t.head? = some 91) :
    (pieceRegAt false t = none → FromJSPartial (s ++ t) = some (p, s.length, none)) ∧
    (∀ n inner, pieceRegAt false t = some n → goSlice t 1 (n - 1) = some inner →
      Atoi inner = none → Unquote inner = none →
        FromJSPartial (s ++ t)
          = some (p, 0, some "could not parse portion in square brackets")) := by
  have hnw : notWordHead t := by
    intro c hc
    rw [ht] at hc
    simp only [Option.some.injEq] at hc
    subst hc
    decide
  have ht0 : t ≠ [] := by
    intro h0; subst h0; simp at ht
  have ht46 : t.head? ≠ some 46 := by
    rw [ht]; decide
  have hscan := FromJSPartial_append_scanAt s t p hs hnw ht0 ht46
  constructor
  · intro hnone
    rw [hscan]
    apply scanAt_none
    rw [pieceRegAt_bracket_flag _ false t ht]
    exact hnone
  · intro n inner hn hsl ha hu
    rw [hscan]
    have hn' : pieceRegAt s.isEmpty t = some n := by
      rw [pieceRegAt_bracket_flag _ false t ht]
      exact hn
    have hb := pieceRegAt_bounds _ _ _ hn
    have h3 := pieceRegAt_bracket_len _ _ _ hn ht
    rw [scanAt_some s _ t p n hn', decodePiece_bracket t n ht (by omega) hb.2]
    have hin : inner = (t.drop 1).take (n - 2) := by
      unfold goSlice at hsl
      rw [if_pos (by omega)] at hsl
      simp only [Option.some.injEq] at hsl
      rw [← hsl]
      congr 1
    rw [← hin, ha, hu]

/-- C4, amended, at `"outputs" + "[abc]"` (no match at the bracket: nil error) and at
`"outputs" + "[\"\\q\"]"` (a match whose text `Unquote` rejects: error). -/
theorem FromJSPartial_bracket_error_witness :
    FromJSPartial (ascii "outputs" ++ ascii "[abc]")
        = some ({ components := some [Comp.str (ascii "outputs")] }, 7, none) ∧
    FromJSPartial (ascii "outputs" ++ ascii "[\"\\q\"]")
        = some ({ components := some [Comp.str (ascii "outputs")] }, 0,
            some "could not parse portion in square brackets") :=
  ⟨(FromJSPartial_bracket_error (ascii "outputs") (ascii "[abc]")
      { components := some [Comp.str (ascii "outputs")] } (by decide) (by decide)).1 (by decide),
   (FromJSPartial_bracket_error (ascii "outputs") (ascii "[\"\\q\"]")
      { components := some [Comp.str (ascii "outputs")] } (by decide) (by decide)).2
      6 (ascii "\"\\q\"") (by decide) (by decide) (by decide) (by decide)⟩

/-- C5. Best-effort prefix parse. For every string `s` that `FromJS` accepts with path
`p` and every `t` that is empty, or whose first byte is neither a word character nor
`[` and which does not begin with `.` followed by a word character,
`FromJSPartial(s + t)` returns `(p, len(s), nil)`. In particular
`FromJSPartial("outputs.[0]")` is `(["outputs"], 7, nil)` and
`FromJSPartial("foo[0].bar asdf")` is `(["foo", 0, "bar"], 10, nil)`. -/
theorem FromJSPartial_best_effort_prefix :
    (∀ (s t : GoString) (p : P), FromJS s = some (p, none) → stopsTokens t = true →
      FromJSPartial (s ++ t) = some (p, s.length, none)) ∧
    FromJSPartial (ascii "outputs.[0]")
      = some ({ components := some [Comp.str (ascii "outputs")] }, 7, none) ∧
    FromJSPartial (ascii "foo[0].bar asdf")
      = some ({ components := some [Comp.str (ascii "foo"), Comp.int 0,
          Comp.str (ascii "bar")] }, 10, none) := by
  refine ⟨?_, by decide, by decide⟩
  intro s t p hs ht
  exact FromJSPartial_append s t p hs (stopsTokens_spec t ht)

/-- C5 at `s = "foo[0].bar"`, `t = ".[1] x"`. -/
theorem FromJSPartial_best_effort_prefix_witness :
    FromJSPartial (ascii "foo[0].bar" ++ ascii ".[1] x")
      = some ({ components := some [Comp.str (ascii "foo"), Comp.int 0,
          Comp.str (ascii "bar")] }, 10, none) :=
  FromJSPartial_best_effort_prefix.1 (ascii "foo[0].bar") (ascii ".[1] x") _
    (by decide) (by decide)

/-- C6. Longest-prefix property of the partial parse. If `FromJSPartial(s)` returns
`(p, idx, nil)` then `0 ≤ idx ≤ len(s)`, the prefix `s[:idx]` is accepted by `FromJS`
(with the path `p`), and no longer prefix is: there is no `j` with `idx < j ≤ len(s)`
for which `FromJS(s[:j])` succeeds. -/
theorem FromJSPartial_longest_prefix (s : GoString) (p : P) (idx : Nat)
    (h : FromJSPartial s = some (p, idx, none)) :
    idx ≤ s.length ∧ FromJS (s.take idx) = some (p, none) ∧
      ∀ j, idx < j → j ≤ s.length → ∀ q, FromJS (s.take j) ≠ some (q, none) := by
  have hle := FromJSPartial_idx_le s p idx h
  refine ⟨hle, ?_, ?_⟩
  · exact FromJS_take_idx s p idx h
  · intro j hj hjl q hq
    have hjpos : 0 < j := by omega
    have hne : s.take j ≠ [] := by
      intro hnil
      have : (s.take j).length = 0 := by rw [hnil]; rfl
      rw [List.length_take] at this
      omega
    have h0 : s ≠ [] := by
      intro hnil; subst hnil; simp at hjl; omega
    have hhd := FromJS_head_ne_dot _ q hq hne
    have h46 : s.head? ≠ some 46 := by
      cases s with
      | nil => exact absurd rfl h0
      | cons c u =>
        obtain ⟨k, rfl⟩ : ∃ k, j = k + 1 := ⟨j - 1, by omega⟩
        simpa using hhd
    rw [FromJS_ok_iff, FromJSPartial_eq_scanAt _ hne hhd] at hq
    rw [FromJSPartial_eq_scanAt s h0 h46] at h
    have hq' : scanAt [] true (s.take j) { components := some [] }
        = some (q, ([] : GoString).length + (s.take j).length, none) := by
      simpa using hq
    have h' : scanAt [] true (s.take j ++ s.drop j) { components := some [] }
        = some (p, idx, none) := by
      rw [List.take_append_drop]; exact h
    have := scanAt_extend (s.take j) [] true _ q (s.drop j) p idx hq' h'
    simp only [List.length_nil, List.length_take] at this
    omega

/-- C6 at `s = "outputs.[0]"`, where the partial parse returns index 7. -/
theorem FromJSPartial_longest_prefix_witness :
    7 ≤ (ascii "outputs.[0]").length ∧
      FromJS ((ascii "outputs.[0]").take 7)
        = some ({ components := some [Comp.str (ascii "outputs")] }, none) ∧
      ∀ j, 7 < j → j ≤ (ascii "outputs.[0]").length →
        ∀ q, FromJS ((ascii "outputs.[0]").take j) ≠ some (q, none) :=
  FromJSPartial_longest_prefix (ascii "outputs.[0]")
    { components := some [Comp.str (ascii "outputs")] } 7 (by decide)

/-- C7. Strict parse is partial parse plus full consumption. For every string `s`:
`FromJS(s)` returns a nil error with path `p` exactly when `FromJSPartial(s)` returns `p`,
the index `len(s)` and a nil error; an error of `FromJSPartial` is returned by `FromJS`
unchanged, and it is not the message "could not parse entire string"; and when
`FromJSPartial` returns a nil error the index is at most `len(s)`, and if it is less
than `len(s)` then `FromJS` returns the error "could not parse entire string". -/
theorem FromJS_strict (s : GoString) :
    (∀ p, FromJS s = some (p, none) ↔ FromJSPartial s = some (p, s.length, none)) ∧
    (∀ p idx e, FromJSPartial s = some (p, idx, some e) →
      FromJS s = some (p, some e) ∧ e ≠ "could not parse entire string") ∧
    (∀ p idx, FromJSPartial s = some (p, idx, none) →
      idx ≤ s.length ∧
      (idx < s.length → FromJS s = some (p, some "could not parse entire string"))) := by
  refine ⟨fun p => FromJS_ok_iff s p, ?_, ?_⟩
  · intro p idx e h
    have he := (FromJSPartial_error s p idx e h).2
    constructor
    · unfold FromJS
      rw [h]
      simp
    · rw [he]
      decide
  · intro p idx h
    refine ⟨FromJSPartial_idx_le s p idx h, ?_⟩
    intro hlt
    unfold FromJS
    rw [h]
    simp only [ne_eq, not_true_eq_false, if_false]
    rw [if_pos (by omega)]

/-- C7 at the input `"a."`: the partial parse stops at index 1 with a nil error, so the
strict parse returns "could not parse entire string". -/
theorem FromJS_strict_witness :
    FromJS (ascii "a.") = some ({ components := some [Comp.str (ascii "a")] },
      some "could not parse entire string") :=
  ((FromJS_strict (ascii "a.")).2.2 { components := some [Comp.str (ascii "a")] } 1
    (by decide)).2 (by decide)

/-- C8. Leading dot and empty input. `FromJSPartial` returns the empty path, index 0 and
a nil error for the empty string and for every string whose first byte is `.`;
`FromJS("")` succeeds with the empty path, and `FromJS` returns an error for every
string that begins with `.`, such as `".outputs"`. -/
theorem FromJS_leading_dot :
    FromJSPartial [] = some ({ components := some [] }, 0, none) ∧
    (∀ t : GoString, FromJSPartial (46 :: t) = some ({ components := some [] }, 0, none)) ∧
    FromJS [] = some ({ components := some [] }, none) ∧
    (∀ t : GoString, FromJS (46 :: t)
      = some ({ components := some [] }, some "could not parse entire string")) ∧
    FromJS (ascii ".outputs")
      = some ({ components := some [] }, some "could not parse entire string") := by
  have hdot : ∀ t : GoString, FromJS (46 :: t)
      = some ({ components := some [] }, some "could not parse entire string") := by
    intro t
    unfold FromJS
    rw [FromJSPartial_dot]
    simp
  refine ⟨FromJSPartial_nil, FromJSPartial_dot, ?_, hdot, hdot _⟩
  rw [FromJS_ok_iff]
  exact FromJSPartial_nil

/-! ## Lemmas: UTF-8, the JSON text of a path and its decoding -/

/-- A rune decoded from a valid encoding is encoded back to the bytes it was read from,
and is read the same whatever follows those bytes. -/
theorem DecodeRune_valid (s : GoString) (h0 : s ≠ [])
    (h : ¬ ((DecodeRune s).1 = RuneError ∧ (DecodeRune s).2 = 1)) :
    EncodeRune (DecodeRune s).1 = s.take (DecodeRune s).2 ∧
      1 ≤ (DecodeRune s).2 ∧ (DecodeRune s).2 ≤ s.length ∧
      ∀ y, DecodeRune (s.take (DecodeRune s).2 ++ y) = DecodeRune s := by
  rcases s with _ | ⟨b0, t⟩
  · exact absurd rfl h0
  · unfold DecodeRune at h ⊢
    simp only at h ⊢
    by_cases c1 : b0 < 0x80
    · simp only [c1, if_true] at h ⊢
      refine ⟨?_, by omega, by simp, ?_⟩
      · simp [EncodeRune, c1]
      · intro y
        simp [DecodeRune, c1]
    · simp only [c1, if_false] at h ⊢
      by_cases c2 : 0xC2 ≤ b0 ∧ b0 ≤ 0xDF
      · simp only [c2, and_self, if_true] at h ⊢
        rcases t with _ | ⟨b1, t⟩
        · simp at h
        · simp only at h ⊢
          by_cases hc : isCont b1 = true
          · simp only [hc, if_true] at h ⊢
            simp only [isCont, Bool.and_eq_true, decide_eq_true_eq] at hc
            refine ⟨?_, by omega, by simp, ?_⟩
            · unfold EncodeRune
              rw [if_neg (by omega), if_pos (by omega)]
              simp only [List.take_succ_cons, List.take_zero, List.cons.injEq, and_true]
              constructor <;> omega
            · intro y
              simp [DecodeRune, c1, c2, isCont, hc]
          · simp [hc] at h
      · simp only [c2, if_false] at h ⊢
        by_cases c3 : 0xE0 ≤ b0 ∧ b0 ≤ 0xEF
        · simp only [c3, and_self, if_true] at h ⊢
          rcases t with _ | ⟨b1, _ | ⟨b2, t⟩⟩
          · simp at h
          · simp at h
          · simp only at h ⊢
            by_cases hc : ((if b0 = 0xE0 then 0xA0 else 0x80) ≤ b1
                ∧ b1 ≤ (if b0 = 0xED then 0x9F else 0xBF) ∧ isCont b2 = true)
            · simp only [hc, and_self, if_true] at h ⊢
              obtain ⟨hlo, hhi, hc2⟩ := hc
              simp only [isCont, Bool.and_eq_true, decide_eq_true_eq] at hc2
              have hlo' : 0x80 ≤ b1 := by split at hlo <;> omega
              have hhi' : b1 ≤ 0xBF := by split at hhi <;> omega
              have hE0 : b0 = 0xE0 → 0xA0 ≤ b1 := by intro e; simpa [e] using hlo
              have hED : b0 = 0xED → b1 ≤ 0x9F := by intro e; simpa [e] using hhi
              refine ⟨?_, by omega, by simp, ?_⟩
              · unfold EncodeRune ValidRune
                rw [if_neg (by omega), if_neg (by omega)]
                have hv : (decide ((b0 % 0x10) * 0x1000 + (b1 % 0x40) * 0x40 + b2 % 0x40 < 0xD800)
                    || (decide (0xDFFF < (b0 % 0x10) * 0x1000 + (b1 % 0x40) * 0x40 + b2 % 0x40)
                      && decide ((b0 % 0x10) * 0x1000 + (b1 % 0x40) * 0x40 + b2 % 0x40 ≤ 0x10FFFF)))
                    = true := by
                  simp only [Bool.or_eq_true, Bool.and_eq_true, decide_eq_true_eq]
                  by_cases e : b0 = 0xED
                  · have := hED e; omega
                  · by_cases e' : b0 < 0xED
                    · left; omega
                    · right; omega
                rw [hv]
                simp only [Bool.not_true, Bool.false_eq_true, if_false]
                rw [if_pos (by omega)]
                simp only [List.take_succ_cons, List.take_zero, List.cons.injEq, and_true]
                have := hE0
                refine ⟨?_, ?_, ?_⟩ <;> omega
              · intro y
                simp only [List.take_succ_cons, List.take_zero, List.cons_append, List.nil_append,
                  DecodeRune, c1, c2, c3, and_self, if_true, if_false, hlo, hhi, isCont,
                  Bool.and_eq_true, decide_eq_true_eq, hc2]
            · simp [hc] at h
        · simp only [c3, if_false] at h ⊢
          by_cases c4 : 0xF0 ≤ b0 ∧ b0 ≤ 0xF4
          · simp only [c4, and_self, if_true] at h ⊢
            rcases t with _ | ⟨b1, _ | ⟨b2, _ | ⟨b3, t⟩⟩⟩
            · simp at h
            · simp at h
            · simp at h
            · simp only at h ⊢
              by_cases hc : ((if b0 = 0xF0 then 0x90 else 0x80) ≤ b1
                  ∧ b1 ≤ (if b0 = 0xF4 then 0x8F else 0xBF) ∧ isCont b2 = true ∧ isCont b3 = true)
              · simp only [hc, and_self, if_true] at h ⊢
                obtain ⟨hlo, hhi, hc2, hc3⟩ := hc
                simp only [isCont, Bool.and_eq_true, decide_eq_true_eq] at hc2 hc3
                have hlo' : 0x80 ≤ b1 := by split at hlo <;> omega
                have hhi' : b1 ≤ 0xBF := by split at hhi <;> omega
                have hF0 : b0 = 0xF0 → 0x90 ≤ b1 := by intro e; simpa [e] using hlo
                have hF4 : b0 = 0xF4 → b1 ≤ 0x8F := by intro e; simpa [e] using hhi
                refine ⟨?_, by omega, by simp, ?_⟩
                · unfold EncodeRune ValidRune
                  have hge : 0x10000 ≤ (b0 % 0x08) * 0x40000 + (b1 % 0x40) * 0x1000
                      + (b2 % 0x40) * 0x40 + b3 % 0x40 := by
                    by_cases e : b0 = 0xF0
                    · have := hF0 e; omega
                    · omega
                  have hle : (b0 % 0x08) * 0x40000 + (b1 % 0x40) * 0x1000
                      + (b2 % 0x40) * 0x40 + b3 % 0x40 ≤ 0x10FFFF := by
                    by_cases e : b0 = 0xF4
                    · have := hF4 e; omega
                    · omega
                  rw [if_neg (by omega), if_neg (by omega)]
                  have hv : (decide ((b0 % 0x08) * 0x40000 + (b1 % 0x40) * 0x1000
                        + (b2 % 0x40) * 0x40 + b3 % 0x40 < 0xD800)
                      || (decide (0xDFFF < (b0 % 0x08) * 0x40000 + (b1 % 0x40) * 0x1000
                        + (b2 % 0x40) * 0x40 + b3 % 0x40)
                        && decide ((b0 % 0x08) * 0x40000 + (b1 % 0x40) * 0x1000
                          + (b2 % 0x40) * 0x40 + b3 % 0x40 ≤ 0x10FFFF))) = true := by
                    simp only [Bool.or_eq_true, Bool.and_eq_true, decide_eq_true_eq]
                    right; omega
                  rw [hv]
                  simp only [Bool.not_true, Bool.false_eq_true, if_false]
                  rw [if_neg (by omega)]
                  simp only [List.take_succ_cons, List.take_zero, List.cons.injEq, and_true]
                  refine ⟨?_, ?_, ?_, ?_⟩ <;> omega
                · intro y
                  simp only [List.take_succ_cons, List.take_zero, List.cons_append,
                    List.nil_append, DecodeRune, c1, c2, c3, c4, and_self, if_true, if_false,
                    hlo, hhi, isCont, Bool.and_eq_true, decide_eq_true_eq, hc2, hc3]
              · simp [hc] at h
          · simp [c4, RuneError] at h

theorem jsonStringLoop_skip (k : Nat) (s : GoString) :
    jsonStringLoop (k + 1) s = jsonStringLoop 0 (s.drop (k + 1)) := by
  induction k generalizing s with
  | zero => cases s <;> simp [jsonStringLoop]
  | succ k ih =>
    cases s with
    | nil => simp [jsonStringLoop]
    | cons c u =>
      rw [jsonStringLoop, ih]
      simp

theorem jsonStringLoop_drop (k : Nat) (s : GoString) :
    jsonStringLoop k s = jsonStringLoop 0 (s.drop k) := by
  cases k with
  | zero => simp
  | succ k => exact jsonStringLoop_skip k s

theorem jsonUnquoteLoop_skip (k : Nat) (s : GoString) :
    jsonUnquoteLoop (k + 1) s = jsonUnquoteLoop 0 (s.drop (k + 1)) := by
  induction k generalizing s with
  | zero => cases s <;> simp [jsonUnquoteLoop]
  | succ k ih =>
    cases s with
    | nil => simp [jsonUnquoteLoop]
    | cons c u =>
      rw [jsonUnquoteLoop, ih]
      simp

theorem validUTF8From_skip (k : Nat) (s : GoString) :
    validUTF8From (k + 1) s = validUTF8From 0 (s.drop (k + 1)) := by
  induction k generalizing s with
  | zero => cases s <;> simp [validUTF8From]
  | succ k ih =>
    cases s with
    | nil => simp [validUTF8From]
    | cons c u =>
      rw [validUTF8From, ih]
      simp

/-- The first rune of a valid string is validly encoded and the rest is valid. -/
theorem ValidString_cons (b : Nat) (t : GoString) (h : ValidString (b :: t) = true) :
    ¬ ((DecodeRune (b :: t)).1 = RuneError ∧ (DecodeRune (b :: t)).2 = 1) ∧
      ValidString ((b :: t).drop (DecodeRune (b :: t)).2) = true := by
  unfold ValidString at h ⊢
  rw [validUTF8From] at h
  by_cases hd : (DecodeRune (b :: t)).1 = RuneError ∧ (DecodeRune (b :: t)).2 = 1
  · simp [hd] at h
  · refine ⟨hd, ?_⟩
    rw [if_neg hd] at h
    have hv := DecodeRune_valid (b :: t) (by simp) hd
    obtain ⟨k, hk⟩ : ∃ k, (DecodeRune (b :: t)).2 = k + 1 := ⟨_, (Nat.sub_add_cancel hv.2.1).symm⟩
    rw [hk] at h ⊢
    simp only [Nat.add_sub_cancel, List.drop_succ_cons] at h ⊢
    cases k with
    | zero => simpa using h
    | succ k => rw [validUTF8From_skip] at h; exact h

/-- Reading one character of a string literal, then the rest. -/
theorem jsonUnquoteLoop_char (piece y out : GoString) (hp : piece ≠ [])
    (hq : piece.head? ≠ some 34)
    (hc : jsonUnquoteChar (piece ++ y) = some (out, piece.length)) :
    jsonUnquoteLoop 0 (piece ++ y) =
      (jsonUnquoteLoop 0 y).map (fun r => (out ++ r.1, r.2)) := by
  rcases piece with _ | ⟨c, u⟩
  · exact absurd rfl hp
  · have hc34 : c ≠ 34 := by simpa using hq
    simp only [List.cons_append] at hc ⊢
    rw [jsonUnquoteLoop, if_neg hc34, hc]
    simp only [List.length_cons, Nat.add_sub_cancel]
    have : jsonUnquoteLoop u.length (u ++ y) = jsonUnquoteLoop 0 y := by
      cases hu : u.length with
      | zero =>
        have : u = [] := List.eq_nil_of_length_eq_zero hu
        subst this
        simp
      | succ k =>
        rw [jsonUnquoteLoop_skip, ← hu]
        simp
    rw [this]
    rcases jsonUnquoteLoop 0 y with _ | ⟨buf, rest⟩ <;> rfl

theorem unhex_hexDigit (x : Nat) (h : x < 16) : unhex (hexDigit x) = some x := by
  have : x = 0 ∨ x = 1 ∨ x = 2 ∨ x = 3 ∨ x = 4 ∨ x = 5 ∨ x = 6 ∨ x = 7 ∨ x = 8 ∨ x = 9 ∨
      x = 10 ∨ x = 11 ∨ x = 12 ∨ x = 13 ∨ x = 14 ∨ x = 15 := by omega
  rcases this with h | h | h | h | h | h | h | h | h | h | h | h | h | h | h | h <;>
    subst h <;> decide

theorem hexVal_u00 (b : Nat) (y : GoString) (h : b < 256) :
    getu4 (48 :: 48 :: hexDigit (b / 16) :: hexDigit (b % 16) :: y) = some b := by
  have h1 := unhex_hexDigit (b / 16) (by omega)
  have h2 := unhex_hexDigit (b % 16) (by omega)
  have h0 : unhex 48 = some 0 := by decide
  simp only [getu4, hexVal, h0, h1, h2]
  congr 1
  omega

theorem hexVal_u202 (x : Nat) (y : GoString) (h : x < 16) :
    getu4 (50 :: 48 :: 50 :: hexDigit x :: y) = some (0x2020 + x) := by
  have h1 := unhex_hexDigit x h
  have h0 : unhex 48 = some 0 := by decide
  have h2 : unhex 50 = some 2 := by decide
  simp only [getu4, hexVal, h0, h1, h2]

/-- What `appendString` writes for the first rune of a valid string is read back by
`unquote` as the bytes of that rune. -/
theorem jsonString_step (b : Nat) (t : GoString)
    (hv : ¬ ((DecodeRune (b :: t)).1 = RuneError ∧ (DecodeRune (b :: t)).2 = 1)) :
    ∃ piece, jsonStringLoop 0 (b :: t)
        = piece ++ jsonStringLoop 0 ((b :: t).drop (DecodeRune (b :: t)).2) ∧
      piece ≠ [] ∧ piece.head? ≠ some 34 ∧
      ∀ y, jsonUnquoteChar (piece ++ y)
        = some ((b :: t).take (DecodeRune (b :: t)).2, piece.length) := by
  have hd := DecodeRune_valid (b :: t) (by simp) hv
  by_cases c1 : b < 0x80
  · have hdec : DecodeRune (b :: t) = (b, 1) := by simp [DecodeRune, c1]
    rw [hdec]
    simp only [List.drop_succ_cons, List.drop_zero, List.take_succ_cons, List.take_zero]
    rw [jsonStringLoop, if_pos c1]
    by_cases s1 : htmlSafe b = true
    · refine ⟨[b], by simp [s1], by simp, ?_, ?_⟩
      · simp only [htmlSafe, Bool.and_eq_true, decide_eq_true_eq, bne_iff_ne, ne_eq] at s1
        simp only [List.head?_cons, ne_eq, Option.some.injEq]
        omega
      · intro y
        simp only [htmlSafe, Bool.and_eq_true, decide_eq_true_eq, bne_iff_ne, ne_eq] at s1
        simp only [List.cons_append, List.nil_append, jsonUnquoteChar, List.length_singleton]
        rw [if_neg (by omega), if_neg (by omega), if_pos (by omega)]
    · simp only [s1, Bool.false_eq_true, if_false]
      by_cases s2 : b = 92 ∨ b = 34
      · refine ⟨[92, b], by simp [s2], by simp, by simp, ?_⟩
        intro y
        simp only [List.cons_append, List.nil_append, jsonUnquoteChar, if_true]
        rw [if_pos (by omega)]
        rfl
      · simp only [s2, if_false]
        by_cases s3 : b = 8
        · subst s3
          exact ⟨[92, 98], by simp, by simp, by simp, fun y => by simp [jsonUnquoteChar]⟩
        · simp only [s3, if_false]
          by_cases s4 : b = 12
          · subst s4
            exact ⟨[92, 102], by simp, by simp, by simp, fun y => by simp [jsonUnquoteChar]⟩
          · simp only [s4, if_false]
            by_cases s5 : b = 10
            · subst s5
              exact ⟨[92, 110], by simp, by simp, by simp, fun y => by simp [jsonUnquoteChar]⟩
            · simp only [s5, if_false]
              by_cases s6 : b = 13
              · subst s6
                exact ⟨[92, 114], by simp, by simp, by simp, fun y => by simp [jsonUnquoteChar]⟩
              · simp only [s6, if_false]
                by_cases s7 : b = 9
                · subst s7
                  exact ⟨[92, 116], by simp, by simp, by simp,
                    fun y => by simp [jsonUnquoteChar]⟩
                · simp only [s7, if_false]
                  refine ⟨[92, 117, 48, 48, hexDigit (b / 16), hexDigit (b % 16)], by simp,
                    by simp, by simp, ?_⟩
                  intro y
                  simp only [List.cons_append, List.nil_append, jsonUnquoteChar, if_true]
                  simp only [show ¬ ((117 : Nat) = 34 ∨ (117 : Nat) = 92 ∨ (117 : Nat) = 47) by decide,
                    show (117 : Nat) ≠ 98 by decide, show (117 : Nat) ≠ 102 by decide,
                    show (117 : Nat) ≠ 110 by decide, show (117 : Nat) ≠ 114 by decide,
                    show (117 : Nat) ≠ 116 by decide, if_false, if_true]
                  rw [hexVal_u00 b y (by omega)]
                  simp only
                  rw [if_neg (by omega)]
                  simp [EncodeRune, c1]
  · rw [jsonStringLoop, if_neg c1, if_neg hv]
    obtain ⟨henc, hn1, hnl, hstab⟩ := hd
    have hdrop : ∀ k, jsonStringLoop (k - 1) t = jsonStringLoop 0 ((b :: t).drop k) ∨ k = 0 := by
      intro k
      cases k with
      | zero => right; rfl
      | succ k =>
        left
        simp only [Nat.add_sub_cancel, List.drop_succ_cons]
        exact jsonStringLoop_drop k t
    have hdrop' := (hdrop (DecodeRune (b :: t)).2).resolve_right (by omega)
    by_cases c2 : (DecodeRune (b :: t)).1 = 0x2028 ∨ (DecodeRune (b :: t)).1 = 0x2029
    · rw [if_pos c2, hdrop']
      refine ⟨_, rfl, by simp, by simp, ?_⟩
      intro y
      simp only [List.cons_append, List.nil_append, jsonUnquoteChar, if_true]
      simp only [show ¬ ((117 : Nat) = 34 ∨ (117 : Nat) = 92 ∨ (117 : Nat) = 47) by decide,
        show (117 : Nat) ≠ 98 by decide, show (117 : Nat) ≠ 102 by decide,
        show (117 : Nat) ≠ 110 by decide, show (117 : Nat) ≠ 114 by decide,
        show (117 : Nat) ≠ 116 by decide, if_false, if_true]
      rw [hexVal_u202 _ y (by omega)]
      simp only
      have hr : 0x2020 + (DecodeRune (b :: t)).1 % 16 = (DecodeRune (b :: t)).1 := by
        rcases c2 with c2 | c2 <;> rw [c2]
      rw [hr, if_neg (by rcases c2 with c2 | c2 <;> rw [c2] <;> omega), henc]
      rfl
    · rw [if_neg c2, hdrop']
      refine ⟨_, rfl, ?_, ?_, ?_⟩
      · intro h0
        have : ((b :: t).take (DecodeRune (b :: t)).2).length = 0 := by rw [h0]; rfl
        rw [List.length_take] at this
        omega
      · obtain ⟨k, hk⟩ : ∃ k, (DecodeRune (b :: t)).2 = k + 1 := ⟨_, (Nat.sub_add_cancel hn1).symm⟩
        rw [hk]
        simp only [List.take_succ_cons, List.head?_cons, ne_eq, Option.some.injEq]
        omega
      · intro y
        have hst := hstab y
        obtain ⟨k, hk⟩ : ∃ k, (DecodeRune (b :: t)).2 = k + 1 := ⟨_, (Nat.sub_add_cancel hn1).symm⟩
        rw [hk] at hst henc ⊢
        simp only [List.take_succ_cons, List.cons_append] at hst henc ⊢
        simp only [jsonUnquoteChar]
        rw [if_neg (by omega), if_neg (by omega), if_neg c1, hst, henc]
        simp only [List.length_cons, List.length_take, Option.some.injEq, Prod.mk.injEq, true_and]
        rw [hk] at hnl
        simp only [List.length_cons] at hnl
        omega

/-- A valid UTF-8 string is read back from the literal `json.Marshal` writes for it. -/
theorem jsonString_roundtrip (s : GoString) :
    ValidString s = true →
      ∀ x, jsonUnquoteLoop 0 (jsonStringLoop 0 s ++ 34 :: x) = some (s, x) := by
  generalize hlen : s.length = k
  induction k using Nat.strong_induction_on generalizing s with
  | _ k ih =>
    subst hlen
    intro hv x
    rcases s with _ | ⟨b, t⟩
    · simp [jsonStringLoop, jsonUnquoteLoop]
    · obtain ⟨hhead, hrest⟩ := ValidString_cons b t hv
      obtain ⟨piece, hp1, hp2, hp3, hp4⟩ := jsonString_step b t hhead
      have hd := DecodeRune_valid (b :: t) (by simp) hhead
      rw [hp1, List.append_assoc,
        jsonUnquoteLoop_char piece _ _ hp2 hp3 (hp4 _),
        ih _ (by simp only [List.length_drop]; omega) _ rfl hrest x]
      simp

theorem digitsVal_append (ds : GoString) (d : Nat) :
    digitsVal (ds ++ [d]) = digitsVal ds * 10 + (d - 48) := by
  simp [digitsVal, List.foldl_append]

/-- The digits `natDigits` writes in front of `acc`. -/
theorem natDigits_spec (fuel : Nat) :
    ∀ (n : Nat) (acc : GoString), n < fuel →
      ∃ ds, natDigits fuel n acc = ds ++ acc ∧ ds ≠ [] ∧ (∀ d ∈ ds, isDigit d = true) ∧
        digitsVal ds = n ∧ (0 < n → ds.head? ≠ some 48) ∧ (n = 0 → ds = [48]) := by
  induction fuel with
  | zero => intro n acc h; omega
  | succ fuel ih =>
    intro n acc h
    rw [natDigits]
    by_cases h10 : n < 10
    · rw [if_pos h10]
      refine ⟨[48 + n], by simp, by simp, ?_, ?_, ?_, ?_⟩
      · intro d hd
        simp only [List.mem_singleton] at hd
        subst hd
        simp only [isDigit, Bool.and_eq_true, decide_eq_true_eq]
        omega
      · simp [digitsVal]
      · intro hn
        simp only [List.head?_cons, ne_eq, Option.some.injEq]
        omega
      · intro hn; subst hn; rfl
    · rw [if_neg h10]
      obtain ⟨ds, h1, h2, h3, h4, h5, _⟩ := ih (n / 10) ((48 + n % 10) :: acc) (by omega)
      refine ⟨ds ++ [48 + n % 10], by rw [h1]; simp, by simp, ?_, ?_, ?_, ?_⟩
      · intro d hd
        rcases List.mem_append.mp hd with hd | hd
        · exact h3 d hd
        · simp only [List.mem_singleton] at hd
          subst hd
          simp only [isDigit, Bool.and_eq_true, decide_eq_true_eq]
          omega
      · rw [digitsVal_append, h4]
        omega
      · intro _
        rw [List.head?_append_of_ne_nil ds h2]
        exact h5 (by omega)
      · intro hn; omega

theorem formatNat_spec (n : Nat) :
    ∃ ds, formatNat n = ds ∧ ds ≠ [] ∧ (∀ d ∈ ds, isDigit d = true) ∧
      digitsVal ds = n ∧ (0 < n → ds.head? ≠ some 48) ∧ (n = 0 → ds = [48]) := by
  obtain ⟨ds, h1, h⟩ := natDigits_spec (n + 1) n [] (by omega)
  exact ⟨ds, by rw [formatNat, h1]; simp, h⟩

theorem log2Fuel_spec (fuel : Nat) :
    ∀ n, 1 ≤ n → n ≤ fuel →
      2 ^ log2Fuel fuel n ≤ n ∧ n < 2 ^ (log2Fuel fuel n + 1) := by
  induction fuel with
  | zero => intro n h1 h2; omega
  | succ fuel ih =>
    intro n h1 h2
    rw [log2Fuel]
    by_cases h : n < 2
    · rw [if_pos h]
      simp
      omega
    · rw [if_neg h]
      have := ih (n / 2) (by omega) (by omega)
      rw [Nat.pow_succ, Nat.pow_succ]
      rw [Nat.pow_succ] at this
      omega

theorem divRoundEven_one (a : Nat) : divRoundEven a 1 = a := by
  simp [divRoundEven, Nat.mod_one]

/-- An integer of magnitude at most `2^53` is a `float64`: the literal of its digits is
read as a value that passes the test `math.Floor(v) == v` and converts back to it. -/
theorem roundFloat64_exact (neg : Bool) (m : Nat) (hm : m ≤ 2 ^ 53) :
    ∃ f, roundFloat64 neg m 1 = some f ∧ f.isIntegral = true ∧
      f.toInt = (if neg then -(m : Int) else (m : Int)) := by
  by_cases h0 : m = 0
  · subst h0
    refine ⟨⟨neg, 0, 0⟩, by simp [roundFloat64], rfl, ?_⟩
    cases neg <;> decide
  · by_cases h53 : m = 2 ^ 53
    · subst h53
      refine ⟨⟨neg, 2 ^ 52, 1⟩, ?_, rfl, ?_⟩
      · cases neg <;> decide
      · cases neg <;> decide
    · have hlt : m < 2 ^ 53 := by omega
      obtain ⟨hl1, hl2⟩ := log2Fuel_spec m m (by omega) (Nat.le_refl m)
      generalize hL : log2Fuel m m = L at hl1 hl2
      have hL52 : L ≤ 52 := by
        by_contra hc
        have : 2 ^ 53 ≤ 2 ^ L := Nat.pow_le_pow_right (by omega) (by omega)
        omega
      have hlog1 : log2Fuel 1 1 = 0 := by decide
      refine ⟨⟨neg, m * 2 ^ (52 - L), (L : Int) - 52⟩, ?_, ?_, ?_⟩
      · unfold roundFloat64
        rw [if_neg h0]
        simp only [hL, hlog1, Nat.cast_zero, sub_zero]
        have h1 : (0 : Int) ≤ (L : Int) := by omega
        simp only [h1, if_true, Int.toNat_ofNat, Nat.one_mul, hl1, decide_True]
        rw [if_neg (by omega)]
        have ht : max ((L : Int) - 52) (-1074) = (L : Int) - 52 := by
          apply max_eq_left; omega
        rw [ht]
        have ht1 : ((L : Int) - 52).toNat = 0 := by omega
        have ht2 : (-((L : Int) - 52)).toNat = 52 - L := by omega
        rw [ht1, ht2, Nat.pow_zero, divRoundEven_one]
        rw [if_neg (by omega)]
      · simp only [Float64.isIntegral, Bool.or_eq_true, decide_eq_true_eq, beq_iff_eq]
        right
        have ht2 : (-((L : Int) - 52)).toNat = 52 - L := by omega
        rw [ht2]
        exact Nat.mul_mod_left _ _
      · have ht2 : (-((L : Int) - 52)).toNat = 52 - L := by omega
        have hmag : (if (0 : Int) ≤ (L : Int) - 52 then m * 2 ^ (52 - L) * 2 ^ ((L : Int) - 52).toNat
            else m * 2 ^ (52 - L) / 2 ^ (-((L : Int) - 52)).toNat) = m := by
          by_cases hc : (0 : Int) ≤ (L : Int) - 52
          · have : L = 52 := by omega
            subst this
            simp
          · rw [if_neg hc, ht2]
            exact Nat.mul_div_cancel _ (Nat.pos_pow_of_pos _ (by omega))
        simp only [Float64.toInt, hmag]
        have hmi : (m : Int) < 2 ^ 53 := by exact_mod_cast hlt
        cases neg
        · simp only [Bool.false_eq_true, if_false]
          rw [if_pos (by constructor <;> omega)]
        · simp only [if_true]
          rw [if_pos (by constructor <;> omega)]

theorem takeWhile_digits_append (ds x : GoString) (hd : ∀ d ∈ ds, isDigit d = true)
    (hx : ∀ c, x.head? = some c → isDigit c = false) :
    (ds ++ x).takeWhile isDigit = ds := by
  rw [List.takeWhile_append]
  have h1 : ds.takeWhile isDigit = ds := List.takeWhile_eq_self_iff.mpr hd
  rw [h1, if_pos rfl]
  have h2 : x.takeWhile isDigit = [] := by
    cases x with
    | nil => rfl
    | cons c u => simp [List.takeWhile_cons, hx c rfl]
  rw [h2, List.append_nil]

/-- The digits of an integer, followed by `,` or `]`, are read as a JSON number. -/
theorem jsonNumber_digits (neg : Bool) (ds x : GoString) (hne : ds ≠ [])
    (hd : ∀ d ∈ ds, isDigit d = true) (h0 : ds.head? = some 48 → ds = [48])
    (hx : x.head? = some 44 ∨ x.head? = some 93) :
    jsonNumber ((if neg then [45] else []) ++ ds ++ x)
      = (roundFloat64 neg (digitsVal ds) 1).map
          (fun f => (f, ((if neg then [45] else []) ++ ds).length)) := by
  have hxd : ∀ c, x.head? = some c → isDigit c = false := by
    intro c hc
    rcases hx with hx | hx <;> rw [hx] at hc <;> simp only [Option.some.injEq] at hc <;>
      subst hc <;> decide
  have hx46 : x.head? ≠ some 46 := by rcases hx with hx | hx <;> rw [hx] <;> decide
  have hx101 : x.head? ≠ some 101 := by rcases hx with hx | hx <;> rw [hx] <;> decide
  have hx69 : x.head? ≠ some 69 := by rcases hx with hx | hx <;> rw [hx] <;> decide
  have hhd : (ds ++ x).head? = ds.head? := List.head?_append_of_ne_nil ds hne
  have hd45 : ds.head? ≠ some 45 := by
    cases ds with
    | nil => exact absurd rfl hne
    | cons c u =>
      have := hd c (List.mem_cons_self _ _)
      simp only [isDigit, Bool.and_eq_true, decide_eq_true_eq] at this
      simp only [List.head?_cons, ne_eq, Option.some.injEq]
      omega
  have hip : (if (ds ++ x).head? = some 48 then [48] else (ds ++ x).takeWhile isDigit) = ds := by
    rw [hhd]
    by_cases h48 : ds.head? = some 48
    · rw [if_pos h48, h0 h48]
    · rw [if_neg h48, takeWhile_digits_append ds x hd hxd]
  have hs1 : (if ((if neg then [45] else []) ++ ds ++ x).head? = some 45
      then ((if neg then [45] else []) ++ ds ++ x).drop 1
      else (if neg then [45] else []) ++ ds ++ x) = ds ++ x := by
    cases neg
    · simp only [Bool.false_eq_true, if_false, List.nil_append, hhd]
      rw [if_neg hd45]
    · simp
  have hneg : decide (((if neg then [45] else []) ++ ds ++ x).head? = some 45) = neg := by
    cases neg
    · simp only [Bool.false_eq_true, if_false, List.nil_append, hhd]
      simp [hd45]
    · simp
  unfold jsonNumber
  simp only [hs1, hip, List.drop_left, hx46, hx101, hx69, or_self, if_false, false_and,
    List.isEmpty_nil, and_true, List.length_nil, List.append_nil, Nat.add_zero]
  have hemp : ds.isEmpty = false := by
    cases ds with
    | nil => exact absurd rfl hne
    | cons => rfl
  simp only [hemp, Bool.false_eq_true, if_false, digitsVal, List.foldl_nil]
  have hex : ((if (List.drop 1 x).head? = some 45 then -((0 : Nat) : Int) else ((0 : Nat) : Int))
      - ((0 : Nat) : Int)) = 0 := by
    split <;> simp
  rw [hex, hneg]
  simp only [Int.toNat_zero, neg_zero, pow_zero, Nat.mul_one]
  have hlen : (if ((if neg then [45] else []) ++ ds ++ x).head? = some 45 then 1 else 0)
      + ds.length = ((if neg then [45] else []) ++ ds).length := by
    cases neg
    · simp only [Bool.false_eq_true, if_false, List.nil_append, hhd]
      rw [if_neg hd45]
      omega
    · simp
      omega
  rw [hlen]
  rcases roundFloat64 neg (List.foldl (fun acc d => acc * 10 + (d - 48)) 0 ds) 1 with _ | f <;> rfl

theorem jsonLex_skip (k : Nat) (s : GoString) :
    jsonLex (k + 1) s = jsonLex 0 (s.drop (k + 1)) := by
  induction k generalizing s with
  | zero => cases s <;> simp [jsonLex]
  | succ k ih =>
    cases s with
    | nil => simp [jsonLex]
    | cons c u =>
      rw [jsonLex, ih]
      simp

/-- Reading one token, then the rest of the text. -/
theorem jsonLex_token (piece y : GoString) (tok : JTok) (hp : piece ≠ [])
    (h : jsonLexOne (piece ++ y) = some (some tok, piece.length)) :
    jsonLex 0 (piece ++ y) = (jsonLex 0 y).map (fun toks => tok :: toks) := by
  rcases piece with _ | ⟨c, u⟩
  · exact absurd rfl hp
  · simp only [List.cons_append] at h ⊢
    rw [jsonLex, h]
    simp only [List.length_cons, Nat.add_sub_cancel]
    have : jsonLex u.length (u ++ y) = jsonLex 0 y := by
      cases hu : u.length with
      | zero =>
        have : u = [] := List.eq_nil_of_length_eq_zero hu
        subst this
        simp
      | succ k =>
        rw [jsonLex_skip, ← hu]
        simp
    rw [this]
    rcases jsonLex 0 y with _ | toks <;> rfl

theorem jsonLexOne_string (s x : GoString) (hv : ValidString s = true) :
    jsonLexOne (jsonString s ++ x)
      = some (some (JTok.lit (JVal.str s)), (jsonString s).length) := by
  simp only [jsonString, List.singleton_append, List.cons_append, List.append_assoc,
    jsonLexOne]
  simp only [show ¬ ((34 : Nat) = 32 ∨ (34 : Nat) = 9 ∨ (34 : Nat) = 13 ∨ (34 : Nat) = 10) by decide,
    show (34 : Nat) ≠ 91 by decide, show (34 : Nat) ≠ 93 by decide,
    show (34 : Nat) ≠ 123 by decide, show (34 : Nat) ≠ 125 by decide,
    show (34 : Nat) ≠ 44 by decide, show (34 : Nat) ≠ 58 by decide, if_false, if_true,
    List.nil_append]
  rw [jsonString_roundtrip s hv x]
  simp only [List.length_cons, List.length_append, List.length_singleton, List.length_nil,
    Option.some.injEq, Prod.mk.injEq, true_and]
  omega

theorem jsonLexOne_number (s : GoString) (c : Nat) (t : GoString) (hs : s = c :: t)
    (hc : c = 45 ∨ (48 ≤ c ∧ c ≤ 57)) :
    jsonLexOne s = (jsonNumber s).map (fun r => (some (JTok.lit (JVal.num r.1)), r.2)) := by
  subst hs
  simp only [jsonLexOne]
  have hws : ¬ (c = 32 ∨ c = 9 ∨ c = 13 ∨ c = 10) := by omega
  have hpunct : c ≠ 91 ∧ c ≠ 93 ∧ c ≠ 123 ∧ c ≠ 125 ∧ c ≠ 44 ∧ c ≠ 58 ∧ c ≠ 34 := by omega
  simp only [hws, hpunct.1, hpunct.2.1, hpunct.2.2.1, hpunct.2.2.2.1, hpunct.2.2.2.2.1,
    hpunct.2.2.2.2.2.1, hpunct.2.2.2.2.2.2, if_false]
  have h1 : ¬ (List.take 4 (c :: t) = [116, 114, 117, 101]) := by
    simp only [List.take_succ_cons, List.cons.injEq, not_and]
    intro h; omega
  have h2 : ¬ (List.take 5 (c :: t) = [102, 97, 108, 115, 101]) := by
    simp only [List.take_succ_cons, List.cons.injEq, not_and]
    intro h; omega
  have h3 : ¬ (List.take 4 (c :: t) = [110, 117, 108, 108]) := by
    simp only [List.take_succ_cons, List.cons.injEq, not_and]
    intro h; omega
  rw [if_neg h1, if_neg h2, if_neg h3]
  rcases jsonNumber (c :: t) with _ | ⟨f, n⟩ <;> rfl

theorem FormatInt_head (v : Int) :
    ∃ c t, FormatInt v = c :: t ∧ (c = 45 ∨ (48 ≤ c ∧ c ≤ 57)) := by
  obtain ⟨ds, h1, h2, h3, _⟩ := formatNat_spec v.natAbs
  unfold FormatInt
  by_cases hneg : v < 0
  · rw [if_pos hneg]
    exact ⟨45, _, rfl, Or.inl rfl⟩
  · rw [if_neg hneg, h1]
    cases ds with
    | nil => exact absurd rfl h2
    | cons c u =>
      have := h3 c (List.mem_cons_self _ _)
      simp only [isDigit, Bool.and_eq_true, decide_eq_true_eq] at this
      exact ⟨c, u, rfl, Or.inr this⟩

theorem floatOfInt_spec (v : Int) (hv : v.natAbs ≤ 2 ^ 53) :
    (floatOfInt v).isIntegral = true ∧ (floatOfInt v).toInt = v ∧
      ∀ x, (x.head? = some 44 ∨ x.head? = some 93) →
        jsonNumber (FormatInt v ++ x) = some (floatOfInt v, (FormatInt v).length) := by
  have hx0 : ([44] : GoString).head? = some 44 ∨ ([44] : GoString).head? = some 93 := Or.inl rfl
  obtain ⟨ds, h1, h2, h3, h4, h5, h6⟩ := formatNat_spec v.natAbs
  have h0 : ds.head? = some 48 → ds = [48] := by
    intro h48
    by_cases hz : v.natAbs = 0
    · exact h6 hz
    · exact absurd h48 (h5 (by omega))
  have hF : FormatInt v = (if decide (v < 0) then [45] else []) ++ ds := by
    unfold FormatInt
    rw [h1]
    by_cases hneg : v < 0
    · simp [hneg]
    · simp [hneg]
  obtain ⟨f, hf1, hf2, hf3⟩ := roundFloat64_exact (decide (v < 0)) v.natAbs hv
  have hfo : floatOfInt v = f := by
    unfold floatOfInt
    rw [hf1]
    rfl
  rw [hfo]
  refine ⟨hf2, ?_, ?_⟩
  · rw [hf3]
    by_cases hneg : v < 0
    · simp only [hneg, decide_True, if_true]
      omega
    · simp only [hneg, decide_False, Bool.false_eq_true, if_false]
      omega
  · intro x hx
    rw [hF, jsonNumber_digits (decide (v < 0)) ds x h2 h3 h0 hx, h4, hf1]
    rfl

/-- The JSON text of a component that survives the encoding, followed by `,` or `]`,
is read as one token: the value of the component. -/
theorem jsonLexOne_encodeComp (c : Comp) (x : GoString) (hc : jsonExact c)
    (hx : x.head? = some 44 ∨ x.head? = some 93) :
    jsonLexOne (encodeComp c ++ x)
      = some (some (JTok.lit (decodedComp c)), (encodeComp c).length) ∧ encodeComp c ≠ [] := by
  cases c with
  | str s =>
    exact ⟨jsonLexOne_string s x hc, by simp [encodeComp, jsonString]⟩
  | int v =>
    obtain ⟨c, t, hct, hcc⟩ := FormatInt_head v
    have hs : FormatInt v ++ x = c :: (t ++ x) := by rw [hct]; rfl
    refine ⟨?_, by simp [encodeComp, hct]⟩
    simp only [encodeComp, decodedComp]
    rw [jsonLexOne_number _ c (t ++ x) hs hcc, (floatOfInt_spec v hc).2.2 x hx]
    rfl

theorem jsonLex_rbrack : jsonLex 0 [93] = some [JTok.rbrack] := by rfl

/-- The text of the elements of an array and its closing bracket are read as the
tokens of the values. -/
theorem jsonLex_joinComma (cs : List Comp) (hc : ∀ c ∈ cs, jsonExact c) :
    jsonLex 0 (joinComma (cs.map encodeComp) ++ [93]) = some (arrayToks (cs.map decodedComp)) := by
  cases cs with
  | nil => exact jsonLex_rbrack
  | cons c rest =>
    have key : ∀ (rest : List Comp) (c : Comp), jsonExact c → (∀ d ∈ rest, jsonExact d) →
        jsonLex 0 (joinComma ((c :: rest).map encodeComp) ++ [93])
          = some (JTok.lit (decodedComp c) :: restToks (rest.map decodedComp)) := by
      intro rest
      induction rest with
      | nil =>
        intro c hc _
        simp only [List.map_cons, List.map_nil, joinComma, restToks]
        obtain ⟨h1, h2⟩ := jsonLexOne_encodeComp c [93] hc (Or.inr rfl)
        rw [jsonLex_token _ _ _ h2 h1, jsonLex_rbrack]
        rfl
      | cons d rest ih =>
        intro c hc hrest
        simp only [List.map_cons, joinComma, restToks, List.append_assoc]
        obtain ⟨h1, h2⟩ := jsonLexOne_encodeComp c
          ([44] ++ (joinComma (encodeComp d :: rest.map encodeComp) ++ [93])) hc
          (Or.inl (by simp))
        rw [jsonLex_token _ _ _ h2 h1]
        have hcomma : jsonLexOne ([44] ++ (joinComma (encodeComp d :: rest.map encodeComp) ++ [93]))
            = some (some JTok.comma, ([44] : GoString).length) := by
          simp [jsonLexOne]
        rw [jsonLex_token _ _ _ (by simp) hcomma]
        have := ih d (hrest d (List.mem_cons_self _ _))
          (fun e he => hrest e (List.mem_cons_of_mem _ he))
        simp only [List.map_cons] at this
        rw [this]
        rfl
    exact key rest c (hc c (List.mem_cons_self _ _)) (fun d hd => hc d (List.mem_cons_of_mem _ hd))

theorem jsonRun_restToks (r : List JVal) :
    ∀ done, jsonRun (restToks r) JMode.endValue [JFrame.arr done] = some (JVal.arr (done ++ r)) := by
  induction r with
  | nil =>
    intro done
    simp [restToks, jsonRun, jsonStep, jsonFinish]
  | cons v r ih =>
    intro done
    simp only [restToks, jsonRun, jsonStep, jsonFinish]
    rw [ih]
    simp

theorem jsonRun_arrayToks (vs : List JVal) :
    jsonRun (JTok.lbrack :: arrayToks vs) JMode.beginValue [] = some (JVal.arr vs) := by
  cases vs with
  | nil => simp [arrayToks, jsonRun, jsonStep, jsonFinish, maxNestingDepth]
  | cons v r =>
    simp only [arrayToks, jsonRun, jsonStep, jsonFinish, maxNestingDepth, List.length_nil]
    simp only [Nat.zero_add, Nat.one_le_ofNat, if_true, List.nil_append]
    rw [jsonRun_restToks]
    simp

/-- The text `MarshalJSON` writes is read as the array of the values of the
components. -/
theorem jsonParse_jsonMarshal (cs : List Comp) (hc : ∀ c ∈ cs, jsonExact c) :
    jsonParse (jsonMarshal cs) = some (JVal.arr (cs.map decodedComp)) := by
  unfold jsonParse jsonMarshal
  have hl : jsonLexOne ([91] ++ (joinComma (cs.map encodeComp) ++ [93]))
      = some (some JTok.lbrack, ([91] : GoString).length) := by
    simp [jsonLexOne]
  rw [List.append_assoc, jsonLex_token _ _ _ (by simp) hl, jsonLex_joinComma cs hc]
  simp only [Option.map_some']
  exact jsonRun_arrayToks _

theorem unmarshalLoop_decoded (cs : List Comp) (hc : ∀ c ∈ cs, jsonExact c) :
    ∀ acc : List Comp, unmarshalLoop (cs.map decodedComp) { components := some acc }
      = ({ components := some (acc ++ cs) }, none) := by
  induction cs with
  | nil => intro acc; simp [unmarshalLoop]
  | cons c rest ih =>
    intro acc
    have hrest := ih (fun d hd => hc d (List.mem_cons_of_mem _ hd))
    have hcc := hc c (List.mem_cons_self _ _)
    cases c with
    | str s =>
      simp only [List.map_cons, decodedComp, unmarshalLoop, goAppend, elems, Option.getD_some]
      rw [hrest]
      simp
    | int v =>
      obtain ⟨h1, h2, _⟩ := floatOfInt_spec v hcc
      simp only [List.map_cons, decodedComp, unmarshalLoop, h1, h2, Bool.not_true,
        Bool.false_eq_true, if_false, goAppend, elems, Option.getD_some]
      rw [hrest]
      simp

theorem unmarshalLoop_ok (xs : List JVal) (h : ∀ x ∈ xs, (compOf x).isSome = true) :
    ∀ acc : List Comp, unmarshalLoop xs { components := some acc }
      = ({ components := some (acc ++ xs.filterMap compOf) }, none) := by
  induction xs with
  | nil => intro acc; simp [unmarshalLoop]
  | cons x rest ih =>
    intro acc
    have hrest := ih (fun y hy => h y (List.mem_cons_of_mem _ hy))
    have hx := h x (List.mem_cons_self _ _)
    cases x with
    | str s =>
      simp only [unmarshalLoop, goAppend, elems, Option.getD_some, compOf, List.filterMap_cons]
      rw [hrest]
      simp
    | num f =>
      have hf : f.isIntegral = true := by
        by_contra hc
        simp [compOf, hc] at hx
      simp only [unmarshalLoop, hf, Bool.not_true, Bool.false_eq_true, if_false, goAppend, elems,
        Option.getD_some, compOf, List.filterMap_cons, if_true]
      rw [hrest]
      simp
    | null => simp [compOf] at hx
    | bool b => simp [compOf] at hx
    | arr ys => simp [compOf] at hx
    | obj kvs => simp [compOf] at hx

theorem unmarshalLoop_reject (x : JVal) (post : List JVal) (p : P) (hx : compOf x = none) :
    unmarshalLoop (x :: post) p = (p, some (errorOf x)) := by
  cases x with
  | str s => simp [compOf] at hx
  | num f =>
    have hf : f.isIntegral = false := by
      by_contra hc
      simp only [Bool.not_eq_false] at hc
      simp [compOf, hc] at hx
    simp [unmarshalLoop, hf, errorOf]
  | null => simp [unmarshalLoop, errorOf]
  | bool b => simp [unmarshalLoop, errorOf]
  | arr ys => simp [unmarshalLoop, errorOf]
  | obj kvs => simp [unmarshalLoop, errorOf]

theorem unmarshalLoop_err (pre : List JVal) (x : JVal) (post : List JVal)
    (h : ∀ y ∈ pre, (compOf y).isSome = true) (hx : compOf x = none) :
    ∀ acc : List Comp, unmarshalLoop (pre ++ x :: post) { components := some acc }
      = ({ components := some (acc ++ pre.filterMap compOf) }, some (errorOf x)) := by
  induction pre with
  | nil =>
    intro acc
    simp only [List.nil_append, List.filterMap_nil, List.append_nil]
    exact unmarshalLoop_reject x post _ hx
  | cons y rest ih =>
    intro acc
    have hrest := ih (fun z hz => h z (List.mem_cons_of_mem _ hz))
    have hy := h y (List.mem_cons_self _ _)
    cases y with
    | str s =>
      simp only [List.cons_append, unmarshalLoop, goAppend, elems, Option.getD_some, compOf,
        List.filterMap_cons, List.append_eq]
      rw [hrest]
      simp
    | num f =>
      have hf : f.isIntegral = true := by
        by_contra hc
        simp [compOf, hc] at hy
      simp only [List.cons_append, unmarshalLoop, hf, Bool.not_true, Bool.false_eq_true, if_false,
        goAppend, elems, Option.getD_some, compOf, List.filterMap_cons, if_true, List.append_eq]
      rw [hrest]
      simp
    | null => simp [compOf] at hy
    | bool b => simp [compOf] at hy
    | arr ys => simp [compOf] at hy
    | obj kvs => simp [compOf] at hy

/-- A list of decoded values has only accepted values, or a first rejected one. -/
theorem first_rejected (xs : List JVal) :
    (∀ x ∈ xs, (compOf x).isSome = true) ∨
      ∃ pre x post, xs = pre ++ x :: post ∧ (∀ y ∈ pre, (compOf y).isSome = true) ∧
        compOf x = none := by
  induction xs with
  | nil => left; simp
  | cons x rest ih =>
    cases hx : compOf x with
    | none => right; exact ⟨[], x, rest, rfl, by simp, hx⟩
    | some c =>
      rcases ih with ih | ⟨pre, y, post, h1, h2, h3⟩
      · left
        intro z hz
        rcases List.mem_cons.mp hz with rfl | hz
        · rw [hx]; rfl
        · exact ih z hz
      · right
        refine ⟨x :: pre, y, post, by rw [h1]; rfl, ?_, h3⟩
        intro z hz
        rcases List.mem_cons.mp hz with rfl | hz
        · rw [hx]; rfl
        · exact h2 z hz

/-! ## The claims about the canonical JSON encoding -/

/-- C3 fails as stated: the path `[9007199254740993]` (that is `2^53 + 1`) is encoded as
`[9007199254740993]` and decoded, through `float64`, as `[9007199254740992]`; and the
path whose one string is the byte `0xFF` is decoded as the string U+FFFD. -/
theorem UnmarshalJSON_MarshalJSON_lossy :
    UnmarshalJSON { components := none }
        (MarshalJSON { components := some [Comp.int 9007199254740993] })
      = ({ components := some [Comp.int 9007199254740992] }, none) ∧
    UnmarshalJSON { components := none }
        (MarshalJSON { components := some [Comp.str [0xFF]] })
      = ({ components := some [Comp.str [0xEF, 0xBF, 0xBD]] }, none) := by
  constructor <;> rfl

/-- C3, amended. Canonical JSON round trip: for every path `p` whose string components
are valid UTF-8 and whose integer components have a magnitude of at most `2^53`, and
every receiver `q`, decoding the bytes `MarshalJSON` produces for `p` returns no error
and leaves in the receiver exactly the components of `p`. -/
theorem UnmarshalJSON_MarshalJSON (p q : P) (h : ∀ c ∈ elems p.components, jsonExact c) :
    UnmarshalJSON q (MarshalJSON p) = ({ components := some (elems p.components) }, none) := by
  have hm : MarshalJSON p = jsonMarshal (elems p.components) := by
    unfold MarshalJSON elems
    cases p.components <;> rfl
  rw [hm]
  simp only [UnmarshalJSON, jsonUnmarshalSlice, jsonParse_jsonMarshal _ h]
  rw [unmarshalLoop_decoded _ h]
  simp

/-- C3, amended, at the path `["hé<llo\n", -5, 2^53]`. -/
theorem UnmarshalJSON_MarshalJSON_witness :
    UnmarshalJSON { components := none }
        (MarshalJSON { components := some [Comp.str (utf8 "hé<llo\n"), Comp.int (-5),
          Comp.int 9007199254740992] })
      = ({ components := some [Comp.str (utf8 "hé<llo\n"), Comp.int (-5),
          Comp.int 9007199254740992] }, none) :=
  UnmarshalJSON_MarshalJSON _ _ (by
    intro c hc
    simp only [elems, Option.getD_some, List.mem_cons, List.mem_singleton, List.not_mem_nil,
      or_false] at hc
    rcases hc with rfl | rfl | rfl
    · show ValidString _ = true
      decide
    · show Int.natAbs _ ≤ _
      decide
    · show Int.natAbs _ ≤ _
      decide)

/-- C9 fails as stated: the input `null` is not a JSON array, and `UnmarshalJSON`
returns no error for it, leaving the empty path. -/
theorem UnmarshalJSON_null_accepted :
    UnmarshalJSON { components := none } (ascii "null") = ({ components := some [] }, none) := by
  rfl

/-- C9, amended. `UnmarshalJSON` returns no error if and only if the input is the JSON
text `null`, or a JSON array every element of which is a string or a number whose
`float64` value `v` has `math.Floor(v) == v`. On success the components are, in array
order, the string of each string element and `int(v)` for each number element (no
component for `null`). -/
theorem UnmarshalJSON_shape (p : P) (b : GoString) :
    ((UnmarshalJSON p b).2 = none ↔
      (jsonParse b = some JVal.null ∨
        ∃ xs, jsonParse b = some (JVal.arr xs) ∧ ∀ x ∈ xs, (compOf x).isSome = true)) ∧
    (jsonParse b = some JVal.null → UnmarshalJSON p b = ({ components := some [] }, none)) ∧
    (∀ xs, jsonParse b = some (JVal.arr xs) → (∀ x ∈ xs, (compOf x).isSome = true) →
      UnmarshalJSON p b = ({ components := some (xs.filterMap compOf) }, none)) := by
  have hnull : jsonParse b = some JVal.null →
      UnmarshalJSON p b = ({ components := some [] }, none) := by
    intro h
    simp [UnmarshalJSON, jsonUnmarshalSlice, h, unmarshalLoop]
  have harr : ∀ xs, jsonParse b = some (JVal.arr xs) → (∀ x ∈ xs, (compOf x).isSome = true) →
      UnmarshalJSON p b = ({ components := some (xs.filterMap compOf) }, none) := by
    intro xs h hall
    simp only [UnmarshalJSON, jsonUnmarshalSlice, h]
    rw [unmarshalLoop_ok xs hall]
    simp
  refine ⟨⟨?_, ?_⟩, hnull, harr⟩
  · intro hok
    rcases hp : jsonParse b with _ | v
    · simp [UnmarshalJSON, jsonUnmarshalSlice, hp] at hok
    · cases v with
      | null => left; rfl
      | arr xs =>
        right
        refine ⟨xs, rfl, ?_⟩
        rcases first_rejected xs with hall | ⟨pre, x, post, h1, h2, h3⟩
        · exact hall
        · exfalso
          simp only [UnmarshalJSON, jsonUnmarshalSlice, hp, h1] at hok
          rw [unmarshalLoop_err pre x post h2 h3] at hok
          simp at hok
      | bool c => simp [UnmarshalJSON, jsonUnmarshalSlice, hp] at hok
      | num f => simp [UnmarshalJSON, jsonUnmarshalSlice, hp] at hok
      | str s => simp [UnmarshalJSON, jsonUnmarshalSlice, hp] at hok
      | obj kvs => simp [UnmarshalJSON, jsonUnmarshalSlice, hp] at hok
  · rintro (h | ⟨xs, h, hall⟩)
    · rw [hnull h]
    · rw [harr xs h hall]

/-- C9, amended, at the inputs `["a", 1.0]` (accepted), `"hello"`, `[1.23]` and `[true]`
(each rejected). -/
theorem UnmarshalJSON_shape_witness :
    UnmarshalJSON { components := none } (ascii "[\"a\", 1.0]")
        = ({ components := some [Comp.str (ascii "a"), Comp.int 1] }, none) ∧
    (UnmarshalJSON { components := none } (ascii "\"hello\"")).2 ≠ none ∧
    (UnmarshalJSON { components := none } (ascii "[1.23]")).2 ≠ none ∧
    (UnmarshalJSON { components := none } (ascii "[true]")).2 ≠ none :=
  ⟨((UnmarshalJSON_shape { components := none } (ascii "[\"a\", 1.0]")).2.2
      [JVal.str (ascii "a"), JVal.num ⟨false, 4503599627370496, -52⟩] (by rfl)
      (by
        intro x hx
        simp only [List.mem_cons, List.mem_singleton, List.not_mem_nil, or_false] at hx
        rcases hx with rfl | rfl <;> rfl)).trans (by rfl),
   fun h => absurd ((UnmarshalJSON_shape { components := none } (ascii "\"hello\"")).1.mp h)
      (by
        have hp : jsonParse (ascii "\"hello\"") = some (JVal.str (ascii "hello")) := by rfl
        rw [hp]
        simp),
   fun h => absurd ((UnmarshalJSON_shape { components := none } (ascii "[1.23]")).1.mp h)
      (by
        have hp : jsonParse (ascii "[1.23]")
            = some (JVal.arr [JVal.num ⟨false, 5539427541665710, -52⟩]) := by rfl
        rw [hp]
        simp [compOf, Float64.isIntegral]),
   fun h => absurd ((UnmarshalJSON_shape { components := none } (ascii "[true]")).1.mp h)
      (by
        have hp : jsonParse (ascii "[true]") = some (JVal.arr [JVal.bool true]) := by rfl
        rw [hp]
        simp [compOf])⟩

/-- C10 fails as stated: on `["a", true]` a receiver with nil components is left with
the component `"a"`, decoded before the offending element, and the error. -/
theorem UnmarshalJSON_partial_result :
    UnmarshalJSON { components := none } (ascii "[\"a\", true]")
      = ({ components := some [Comp.str (ascii "a")] },
          some (UnmarshalError.unexpectedValue (JVal.bool true))) ∧
    ({ components := some [Comp.str (ascii "a")] } : P) ≠ { components := none } := by
  constructor
  · rfl
  · decide

/-- C10, amended. When `json.Unmarshal` itself returns the error (the text is malformed,
or its value is neither an array nor `null`), the receiver is unchanged. When an
element is rejected (a number that is not an integer, or a value of another type), the
error is returned at once and the receiver holds the components decoded from the
elements before the offending one, whatever it held before. -/
theorem UnmarshalJSON_error_state (p : P) (b : GoString) :
    (jsonUnmarshalSlice b = none → UnmarshalJSON p b = (p, some UnmarshalError.decode)) ∧
    (∀ pre x post, jsonUnmarshalSlice b = some (pre ++ x :: post) →
      (∀ y ∈ pre, (compOf y).isSome = true) → compOf x = none →
        UnmarshalJSON p b
          = ({ components := some (pre.filterMap compOf) }, some (errorOf x))) := by
  constructor
  · intro h
    simp [UnmarshalJSON, h]
  · intro pre x post h hpre hx
    simp only [UnmarshalJSON, h]
    rw [unmarshalLoop_err pre x post hpre hx]
    simp

/-- C10, amended, at the inputs `"hello"` and `["a", 1.5, 2]` with the receiver `[7]`. -/
theorem UnmarshalJSON_error_state_witness :
    UnmarshalJSON { components := some [Comp.int 7] } (ascii "\"hello\"")
        = ({ components := some [Comp.int 7] }, some UnmarshalError.decode) ∧
    UnmarshalJSON { components := some [Comp.int 7] } (ascii "[\"a\", 1.5, 2]")
        = ({ components := some [Comp.str (ascii "a")] },
            some (UnmarshalError.unexpectedFloat ⟨false, 6755399441055744, -52⟩)) :=
  ⟨(UnmarshalJSON_error_state _ _).1 (by rfl),
   ((UnmarshalJSON_error_state { components := some [Comp.int 7] } (ascii "[\"a\", 1.5, 2]")).2
      [JVal.str (ascii "a")] (JVal.num ⟨false, 6755399441055744, -52⟩)
      [JVal.num ⟨false, 4503599627370496, -51⟩] (by rfl)
      (by
        intro y hy
        simp only [List.mem_singleton] at hy
        subst hy
        rfl)
      (by rfl)).trans (by rfl)⟩
/-! ## Lemmas for the remaining properties -/

/-- Every match of `FindAllStringIndex` is a match of `pieceReg` at its start offset. -/
theorem findAllFrom_sound (rest : GoString) :
    ∀ (a : Bool) (off skip : Nat), ∀ m ∈ findAllFrom a off skip rest,
      ∃ k n, m = (off + k, off + k + n) ∧ skip ≤ k ∧ k + n ≤ rest.length ∧
        pieceRegAt (a && decide (k = 0)) (rest.drop k) = some n := by
  induction rest with
  | nil => intro a off skip m hm; simp [findAllFrom] at hm
  | cons c t ih =>
    intro a off skip m hm
    have lift : ∀ sk, m ∈ findAllFrom false (off + 1) sk t → sk + 1 ≥ skip →
        ∃ k n, m = (off + k, off + k + n) ∧ skip ≤ k ∧ k + n ≤ (c :: t).length ∧
          pieceRegAt (a && decide (k = 0)) ((c :: t).drop k) = some n := by
      intro sk hmem hsk
      obtain ⟨k, n, h1, h2, h3, h4⟩ := ih false (off + 1) sk m hmem
      refine ⟨k + 1, n, ?_, by omega, by simp only [List.length_cons]; omega, ?_⟩
      · rw [h1]
        congr 1 <;> omega
      · simp only [Bool.false_and] at h4
        simpa using h4
    cases skip with
    | succ sk =>
      rw [findAllFrom] at hm
      exact lift sk hm (by omega)
    | zero =>
      rw [findAllFrom] at hm
      cases hp : pieceRegAt a (c :: t) with
      | none =>
        rw [hp] at hm
        exact lift 0 hm (by omega)
      | some n =>
        rw [hp] at hm
        rcases List.mem_cons.mp hm with h | h
        · have hb := pieceRegAt_bounds a _ n hp
          exact ⟨0, n, by rw [h]; rfl, by omega, by omega, by simpa using hp⟩
        · exact lift (n - 1) h (by omega)

/-- The body of the loop never faults on a matched token. -/
theorem decodePiece_isSome (a : Bool) (x : GoString) (n : Nat)
    (h : pieceRegAt a x = some n) : decodePiece (x.take n) ≠ none := by
  have hb := pieceRegAt_bounds a x n h
  by_cases h91 : x.head? = some 91
  · have h3 := pieceRegAt_bracket_len a x n h h91
    rw [decodePiece_bracket x n h91 (by omega) hb.2]
    rcases Atoi ((x.drop 1).take (n - 2)) with _ | v
    · rcases Unquote ((x.drop 1).take (n - 2)) with _ | w <;> simp
    · simp
  · have hne : x.take n ≠ [] := by
      intro h0
      have : (x.take n).length = 0 := by rw [h0]; rfl
      rw [List.length_take] at this
      omega
    have hhd : (x.take n).head? ≠ some 91 := by
      cases x with
      | nil => simp at hb; omega
      | cons c t =>
        obtain ⟨j, rfl⟩ : ∃ j, n = j + 1 := ⟨n - 1, by omega⟩
        simpa using h91
    obtain ⟨c, hc⟩ := decodePiece_ident _ hne hhd
    rw [hc]
    simp

theorem scanAt_isSome (rest : GoString) :
    ∀ (pre : GoString) (a : Bool) (p : P), scanAt pre a rest p ≠ none := by
  generalize hlen : rest.length = k
  induction k using Nat.strong_induction_on generalizing rest with
  | _ k ih =>
    subst hlen
    intro pre a p
    cases hm : pieceRegAt a rest with
    | none => rw [scanAt_none pre a rest p hm]; simp
    | some n =>
      have hb := pieceRegAt_bounds a rest n hm
      rw [scanAt_some pre a rest p n hm]
      have hd := decodePiece_isSome a rest n hm
      rcases hdd : decodePiece (rest.take n) with _ | ⟨e | c⟩
      · exact absurd hdd hd
      · simp
      · simp only
        exact ih (rest.drop n).length (by simp; omega) (rest.drop n) rfl _ _ _

theorem FromJSPartial_isSome (s : GoString) : FromJSPartial s ≠ none := by
  by_cases h0 : s = []
  · subst h0; rw [FromJSPartial_nil]; simp
  · by_cases h46 : s.head? = some 46
    · cases s with
      | nil => exact absurd rfl h0
      | cons c u =>
        simp only [List.head?_cons, Option.some.injEq] at h46
        subst h46
        rw [FromJSPartial_dot]; simp
    · rw [FromJSPartial_eq_scanAt s h0 h46]
      exact scanAt_isSome _ _ _ _

theorem FromJS_isSome (s : GoString) : FromJS s ≠ none := by
  unfold FromJS
  rcases h : FromJSPartial s with _ | ⟨p, idx, err⟩
  · exact absurd h (FromJSPartial_isSome s)
  · simp only
    split
    · simp
    · split <;> simp

theorem writeComp_ne_nil (tbl : Nat → Bool) (b : GoString) (c : Comp) :
    writeComp tbl b c ≠ [] := by
  cases c with
  | str v =>
    unfold writeComp
    by_cases hv : canDot v = true
    · simp only [hv, if_true]
      have : v ≠ [] := by
        intro h; subst h; simp [canDot] at hv
      simp [this]
    · simp [hv, Quote]
  | int v => simp [writeComp]

theorem quoteLoop_jsonLike (tbl : Nat → Bool) (v : GoString) (h : jsonLike v = true) :
    quoteLoop tbl 0 v = jsonStringLoop 0 v := by
  induction v with
  | nil => rfl
  | cons b t ih =>
    simp only [jsonLike, List.all_cons, Bool.and_eq_true, decide_eq_true_eq, bne_iff_ne, ne_eq]
      at h
    obtain ⟨⟨⟨⟨⟨h1, h2⟩, h3⟩, h4⟩, h5⟩, ht⟩ := h
    have iht := ih (by simpa [jsonLike] using ht)
    have hlt : ¬ b ≥ 0x80 := by omega
    have hlt2 : b < 0x80 := by omega
    have hre : ¬ (b = RuneError) := by unfold RuneError; omega
    simp only [quoteLoop, jsonStringLoop, hlt, hlt2, if_false, if_true, hre, and_false,
      Nat.sub_self]
    rw [iht]
    congr 1
    unfold appendEscapedRune
    by_cases hq : b = 34 ∨ b = 92
    · have hs : htmlSafe b = false := by
        rcases hq with rfl | rfl <;> rfl
      have hq2 : b = 92 ∨ b = 34 := hq.symm
      simp [hq, hq2, hs]
    · have hs : htmlSafe b = true := by
        unfold htmlSafe
        simp only [Bool.and_eq_true, decide_eq_true_eq, bne_iff_ne, ne_eq]
        omega
      have hp : IsPrint tbl b = true := by
        unfold IsPrint
        rw [if_pos (by omega), if_pos ⟨h1, h2⟩]
      have he : EncodeRune b = [b] := by
        unfold EncodeRune
        rw [if_pos (by omega)]
      simp [hq, hs, hp, he]

theorem quoteLoop_plain (tbl : Nat → Bool) (v : GoString) (h : plainText v = true) :
    quoteLoop tbl 0 v = v := by
  induction v with
  | nil => rfl
  | cons b t ih =>
    simp only [plainText, jsonLike, List.all_cons, Bool.and_eq_true, decide_eq_true_eq,
      bne_iff_ne, ne_eq] at h
    obtain ⟨⟨⟨⟨⟨⟨h1, h2⟩, h3⟩, h4⟩, h5⟩, ht⟩, ⟨h6, h7⟩, ht2⟩ := h
    have iht := ih (by simp [plainText, jsonLike, ht, ht2])
    have hlt : ¬ b ≥ 0x80 := by omega
    have hre : ¬ (b = RuneError) := by unfold RuneError; omega
    simp only [quoteLoop, hlt, if_false, hre, and_false, Nat.sub_self]
    rw [iht]
    have hp : IsPrint tbl b = true := by
      unfold IsPrint
      rw [if_pos (by omega), if_pos ⟨h1, h2⟩]
    have he : EncodeRune b = [b] := by
      unfold EncodeRune
      rw [if_pos (by omega)]
    unfold appendEscapedRune
    simp [h6, h7, hp, he]

theorem array_set_same (h : Heap) (a : Nat) (v : List Cell) (ha : a < h.length) :
    array (h.set a v) a = v := by
  simp [array, List.getD_eq_getElem?_getD, List.getElem?_set, ha]

theorem array_set_other (h : Heap) (a b : Nat) (v : List Cell) (hab : b ≠ a) :
    array (h.set a v) b = array h b := by
  simp [array, List.getD_eq_getElem?_getD, List.getElem?_set, Ne.symm hab]

theorem array_append_old (h : Heap) (v : List Cell) (a : Nat) (ha : a < h.length) :
    array (h ++ [v]) a = array h a := by
  simp [array, List.getD_eq_getElem?_getD, List.getElem?_append_left ha]

theorem array_append_new (h : Heap) (v : List Cell) : array (h ++ [v]) h.length = v := by
  simp [array, List.getD_eq_getElem?_getD]

theorem cells_some (h : Heap) (sl : Slice) :
    cells h (some sl) = (array h sl.arr).take sl.len := rfl

theorem okSlice_some (h : Heap) (sl : Slice) :
    okSlice h (some sl) = true ↔ sl.arr < h.length ∧ sl.len ≤ (array h sl.arr).length := by
  simp [okSlice]

theorem covers_some (sl tl : Slice) :
    covers (some sl) (some tl) = true ↔ (tl.arr = sl.arr → tl.len ≤ sl.len) := by
  simp only [covers, Bool.or_eq_true, bne_iff_ne, ne_eq, decide_eq_true_eq]
  constructor
  · intro h e
    rcases h with h | h
    · exact absurd e h
    · exact h
  · intro h
    by_cases e : tl.arr = sl.arr
    · exact Or.inr (h e)
    · exact Or.inl e

/-- One `append`: the result holds the old elements followed by the new ones, and every
slice that has no element beyond `len(s)` in the array of `s` keeps its elements. -/
theorem heapAppend_step (grow : Nat → Nat → Nat) (hg : ∀ c n, n ≤ grow c n) (h : Heap)
    (s : Option Slice) (xs : List Cell) (hs : okSlice h s = true) :
    cells (heapAppend grow h s xs).1 (heapAppend grow h s xs).2 = cells h s ++ xs ∧
    okSlice (heapAppend grow h s xs).1 (heapAppend grow h s xs).2 = true ∧
    goLen (heapAppend grow h s xs).2 = goLen s + xs.length ∧
    ∀ t, okSlice h t = true → covers s t = true →
      cells (heapAppend grow h s xs).1 t = cells h t ∧
      okSlice (heapAppend grow h s xs).1 t = true ∧
      covers (heapAppend grow h s xs).2 t = true := by
  by_cases hfit : goLen s + xs.length ≤ goCap h s
  · cases s with
    | none =>
      have hx : xs = [] := by
        simp only [goLen, goCap, Nat.zero_add, Nat.le_zero, List.length_eq_zero] at hfit
        exact hfit
      subst hx
      have e : heapAppend grow h none [] = (h, none) := rfl
      rw [e]
      exact ⟨rfl, rfl, rfl, fun t ht _ => ⟨rfl, ht, rfl⟩⟩
    | some sl =>
      obtain ⟨ha, hl⟩ := (okSlice_some h sl).mp hs
      simp only [goLen, goCap] at hfit
      have e : heapAppend grow h (some sl) xs
          = (h.set sl.arr ((array h sl.arr).take sl.len ++ xs
              ++ (array h sl.arr).drop (sl.len + xs.length)),
            some { arr := sl.arr, len := sl.len + xs.length }) := by
        simp only [heapAppend, goLen, goCap, hfit, if_true]
      rw [e]
      have hlen : ((array h sl.arr).take sl.len ++ xs
          ++ (array h sl.arr).drop (sl.len + xs.length)).length = (array h sl.arr).length := by
        simp only [List.length_append, List.length_take, List.length_drop]
        omega
      refine ⟨?_, ?_, rfl, ?_⟩
      · rw [cells_some, cells_some]
        simp only
        rw [array_set_same h _ _ ha, List.take_append_of_le_length (by
          simp only [List.length_append, List.length_take]; omega)]
        rw [List.take_of_length_le (by simp only [List.length_append, List.length_take]; omega)]
      · rw [okSlice_some]
        simp only [List.length_set]
        rw [array_set_same h _ _ ha, hlen]
        exact ⟨ha, hfit⟩
      · intro t ht hc
        cases t with
        | none => exact ⟨rfl, rfl, rfl⟩
        | some tl =>
          obtain ⟨hta, htl⟩ := (okSlice_some h tl).mp ht
          have hcv := (covers_some sl tl).mp hc
          by_cases e : tl.arr = sl.arr
          · have hle := hcv e
            refine ⟨?_, ?_, ?_⟩
            · rw [cells_some, cells_some]
              simp only
              rw [e, array_set_same h _ _ ha, List.append_assoc,
                List.take_append_of_le_length (by simp only [List.length_take]; omega),
                List.take_take, Nat.min_eq_left hle]
            · rw [okSlice_some]
              simp only [List.length_set]
              rw [e, array_set_same h _ _ ha, hlen]
              exact ⟨ha, by rw [e] at htl; exact htl⟩
            · rw [covers_some]
              intro _
              simp only
              omega
          · refine ⟨?_, ?_, ?_⟩
            · rw [cells_some, cells_some]
              simp only
              rw [array_set_other h _ _ _ e]
            · rw [okSlice_some]
              simp only [List.length_set]
              rw [array_set_other h _ _ _ e]
              exact ⟨hta, htl⟩
            · rw [covers_some]
              intro e2
              exact absurd e2 e
  · have hsl : (cells h s).length = goLen s := by
      cases s with
      | none => rfl
      | some sl =>
        obtain ⟨_, hl⟩ := (okSlice_some h sl).mp hs
        simp only [cells, goLen, List.length_take]
        omega
    have e : heapAppend grow h s xs
        = (h ++ [cells h s ++ xs
            ++ List.replicate (grow (goCap h s) (goLen s + xs.length) - (goLen s + xs.length))
              none],
          some { arr := h.length, len := goLen s + xs.length }) := by
      simp only [heapAppend, hfit, if_false]
    rw [e]
    refine ⟨?_, ?_, rfl, ?_⟩
    · rw [cells_some]
      simp only
      rw [array_append_new,
        List.take_append_of_le_length (by rw [List.length_append]; omega),
        List.take_of_length_le (by rw [List.length_append]; omega)]
    · rw [okSlice_some]
      simp only [List.length_append, List.length_singleton]
      rw [array_append_new]
      simp only [List.length_append, List.length_replicate]
      have := hg (goCap h s) (goLen s + xs.length)
      omega
    · intro t ht hc
      cases t with
      | none => exact ⟨rfl, rfl, by cases s <;> rfl⟩
      | some tl =>
        obtain ⟨hta, htl⟩ := (okSlice_some h tl).mp ht
        refine ⟨?_, ?_, ?_⟩
        · rw [cells_some, cells_some]
          simp only
          rw [array_append_old h _ _ hta]
        · rw [okSlice_some]
          simp only [List.length_append, List.length_singleton]
          rw [array_append_old h _ _ hta]
          exact ⟨by omega, htl⟩
        · rw [covers_some]
          intro e2
          simp only at e2
          omega

/-- A run of `append`s of one element each, as in the loops of `Str` and `Int`. -/
theorem foldl_append_one {α : Type} (grow : Nat → Nat → Nat) (hg : ∀ c n, n ≤ grow c n)
    (f : α → Cell) (xs : List α) :
    ∀ (h : Heap) (p : HP), okSlice h p.components = true →
      cells (xs.foldl (fun (st : Heap × HP) x =>
          ((heapAppend grow st.1 st.2.components [f x]).1,
            ({ components := (heapAppend grow st.1 st.2.components [f x]).2 } : HP))) (h, p)).1
        (xs.foldl (fun (st : Heap × HP) x =>
          ((heapAppend grow st.1 st.2.components [f x]).1,
            ({ components := (heapAppend grow st.1 st.2.components [f x]).2 } : HP)))
          (h, p)).2.components
        = cells h p.components ++ xs.map f ∧
      goLen (xs.foldl (fun (st : Heap × HP) x =>
          ((heapAppend grow st.1 st.2.components [f x]).1,
            ({ components := (heapAppend grow st.1 st.2.components [f x]).2 } : HP)))
          (h, p)).2.components
        = goLen p.components + xs.length ∧
      ∀ t, okSlice h t = true → covers p.components t = true →
        cells (xs.foldl (fun (st : Heap × HP) x =>
          ((heapAppend grow st.1 st.2.components [f x]).1,
            ({ components := (heapAppend grow st.1 st.2.components [f x]).2 } : HP)))
          (h, p)).1 t = cells h t := by
  induction xs with
  | nil => intro h p _; exact ⟨by simp, rfl, fun _ _ _ => rfl⟩
  | cons x rest ih =>
    intro h p hp
    obtain ⟨h1, h2, h3, h4⟩ := heapAppend_step grow hg h p.components [f x] hp
    obtain ⟨i1, i2, i3⟩ := ih (heapAppend grow h p.components [f x]).1
      { components := (heapAppend grow h p.components [f x]).2 } h2
    simp only [List.foldl_cons]
    refine ⟨?_, ?_, ?_⟩
    · rw [i1, h1]
      simp
    · rw [i2, h3]
      simp only [List.length_cons, List.length_nil]
      omega
    · intro t ht hc
      obtain ⟨f1, f2, f3⟩ := h4 t ht hc
      rw [i3 t f2 f3, f1]

/-- The loop of `Path`, when no argument has an element beyond `len(p)` in the backing
array of `p`. -/
theorem Path_fold (grow : Nat → Nat → Nat) (hg : ∀ c n, n ≤ grow c n) (qs : List HP) :
    ∀ (h : Heap) (p : HP), okSlice h p.components = true →
      (∀ q ∈ qs, okSlice h q.components = true ∧ covers p.components q.components = true) →
      cells (HP.Path grow h p qs).1 (HP.Path grow h p qs).2.components
        = cells h p.components ++ (qs.map (fun q => cells h q.components)).flatten ∧
      goLen (HP.Path grow h p qs).2.components
        = goLen p.components + ((qs.map (fun q => goLen q.components)).sum) ∧
      ∀ t, okSlice h t = true → covers p.components t = true →
        cells (HP.Path grow h p qs).1 t = cells h t := by
  induction qs with
  | nil => intro h p _ _; exact ⟨by simp [HP.Path], by simp [HP.Path], fun _ _ _ => rfl⟩
  | cons q rest ih =>
    intro h p hp hq
    have hq0 := hq q (List.mem_cons_self _ _)
    by_cases hn : q.components = none
    · have e : HP.Path grow h p (q :: rest) = HP.Path grow h p rest := by
        simp only [HP.Path, List.foldl_cons, hn, ne_eq, not_true_eq_false, if_false]
      rw [e]
      obtain ⟨i1, i2, i3⟩ := ih h p hp (fun q' hq' => hq q' (List.mem_cons_of_mem _ hq'))
      refine ⟨?_, ?_, i3⟩
      · rw [i1]
        simp [hn, cells]
      · rw [i2]
        simp [hn, goLen]
    · have e : HP.Path grow h p (q :: rest)
          = HP.Path grow (heapAppend grow h p.components (cells h q.components)).1
              { components := (heapAppend grow h p.components (cells h q.components)).2 }
              rest := by
        simp only [HP.Path, List.foldl_cons, hn, ne_eq, not_false_eq_true, if_true]
      rw [e]
      obtain ⟨h1, h2, h3, h4⟩ :=
        heapAppend_step grow hg h p.components (cells h q.components) hp
      have hql : (cells h q.components).length = goLen q.components := by
        cases hqc : q.components with
        | none => rfl
        | some sl =>
          have := hq0.1
          rw [hqc, okSlice_some] at this
          simp only [cells, goLen, List.length_take]
          omega
      obtain ⟨i1, i2, i3⟩ := ih _ { components := (heapAppend grow h p.components
          (cells h q.components)).2 } h2
        (fun q' hq' =>
          have hq1 := hq q' (List.mem_cons_of_mem _ hq')
          ⟨(h4 _ hq1.1 hq1.2).2.1, (h4 _ hq1.1 hq1.2).2.2⟩)
      refine ⟨?_, ?_, ?_⟩
      · rw [i1, h1]
        have hm : rest.map (fun q' => cells (heapAppend grow h p.components
              (cells h q.components)).1 q'.components)
            = rest.map (fun q' => cells h q'.components) := by
          apply List.map_congr_left
          intro q' hq'
          have hq1 := hq q' (List.mem_cons_of_mem _ hq')
          exact (h4 _ hq1.1 hq1.2).1
        rw [hm]
        simp
      · rw [i2, h3, hql]
        simp only [List.map_cons, List.sum_cons]
        omega
      · intro t ht hc
        obtain ⟨f1, f2, f3⟩ := h4 t ht hc
        rw [i3 t f2 f3, f1]

theorem growslice_le (c n : Nat) : n ≤ growslice c n := by
  unfold growslice
  split <;> omega

theorem cells_length (h : Heap) (s : Option Slice) (hs : okSlice h s = true) :
    (cells h s).length = goLen s := by
  cases s with
  | none => rfl
  | some sl =>
    rw [okSlice_some] at hs
    simp only [cells, goLen, List.length_take]
    omega

theorem heapAppend_some (grow : Nat → Nat → Nat) (h : Heap) (sl : Slice) (xs : List Cell) :
    (heapAppend grow h (some sl) xs).2 ≠ none := by
  by_cases hfit : goLen (some sl) + xs.length ≤ goCap h (some sl)
  · simp only [heapAppend, hfit, if_true]
    simp
  · simp only [heapAppend, hfit, if_false]
    simp

/-- `Sub` with both bounds within the length. -/
theorem Sub_core (grow : Nat → Nat → Nat) (hg : ∀ c n, n ≤ grow c n) (h : Heap) (p : HP)
    (hp : okSlice h p.components = true) (start end_ : ℤ)
    (h0 : 0 ≤ start) (h1 : start ≤ end_) (h2 : end_ ≤ (p.Len : ℤ)) :
    ∃ h1 r, HP.Sub grow h p [start, end_] = some (h1, r) ∧
      cells h1 r.components
        = ((cells h p.components).drop start.toNat).take (end_.toNat - start.toNat) ∧
      (r.Len : ℤ) = end_ - start ∧ r.components ≠ none ∧
      okSlice h1 r.components = true ∧
      cells h1 p.components = cells h p.components := by
  have hlc : goLen p.components ≤ goCap h p.components := by
    cases hc : p.components with
    | none => simp [goLen, goCap]
    | some sl =>
      rw [hc, okSlice_some] at hp
      exact hp.2
  have hcond : 0 ≤ start ∧ start ≤ end_ ∧ end_ ≤ (goCap h p.components : ℤ) := by
    unfold HP.Len at h2
    refine ⟨h0, h1, ?_⟩
    omega
  have hlit : okSlice (h ++ [[]]) (some { arr := h.length, len := 0 }) = true := by
    rw [okSlice_some]
    simp
  obtain ⟨a1, a2, a3, a4⟩ := heapAppend_step grow hg (h ++ [[]])
    (some { arr := h.length, len := 0 })
    (((match p.components with
        | none => []
        | some sl => array h sl.arr).drop start.toNat).take (end_.toNat - start.toNat)) hlit
  refine ⟨(heapAppend grow (h ++ [[]]) (some { arr := h.length, len := 0 })
      (((match p.components with
        | none => []
        | some sl => array h sl.arr).drop start.toNat).take (end_.toNat - start.toNat))).1,
    { components := (heapAppend grow (h ++ [[]]) (some { arr := h.length, len := 0 })
      (((match p.components with
        | none => []
        | some sl => array h sl.arr).drop start.toNat).take (end_.toNat - start.toNat))).2 },
    ?_, ?_, ?_, ?_, a2, ?_⟩
  · simp only [HP.Sub]
    rw [if_pos hcond]
  · simp only
    rw [a1]
    have hz : cells (h ++ [[]]) (some { arr := h.length, len := 0 }) = [] := by
      simp [cells]
    rw [hz, List.nil_append]
    cases hc : p.components with
    | none => simp [cells]
    | some sl =>
      simp only [cells]
      rw [List.drop_take, List.take_take]
      congr 1
      unfold HP.Len at h2
      rw [hc] at h2
      simp only [goLen] at h2
      omega
  · simp only [HP.Len]
    rw [a3]
    simp only [goLen, Nat.zero_add, List.length_take, List.length_drop]
    have hw : end_.toNat ≤ (match p.components with
        | none => ([] : List Cell)
        | some sl => array h sl.arr).length := by
      cases hc : p.components with
      | none =>
        unfold HP.Len at h2
        rw [hc] at h2
        simp only [goLen] at h2
        simp only [List.length_nil]
        omega
      | some sl =>
        rw [hc] at hlc
        simp only [goLen, goCap] at hlc
        unfold HP.Len at h2
        rw [hc] at h2
        simp only [goLen] at h2
        simp only
        omega
    omega
  · exact heapAppend_some grow _ _ _
  · have hp2 : okSlice (h ++ [[]]) p.components = true ∧
        cells (h ++ [[]]) p.components = cells h p.components := by
      cases hc : p.components with
      | none => exact ⟨rfl, rfl⟩
      | some sl =>
        rw [hc, okSlice_some] at hp
        rw [okSlice_some, cells_some, cells_some, array_append_old h _ _ hp.1]
        simp only [List.length_append, List.length_singleton]
        exact ⟨⟨by omega, hp.2⟩, trivial⟩
    have hcov : covers (some { arr := h.length, len := 0 }) p.components = true := by
      cases hc : p.components with
      | none => rfl
      | some sl =>
        rw [hc, okSlice_some] at hp
        rw [covers_some]
        intro e
        simp only at e
        omega
    rw [(a4 p.components hp2.1 hcov).1, hp2.2]

theorem Atoi_digits (ds : GoString) (h0 : ds ≠ []) (hd : ds.all isDigit = true) :
    Atoi ds = if digitsVal ds < 2 ^ 63 then some (digitsVal ds : Int) else none := by
  cases ds with
  | nil => exact absurd rfl h0
  | cons c t =>
    have hc : isDigit c = true := by
      simp only [List.all_cons, Bool.and_eq_true] at hd
      exact hd.1
    have hc' : 48 ≤ c ∧ c ≤ 57 := by
      simpa [isDigit] using hc
    have h1 : ¬ c = 43 := by omega
    have h2 : ¬ c = 45 := by omega
    unfold Atoi
    simp only [List.head?_cons, Option.some.injEq, h1, h2, or_self, if_false, hd,
      List.isEmpty_cons, Bool.not_true, Bool.or_self, Bool.false_eq_true, decide_False]

theorem Unquote_digit_head (c : Nat) (t : GoString) (hc : isDigit c = true) :
    Unquote (c :: t) = none := by
  have hc' : 48 ≤ c ∧ c ≤ 57 := by
    simpa [isDigit] using hc
  have h1 : ¬ c = 34 := by omega
  have h2 : ¬ c = 39 := by omega
  have h3 : ¬ c = 96 := by omega
  unfold Unquote
  simp only [h1, h2, h3, if_false]

theorem Atoi_quote_head (w : GoString) : Atoi (34 :: w) = none := by
  unfold Atoi
  simp [isDigit]

theorem matchStringTail_cons_plain (c : Nat) (t : GoString) (h1 : c ≠ 34) (h2 : c ≠ 92) :
    matchStringTail (c :: t) = (matchStringTail t).map (fun n => n + 1) := by
  rw [matchStringTail.eq_def]
  simp only [h1, h2, if_false]

theorem matchStringTail_cons_esc (d : Nat) (u : GoString) (hd : d ≠ 10) :
    matchStringTail (92 :: d :: u) = (matchStringTail u).map (fun n => n + 2) := by
  rw [matchStringTail.eq_def]
  simp [hd]

theorem matchStringTail_quote (t : GoString) : matchStringTail (34 :: 93 :: t) = some 2 := by
  rw [matchStringTail.eq_def]
  simp

theorem matchStringTail_plain (m y : GoString) (h : ∀ b ∈ m, b ≠ 34 ∧ b ≠ 92) :
    matchStringTail (m ++ y) = (matchStringTail y).map (fun n => n + m.length) := by
  induction m with
  | nil => simp
  | cons b t ih =>
    have hb := h b (List.mem_cons_self _ _)
    have iht := ih (fun x hx => h x (List.mem_cons_of_mem _ hx))
    rw [List.cons_append, matchStringTail_cons_plain _ _ hb.1 hb.2, iht]
    cases matchStringTail y with
    | none => rfl
    | some n =>
      simp only [Option.map_some', List.length_cons, Option.some.injEq]
      omega

theorem unquoteLoop_skip (q : Nat) (t : GoString) :
    ∀ k, unquoteLoop q k t = unquoteLoop q 0 (t.drop k) := by
  induction t with
  | nil => intro k; cases k <;> simp [unquoteLoop]
  | cons c u ih =>
    intro k
    cases k with
    | zero => rfl
    | succ j =>
      simp only [List.drop_succ_cons]
      rw [← ih j]
      simp only [unquoteLoop]

theorem matchStringTail_ends (y : GoString) (m : Nat) (h : matchStringTail y = some m) :
    ∃ body, y.take m = body ++ [34, 93] := by
  induction y using matchStringTail.induct generalizing m with
  | case1 => simp [matchStringTail] at h
  | case2 t ht =>
    unfold matchStringTail at h
    simp [ht] at h
    subst h
    cases t with
    | nil => simp at ht
    | cons x u =>
      simp only [List.head?_cons, Option.some.injEq] at ht
      subst ht
      exact ⟨[], rfl⟩
  | case3 t ht =>
    unfold matchStringTail at h
    simp [ht] at h
  | case4 =>
    unfold matchStringTail at h
    simp at h
  | case5 u =>
    unfold matchStringTail at h
    simp at h
  | case6 e u he _ ih =>
    unfold matchStringTail at h
    simp [he] at h
    obtain ⟨k, hk, rfl⟩ := h
    obtain ⟨body, hb⟩ := ih k hk
    exact ⟨92 :: e :: body, by simp [hb]⟩
  | case7 b t h1 h2 ih =>
    unfold matchStringTail at h
    simp [h1, h2] at h
    obtain ⟨k, hk, rfl⟩ := h
    obtain ⟨body, hb⟩ := ih k hk
    exact ⟨b :: body, by simp [hb]⟩

theorem hexVal_plain (l : GoString) :
    ∀ acc v, hexVal l acc = some v → ∀ b ∈ l, b ≠ 34 ∧ b ≠ 92 := by
  induction l with
  | nil => intro _ _ _ b hb; simp at hb
  | cons c t ih =>
    intro acc v h b hb
    unfold hexVal at h
    cases hu : unhex c with
    | none => rw [hu] at h; simp at h
    | some x =>
      rw [hu] at h
      simp only at h
      rcases List.mem_cons.mp hb with rfl | hb
      · unfold unhex at hu
        split at hu
        · omega
        · split at hu
          · omega
          · split at hu
            · omega
            · simp at hu
      · exact ih _ _ h b hb

/-- The width of a rune that starts with a byte outside ASCII, and its bytes. -/
theorem DecodeRune_high (c : Nat) (t : GoString) (hc : 0x80 ≤ c) :
    1 ≤ (DecodeRune (c :: t)).2 ∧ (DecodeRune (c :: t)).2 ≤ (c :: t).length ∧
      ∀ b ∈ (c :: t).take (DecodeRune (c :: t)).2, 0x80 ≤ b := by
  have h1 : ∀ b ∈ (c :: t).take 1, 0x80 ≤ b := by
    intro b hb
    simp at hb
    omega
  unfold DecodeRune
  simp only
  rw [if_neg (by omega)]
  split
  · cases t with
    | nil => exact ⟨by simp, by simp, h1⟩
    | cons b1 u =>
      simp only
      split
      · rename_i hb1
        simp only [isCont, Bool.and_eq_true, decide_eq_true_eq] at hb1
        refine ⟨by simp, by simp, ?_⟩
        intro b hb
        simp at hb
        omega
      · exact ⟨by simp, by simp, h1⟩
  · split
    · rcases t with _ | ⟨b1, _ | ⟨b2, u⟩⟩
      · exact ⟨by simp, by simp, h1⟩
      · exact ⟨by simp, by simp, h1⟩
      · simp only
        by_cases hb : (if c = 0xE0 then 0xA0 else 0x80) ≤ b1
            ∧ b1 ≤ (if c = 0xED then 0x9F else 0xBF) ∧ isCont b2 = true
        · rw [if_pos hb]
          obtain ⟨hb1, _, hb2⟩ := hb
          simp only [isCont, Bool.and_eq_true, decide_eq_true_eq] at hb2
          refine ⟨by simp, by simp, ?_⟩
          intro b hb
          simp at hb
          have : 0x80 ≤ b1 := by
            split at hb1 <;> omega
          omega
        · rw [if_neg hb]
          exact ⟨by simp, by simp, h1⟩
    · split
      · rcases t with _ | ⟨b1, _ | ⟨b2, _ | ⟨b3, u⟩⟩⟩
        · exact ⟨by simp, by simp, h1⟩
        · exact ⟨by simp, by simp, h1⟩
        · exact ⟨by simp, by simp, h1⟩
        · simp only
          by_cases hb : (if c = 0xF0 then 0x90 else 0x80) ≤ b1
              ∧ b1 ≤ (if c = 0xF4 then 0x8F else 0xBF) ∧ isCont b2 = true ∧ isCont b3 = true
          · rw [if_pos hb]
            obtain ⟨hb1, _, hb2, hb3⟩ := hb
            simp only [isCont, Bool.and_eq_true, decide_eq_true_eq] at hb2 hb3
            refine ⟨by simp, by simp, ?_⟩
            intro b hb
            simp at hb
            have : 0x80 ≤ b1 := by
              split at hb1 <;> omega
            omega
          · rw [if_neg hb]
            exact ⟨by simp, by simp, h1⟩
      · exact ⟨by simp, by simp, h1⟩

theorem UnquoteChar_esc (e : Nat) (u : GoString) (r : Nat) (mb : Bool) (n : Nat)
    (h : UnquoteChar (92 :: e :: u) 34 = some (r, mb, n)) :
    2 ≤ n ∧ n ≤ u.length + 2 ∧ e ≠ 10 ∧ ∀ b ∈ u.take (n - 2), b ≠ 34 ∧ b ≠ 92 := by
  unfold UnquoteChar at h
  simp only at h
  rw [if_neg (by decide), if_neg (by decide), if_neg (by decide)] at h
  have simple : ∀ x : Nat, some (x, false, 2) = some (r, mb, n) → e ≠ 10 →
      2 ≤ n ∧ n ≤ u.length + 2 ∧ e ≠ 10 ∧ ∀ b ∈ u.take (n - 2), b ≠ 34 ∧ b ≠ 92 := by
    intro x hx he
    simp only [Option.some.injEq, Prod.mk.injEq] at hx
    obtain ⟨_, _, rfl⟩ := hx
    exact ⟨by omega, by omega, he, by simp⟩
  by_cases c1 : e = 97
  · rw [if_pos c1] at h; exact simple _ h (by omega)
  rw [if_neg c1] at h
  by_cases c2 : e = 98
  · rw [if_pos c2] at h; exact simple _ h (by omega)
  rw [if_neg c2] at h
  by_cases c3 : e = 102
  · rw [if_pos c3] at h; exact simple _ h (by omega)
  rw [if_neg c3] at h
  by_cases c4 : e = 110
  · rw [if_pos c4] at h; exact simple _ h (by omega)
  rw [if_neg c4] at h
  by_cases c5 : e = 114
  · rw [if_pos c5] at h; exact simple _ h (by omega)
  rw [if_neg c5] at h
  by_cases c6 : e = 116
  · rw [if_pos c6] at h; exact simple _ h (by omega)
  rw [if_neg c6] at h
  by_cases c7 : e = 118
  · rw [if_pos c7] at h; exact simple _ h (by omega)
  rw [if_neg c7] at h
  by_cases c8 : e = 120 ∨ e = 117 ∨ e = 85
  · rw [if_pos c8] at h
    generalize (if e = 120 then 2 else if e = 117 then 4 else 8) = k at h
    by_cases hl : u.length < k
    · rw [if_pos hl] at h
      exact absurd h (by simp)
    · rw [if_neg hl] at h
      cases hv : hexVal (u.take k) 0 with
      | none => rw [hv] at h; exact absurd h (by simp)
      | some v =>
        rw [hv] at h
        have hn : n = 2 + k := by
          simp only at h
          by_cases c9 : e = 120
          · rw [if_pos c9] at h
            simp only [Option.some.injEq, Prod.mk.injEq] at h
            exact h.2.2.symm
          · rw [if_neg c9] at h
            cases c10 : ValidRune v with
            | false => simp [c10] at h
            | true =>
              simp only [c10, Bool.not_true, Bool.false_eq_true, if_false, Option.some.injEq,
                Prod.mk.injEq] at h
              exact h.2.2.symm
        subst hn
        refine ⟨by omega, by omega, by omega, ?_⟩
        rw [Nat.add_sub_cancel_left]
        exact hexVal_plain _ _ _ hv
  rw [if_neg c8] at h
  by_cases c11 : 48 ≤ e ∧ e ≤ 55
  · rw [if_pos c11] at h
    rcases u with _ | ⟨d1, _ | ⟨d2, w⟩⟩
    · exact absurd h (by simp)
    · exact absurd h (by simp)
    · simp only at h
      cases h1 : octDigit d1 with
      | none => rw [h1] at h; exact absurd h (by simp)
      | some x1 =>
        cases h2 : octDigit d2 with
        | none => rw [h1, h2] at h; exact absurd h (by simp)
        | some x2 =>
          rw [h1, h2] at h
          simp only at h
          by_cases c12 : 255 < ((e - 48) * 8 + x1) * 8 + x2
          · rw [if_pos c12] at h
            exact absurd h (by simp)
          · rw [if_neg c12] at h
            simp only [Option.some.injEq, Prod.mk.injEq] at h
            obtain ⟨_, _, rfl⟩ := h
            refine ⟨by omega, by simp, by omega, ?_⟩
            intro b hb
            have o1 : 48 ≤ d1 ∧ d1 ≤ 55 := by
              unfold octDigit at h1
              split at h1
              · assumption
              · simp at h1
            have o2 : 48 ≤ d2 ∧ d2 ≤ 55 := by
              unfold octDigit at h2
              split at h2
              · assumption
              · simp at h2
            simp at hb
            omega
  rw [if_neg c11] at h
  by_cases c13 : e = 92
  · rw [if_pos c13] at h; exact simple _ h (by omega)
  rw [if_neg c13] at h
  by_cases c14 : e = 39 ∨ e = 34
  · rw [if_pos c14] at h
    by_cases c15 : e = 34
    · rw [if_neg (not_not.mpr c15)] at h; exact simple _ h (by omega)
    · rw [if_pos c15] at h
      exact absurd h (by simp)
  · rw [if_neg c14] at h
    exact absurd h (by simp)


/-- One character that `UnquoteChar` reads inside double quotes is passed by the body
`(?:[^"\\]|(?:\\.))` of `bracketString`, as many bytes as `UnquoteChar` consumes. -/
theorem UnquoteChar_chunk (c : Nat) (t : GoString) (r : Nat) (mb : Bool) (n : Nat)
    (h : UnquoteChar (c :: t) 34 = some (r, mb, n)) :
    c ≠ 34 ∧ 1 ≤ n ∧ n ≤ (c :: t).length ∧
      ∀ y, matchStringTail ((c :: t).take n ++ y)
        = (matchStringTail y).map (fun k => k + n) := by
  by_cases h34 : c = 34
  · subst h34
    unfold UnquoteChar at h
    simp at h
  have hq : ¬ (c = 34 ∧ ((34 : Nat) = 39 ∨ True)) := fun hh => h34 hh.1
  by_cases hhi : c ≥ 0x80
  · have hn : n = (DecodeRune (c :: t)).2 := by
      unfold UnquoteChar at h
      simp only at h
      rw [if_neg hq, if_pos hhi] at h
      simp only [Option.some.injEq, Prod.mk.injEq] at h
      exact h.2.2.symm
    obtain ⟨d1, d2, d3⟩ := DecodeRune_high c t hhi
    rw [hn]
    refine ⟨h34, d1, d2, ?_⟩
    intro y
    rw [matchStringTail_plain _ y (fun b hb => by have := d3 b hb; omega), List.length_take,
      Nat.min_eq_left d2]
  by_cases h92 : c = 92
  · subst h92
    cases t with
    | nil =>
      unfold UnquoteChar at h
      simp at h
    | cons e u =>
      obtain ⟨e1, e2, e3, e4⟩ := UnquoteChar_esc e u r mb n h
      refine ⟨h34, by omega, by simp only [List.length_cons]; omega, ?_⟩
      intro y
      obtain ⟨k, rfl⟩ : ∃ k, n = k + 2 := ⟨n - 2, by omega⟩
      simp only [Nat.add_sub_cancel] at e4
      simp only [List.take_succ_cons, List.cons_append]
      rw [matchStringTail_cons_esc e _ e3, matchStringTail_plain _ y e4, List.length_take,
        Nat.min_eq_left (by omega)]
      cases matchStringTail y with
      | none => rfl
      | some m =>
        simp only [Option.map_some', Option.some.injEq]
        omega
  · have hn : n = 1 := by
      unfold UnquoteChar at h
      simp only at h
      rw [if_neg hq, if_neg hhi, if_pos h92] at h
      simp only [Option.some.injEq, Prod.mk.injEq] at h
      exact h.2.2.symm
    subst hn
    refine ⟨h34, by omega, by simp, ?_⟩
    intro y
    simp only [List.take_succ_cons, List.take_zero, List.cons_append, List.nil_append]
    exact matchStringTail_cons_plain c _ h34 h92

/-- A text that `Unquote` reads up to a closing quote is matched, with `]` after it, by
the tail of `bracketString`, up to that `]`. -/
theorem unquote_tail (w : GoString) :
    ∀ buf, unquoteLoop 34 0 w = some (buf, [34]) →
      ∀ z, matchStringTail (w ++ 93 :: z) = some (w.length + 1) := by
  generalize hlen : w.length = k
  induction k using Nat.strong_induction_on generalizing w with
  | _ k ih =>
    subst hlen
    intro buf h z
    cases w with
    | nil => simp [unquoteLoop] at h
    | cons c t =>
      by_cases h34 : c = 34
      · subst h34
        have ht : t = [] := by
          simp only [unquoteLoop, if_true, Option.some.injEq, Prod.mk.injEq,
            List.cons.injEq, true_and] at h
          exact h.2
        subst ht
        exact matchStringTail_quote z
      · rw [unquoteLoop, if_neg h34] at h
        cases hu : UnquoteChar (c :: t) 34 with
        | none => rw [hu] at h; exact absurd h (by simp)
        | some v =>
          obtain ⟨r, mb, n⟩ := v
          rw [hu] at h
          simp only at h
          obtain ⟨_, n1, n2, n3⟩ := UnquoteChar_chunk c t r mb n hu
          by_cases h10 : c = 10
          · rw [if_pos h10] at h
            exact absurd h (by simp)
          · rw [if_neg h10, unquoteLoop_skip] at h
            cases hr : unquoteLoop 34 0 (t.drop (n - 1)) with
            | none => rw [hr] at h; exact absurd h (by simp)
            | some v2 =>
              obtain ⟨buf2, rest2⟩ := v2
              rw [hr] at h
              simp only [Option.some.injEq, Prod.mk.injEq] at h
              have hr2 : unquoteLoop 34 0 ((c :: t).drop n) = some (buf2, [34]) := by
                obtain ⟨j, rfl⟩ : ∃ j, n = j + 1 := ⟨n - 1, by omega⟩
                rw [List.drop_succ_cons, ← h.2]
                exact hr
              have hi := ih ((c :: t).drop n).length
                (by simp only [List.length_drop, List.length_cons, List.length_cons] at n2 ⊢
                    omega)
                ((c :: t).drop n) rfl buf2 hr2 z
              have hsplit : (c :: t) ++ 93 :: z
                  = (c :: t).take n ++ ((c :: t).drop n ++ 93 :: z) := by
                rw [← List.append_assoc, List.take_append_drop]
              rw [hsplit, n3, hi]
              simp only [Option.map_some', List.length_drop, Option.some.injEq]
              omega

theorem takeWhile_all_append (p : Nat → Bool) (u z : GoString)
    (hu : ∀ b ∈ u, p b = true) (hz : ∀ c, z.head? = some c → p c = false) :
    (u ++ z).takeWhile p = u := by
  induction u with
  | nil =>
    cases z with
    | nil => rfl
    | cons c t => simp [List.takeWhile, hz c rfl]
  | cons b t ih =>
    rw [List.cons_append, List.takeWhile_cons, if_pos (hu b (List.mem_cons_self _ _)),
      ih (fun x hx => hu x (List.mem_cons_of_mem _ hx))]

theorem take_takeWhile_length (p : Nat → Bool) (x : GoString) :
    x.take (x.takeWhile p).length = x.takeWhile p :=
  (List.prefix_iff_eq_take.mp (List.takeWhile_prefix p)).symm

theorem canDot_iff (v : GoString) : canDot v = true ↔ v ≠ [] ∧ ∀ b ∈ v, isWord b = true := by
  unfold canDot
  cases v <;> simp

theorem isWord_head (c : Nat) (h : isWord c = true) : c ≠ 46 ∧ c ≠ 91 := by
  constructor
  · rintro rfl
    revert h
    decide
  · rintro rfl
    revert h
    decide

theorem Unquote_quoted (w v : GoString) (h : Unquote (34 :: w) = some v) :
    unquoteLoop 34 0 w = some (v, [34]) := by
  unfold Unquote at h
  simp only [if_true] at h
  split at h
  · rename_i buf hb
    simp only [Option.some.injEq] at h
    rw [hb, h]
  · exact absurd h (by simp)

theorem decodePiece_inner (inner : GoString) :
    (List.take (inner.length + 2 - 2) (List.drop 1 (91 :: (inner ++ [93])))) = inner := by
  simp

theorem decodePiece_int (inner : GoString) (v : Int) (h : Atoi inner = some v) :
    decodePiece (91 :: (inner ++ [93])) = some (Except.ok (Comp.int v)) := by
  have := decodePiece_bracket (91 :: (inner ++ [93])) (inner.length + 2) rfl
    (by omega) (by simp)
  rw [List.take_of_length_le (by simp), decodePiece_inner, h] at this
  exact this

theorem decodePiece_str (inner v : GoString) (h : Atoi inner = none)
    (hu : Unquote inner = some v) :
    decodePiece (91 :: (inner ++ [93])) = some (Except.ok (Comp.str v)) := by
  have := decodePiece_bracket (91 :: (inner ++ [93])) (inner.length + 2) rfl
    (by omega) (by simp)
  rw [List.take_of_length_le (by simp), decodePiece_inner, h, hu] at this
  exact this

theorem decodePiece_err (inner : GoString) (h : Atoi inner = none)
    (hu : Unquote inner = none) :
    decodePiece (91 :: (inner ++ [93]))
      = some (Except.error "could not parse portion in square brackets") := by
  have := decodePiece_bracket (91 :: (inner ++ [93])) (inner.length + 2) rfl
    (by omega) (by simp)
  rw [List.take_of_length_le (by simp), decodePiece_inner, h, hu] at this
  exact this

/-- A token in the words of the contract is the match of `pieceReg` at its first byte,
whatever token or end of text follows, and the loop body decodes it to its component. -/
theorem token_match (a : Bool) (t z : GoString) (c : Comp) (h : tokenComp a t = some c)
    (hz : notWordHead z) :
    pieceRegAt a (t ++ z) = some t.length ∧ decodePiece t = some (Except.ok c) := by
  cases t with
  | nil => simp [tokenComp] at h
  | cons c0 u =>
    unfold tokenComp at h
    simp only at h
    by_cases h46 : c0 = 46
    · subst h46
      rw [if_pos rfl] at h
      by_cases hc : (!a && canDot u) = true
      · rw [if_pos hc] at h
        simp only [Option.some.injEq] at h
        simp only [Bool.and_eq_true, Bool.not_eq_true'] at hc
        obtain ⟨hne, hall⟩ := (canDot_iff u).mp hc.2
        have htw := takeWhile_all_append isWord u z hall hz
        constructor
        · rw [List.cons_append, pieceRegAt_dot, matchDotString_eq_some, htw]
          have : 0 < u.length := List.length_pos.mpr hne
          exact ⟨rfl, by simp only [List.length_cons]; omega, rfl⟩
        · rw [← h]
          simp [decodePiece]
      · rw [if_neg hc] at h
        exact absurd h (by simp)
    · rw [if_neg h46] at h
      by_cases h91 : c0 = 91
      · subst h91
        rw [if_pos rfl] at h
        by_cases hl : u.getLast? = some 93
        · rw [if_pos hl] at h
          have hu : u = u.dropLast ++ [93] := by
            have := List.dropLast_append_getLast? 93 (by simpa using hl)
            exact this.symm
          generalize u.dropLast = inner at h hu
          subst hu
          by_cases hd : (!inner.isEmpty && inner.all isDigit) = true
          · rw [if_pos hd] at h
            simp only [Bool.and_eq_true, Bool.not_eq_true', List.isEmpty_eq_false] at hd
            have hne : inner ≠ [] := by
              intro h0
              rw [h0] at hd
              simp at hd
            have hall := hd.2
            by_cases hv : digitsVal inner < 2 ^ 63
            · rw [if_pos hv] at h
              simp only [Option.some.injEq] at h
              have htw : (inner ++ 93 :: z).takeWhile isDigit = inner :=
                takeWhile_all_append isDigit inner (93 :: z)
                  (List.all_eq_true.mp hall) (by intro c hc; simp at hc; subst hc; decide)
              constructor
              · have hx : 91 :: (inner ++ [93]) ++ z = 91 :: (inner ++ 93 :: z) := by simp
                rw [hx, pieceRegAt_bracket]
                have hm : matchBracketNumber (91 :: (inner ++ 93 :: z))
                    = some (inner.length + 2) := by
                  rw [matchBracketNumber_eq_some, htw]
                  refine ⟨rfl, List.length_pos.mpr hne, by simp, rfl⟩
                rw [hm]
                simp
              · rw [← h]
                exact decodePiece_int inner _ (by rw [Atoi_digits inner hne hall, if_pos hv])
            · rw [if_neg hv] at h
              exact absurd h (by simp)
          · rw [if_neg hd] at h
            by_cases hq : inner.head? = some 34
            · rw [if_pos hq] at h
              cases inner with
              | nil => simp at hq
              | cons q w =>
                simp only [List.head?_cons, Option.some.injEq] at hq
                subst hq
                cases hun : Unquote (34 :: w) with
                | none => rw [hun] at h; exact absurd h (by simp)
                | some v =>
                  rw [hun] at h
                  simp only [Option.map_some', Option.some.injEq] at h
                  have hloop := Unquote_quoted w v hun
                  have htail := unquote_tail w v hloop z
                  constructor
                  · have hx : 91 :: (34 :: w ++ [93]) ++ z = 91 :: 34 :: (w ++ 93 :: z) := by
                      simp
                    rw [hx, pieceRegAt_bracket]
                    have hm : matchBracketNumber (91 :: 34 :: (w ++ 93 :: z)) = none := by
                      simp [matchBracketNumber, List.takeWhile, isDigit]
                    rw [hm]
                    simp only [matchBracketString, and_self, if_true, htail, Option.map_some',
                      List.length_cons, List.length_append, List.length_nil]
                  · rw [← h]
                    exact decodePiece_str _ v (Atoi_quote_head w) hun
            · rw [if_neg hq] at h
              exact absurd h (by simp)
        · rw [if_neg hl] at h
          exact absurd h (by simp)
      · rw [if_neg h91] at h
        by_cases hc : (a && canDot (c0 :: u)) = true
        · rw [if_pos hc] at h
          simp only [Option.some.injEq] at h
          simp only [Bool.and_eq_true] at hc
          obtain ⟨_, hall⟩ := (canDot_iff _).mp hc.2
          have htw := takeWhile_all_append isWord (c0 :: u) z hall hz
          constructor
          · rw [List.cons_append, pieceRegAt_other a c0 _ h46 h91, matchBare_eq_some,
              ← List.cons_append, htw]
            exact ⟨hc.1, by simp, rfl⟩
          · rw [← h]
            simp [decodePiece, h46, h91]
        · rw [if_neg hc] at h
          exact absurd h (by simp)

theorem take_succ_of_head (l : GoString) :
    ∀ (k x : Nat), (l.drop k).head? = some x → l.take (k + 1) = l.take k ++ [x] := by
  induction l with
  | nil => intro k x h; simp at h
  | cons b t ih =>
    intro k x h
    cases k with
    | zero =>
      simp only [List.drop_zero, List.head?_cons, Option.some.injEq] at h
      subst h
      rfl
    | succ i =>
      simp only [List.drop_succ_cons] at h
      simp only [List.take_succ_cons, List.cons_append, ih i x h]

theorem tokenComp_bracket (a : Bool) (inner : GoString) :
    tokenComp a (91 :: (inner ++ [93]))
      = if (!inner.isEmpty && inner.all isDigit) = true then
          (if digitsVal inner < 2 ^ 63 then some (Comp.int (digitsVal inner)) else none)
        else if inner.head? = some 34 then (Unquote inner).map Comp.str
        else none := by
  have h1 : (inner ++ [93]).getLast? = some 93 := by simp
  have h2 : (inner ++ [93]).dropLast = inner := by simp
  unfold tokenComp
  simp only [show ¬ ((91 : Nat) = 46) by decide, if_false, if_true, h1, h2]

/-- A match of `pieceReg` that the loop body decodes to a component is a token in the
words of the contract, for that component. -/
theorem token_decode (a : Bool) (x : GoString) (n : Nat) (c : Comp)
    (h : pieceRegAt a x = some n) (hd : decodePiece (x.take n) = some (Except.ok c))
    (ha : a = true → x.head? ≠ some 46) : tokenComp a (x.take n) = some c := by
  have hb := pieceRegAt_bounds a x n h
  cases x with
  | nil => simp at hb; omega
  | cons c0 t =>
    obtain ⟨j, rfl⟩ : ∃ j, n = j + 1 := ⟨n - 1, by omega⟩
    by_cases h46 : c0 = 46
    · subst h46
      have haf : a = false := by
        cases a with
        | false => rfl
        | true => exact absurd rfl (ha rfl)
      rw [pieceRegAt_dot, matchDotString_eq_some] at h
      obtain ⟨_, hj, htw⟩ := h
      have hjw : (t.takeWhile isWord).length = j := by omega
      have hcd := canDot_of_takeWhile t j hjw (by omega)
      simp only [List.take_succ_cons] at hd ⊢
      simp only [decodePiece, if_true, List.drop_succ_cons, List.drop_zero, Option.some.injEq,
        Except.ok.injEq] at hd
      rw [← hd]
      simp [tokenComp, haf, hcd]
    · by_cases h91 : c0 = 91
      · subst h91
        rw [pieceRegAt_bracket] at h
        cases hm : matchBracketNumber (91 :: t) with
        | some k =>
          rw [hm] at h
          simp only [Option.some.injEq] at h
          rw [matchBracketNumber_eq_some] at hm
          obtain ⟨_, hpos, hnext, hk⟩ := hm
          have hj : j = (t.takeWhile isDigit).length + 1 := by omega
          have htake : t.take j = t.takeWhile isDigit ++ [93] := by
            rw [hj, take_succ_of_head t _ 93 hnext, take_takeWhile_length]
          have hall : (t.takeWhile isDigit).all isDigit = true := by
            rw [List.all_eq_true]
            intro b hb
            exact List.mem_takeWhile_imp hb
          have hne : t.takeWhile isDigit ≠ [] := List.length_pos.mp hpos
          simp only [List.take_succ_cons] at hd ⊢
          rw [htake] at hd ⊢
          have hA := Atoi_digits _ hne hall
          by_cases hv : digitsVal (t.takeWhile isDigit) < 2 ^ 63
          · rw [if_pos hv] at hA
            rw [decodePiece_int _ _ hA] at hd
            simp only [Option.some.injEq, Except.ok.injEq] at hd
            rw [← hd, tokenComp_bracket, if_pos (by simp [hall, hne]), if_pos hv]
          · rw [if_neg hv] at hA
            obtain ⟨d0, dt, hdt⟩ := List.exists_cons_of_ne_nil hne
            have hd0 : isDigit d0 = true := by
              rw [hdt] at hall
              simp only [List.all_cons, Bool.and_eq_true] at hall
              exact hall.1
            have hU : Unquote (t.takeWhile isDigit) = none := by
              rw [hdt]
              exact Unquote_digit_head d0 dt hd0
            rw [decodePiece_err _ hA hU] at hd
            simp at hd
        | none =>
          rw [hm] at h
          simp only at h
          rw [matchBracketString_eq_some] at h
          obtain ⟨u, m, hx, hmt, hn⟩ := h
          simp only [List.cons.injEq, true_and] at hx
          subst hx
          have hj : j = m + 1 := by omega
          subst hj
          obtain ⟨body, hbody⟩ := matchStringTail_ends u m hmt
          simp only [List.take_succ_cons] at hd ⊢
          rw [hbody] at hd ⊢
          have e1 : 34 :: (body ++ [34, 93]) = (34 :: (body ++ [34])) ++ [93] := by simp
          rw [e1] at hd ⊢
          have hA := Atoi_quote_head (body ++ [34])
          cases hU : Unquote (34 :: (body ++ [34])) with
          | none =>
            rw [decodePiece_err _ hA hU] at hd
            simp at hd
          | some v =>
            rw [decodePiece_str _ v hA hU] at hd
            simp only [Option.some.injEq, Except.ok.injEq] at hd
            rw [← hd, tokenComp_bracket, if_neg (by simp [isDigit]),
              if_pos (List.head?_cons), hU]
            rfl
      · rw [pieceRegAt_other a c0 t h46 h91, matchBare_eq_some] at h
        obtain ⟨hat, _, htw⟩ := h
        have hcd := canDot_of_takeWhile (c0 :: t) (j + 1) htw (by omega)
        have hdd : decodePiece ((c0 :: t).take (j + 1))
            = some (Except.ok (Comp.str ((c0 :: t).take (j + 1)))) := by
          simp [decodePiece, h46, h91]
        rw [hdd] at hd
        simp only [Option.some.injEq, Except.ok.injEq] at hd
        rw [← hd]
        simp only [List.take_succ_cons] at hcd ⊢
        simp [tokenComp, h46, h91, hat, hcd]

theorem tokenComp_head (a : Bool) (t : GoString) (c : Comp) (h : tokenComp a t = some c) :
    ∃ c0 u, t = c0 :: u ∧ (a = true → c0 ≠ 46) ∧ (a = false → isWord c0 = false) := by
  cases t with
  | nil => simp [tokenComp] at h
  | cons c0 u =>
    refine ⟨c0, u, rfl, ?_, ?_⟩
    · intro ha h46
      subst ha
      subst h46
      simp [tokenComp] at h
    · intro ha
      subst ha
      unfold tokenComp at h
      simp only at h
      by_cases h46 : c0 = 46
      · subst h46; decide
      · by_cases h91 : c0 = 91
        · subst h91; decide
        · simp [h46, h91] at h

theorem decodeTokens_cons (a : Bool) (t : GoString) (ts : List GoString) (cs : List Comp)
    (h : decodeTokens a (t :: ts) = some cs) :
    ∃ c cs1, tokenComp a t = some c ∧ decodeTokens false ts = some cs1 ∧ cs = c :: cs1 := by
  unfold decodeTokens at h
  cases h1 : tokenComp a t with
  | none => rw [h1] at h; simp at h
  | some c =>
    cases h2 : decodeTokens false ts with
    | none => rw [h1, h2] at h; simp at h
    | some cs1 =>
      rw [h1, h2] at h
      simp only [Option.some.injEq] at h
      exact ⟨c, cs1, rfl, rfl, h.symm⟩

theorem decodeTokens_notWordHead (ts : List GoString) (cs : List Comp)
    (h : decodeTokens false ts = some cs) : notWordHead ts.flatten := by
  cases ts with
  | nil => exact notWordHead_nil
  | cons t rest =>
    obtain ⟨c, _, h1, _, _⟩ := decodeTokens_cons false t rest cs h
    obtain ⟨c0, u, rfl, _, hw⟩ := tokenComp_head false _ c h1
    intro x hx
    simp only [List.flatten_cons, List.cons_append, List.head?_cons, Option.some.injEq] at hx
    rw [← hx]
    exact hw rfl

/-- The loop of `FromJSPartial` over a text made of tokens appends their components and
consumes the text. -/
theorem scan_of_tokens (toks : List GoString) :
    ∀ (a : Bool) (pre : GoString) (pc cs : List Comp), decodeTokens a toks = some cs →
      scanAt pre a toks.flatten { components := some pc }
        = some ({ components := some (pc ++ cs) }, pre.length + toks.flatten.length, none) := by
  induction toks with
  | nil =>
    intro a pre pc cs h
    simp only [decodeTokens, Option.some.injEq] at h
    subst h
    rw [List.flatten_nil, scanAt_none pre a [] _ (pieceRegAt_nil a)]
    simp
  | cons t ts ih =>
    intro a pre pc cs h
    obtain ⟨c, cs1, h1, h2, rfl⟩ := decodeTokens_cons a t ts cs h
    obtain ⟨hm, hd⟩ := token_match a t ts.flatten c h1 (decodeTokens_notWordHead ts cs1 h2)
    rw [List.flatten_cons, scanAt_some pre a _ _ t.length hm, List.take_left' rfl, hd,
      List.drop_left' rfl]
    simp only
    have := ih false (pre ++ t) (pc ++ [c]) cs1 h2
    simp only [goAppend, elems, Option.getD_some]
    rw [this]
    simp only [List.length_append, List.append_assoc, List.singleton_append, Nat.add_assoc]

/-- A text that the loop of `FromJSPartial` consumes to its end is made of tokens, and
the components appended are theirs. -/
theorem tokens_of_scan (rest : GoString) :
    ∀ (pre : GoString) (a : Bool) (pc : List Comp) (q : P),
      scanAt pre a rest { components := some pc } = some (q, pre.length + rest.length, none) →
      (a = true → rest.head? ≠ some 46) →
      ∃ toks cs, toks.flatten = rest ∧ decodeTokens a toks = some cs ∧
        q = { components := some (pc ++ cs) } := by
  generalize hlen : rest.length = k
  induction k using Nat.strong_induction_on generalizing rest with
  | _ k ih =>
    subst hlen
    intro pre a pc q h ha
    cases hm : pieceRegAt a rest with
    | none =>
      rw [scanAt_none pre a rest _ hm] at h
      simp only [Option.some.injEq, Prod.mk.injEq, and_true] at h
      have h0 : rest = [] := List.length_eq_zero.mp (by omega)
      exact ⟨[], [], by rw [h0]; rfl, rfl, by rw [← h.1]; simp⟩
    | some n =>
      have hb := pieceRegAt_bounds a rest n hm
      rw [scanAt_some pre a rest _ n hm] at h
      rcases hd : decodePiece (rest.take n) with _ | ⟨e | c⟩
      · rw [hd] at h; simp at h
      · rw [hd] at h
        simp only [Option.some.injEq, Prod.mk.injEq] at h
        exact absurd h.2.2 (by simp)
      · rw [hd] at h
        simp only at h
        have hl : (pre ++ rest.take n).length + (rest.drop n).length
            = pre.length + rest.length := by
          simp only [List.length_append, List.length_take, List.length_drop]
          omega
        rw [← hl] at h
        simp only [goAppend, elems, Option.getD_some] at h
        obtain ⟨toks, cs, h1, h2, h3⟩ := ih (rest.drop n).length
          (by simp only [List.length_drop]; omega) (rest.drop n) rfl _ false _ q h
          (fun hf => absurd hf (by simp))
        refine ⟨rest.take n :: toks, c :: cs, ?_, ?_, ?_⟩
        · rw [List.flatten_cons, h1, List.take_append_drop]
        · unfold decodeTokens
          rw [token_decode a rest n c hm hd ha, h2]
        · rw [h3]
          simp

theorem FromJS_of_tokens (toks : List GoString) (cs : List Comp)
    (h : decodeTokens true toks = some cs) :
    FromJS toks.flatten = some ({ components := some cs }, none) := by
  rw [FromJS_ok_iff]
  cases toks with
  | nil =>
    simp only [decodeTokens, Option.some.injEq] at h
    subst h
    exact FromJSPartial_nil
  | cons t ts =>
    obtain ⟨c, cs1, h1, _, _⟩ := decodeTokens_cons true t ts cs h
    obtain ⟨c0, u, rfl, h46, _⟩ := tokenComp_head true t c h1
    have hne : ((c0 :: u) :: ts).flatten ≠ [] := by simp
    have hhd : ((c0 :: u) :: ts).flatten.head? ≠ some 46 := by
      simp only [List.flatten_cons, List.cons_append, List.head?_cons, ne_eq,
        Option.some.injEq]
      exact h46 rfl
    rw [FromJSPartial_eq_scanAt _ hne hhd, scan_of_tokens _ true [] [] cs h]
    simp

theorem tokens_of_FromJS (s : GoString) (p : P) (h : FromJS s = some (p, none)) :
    ∃ toks cs, toks.flatten = s ∧ decodeTokens true toks = some cs ∧
      p = { components := some cs } := by
  by_cases h0 : s = []
  · subst h0
    rw [FromJS_ok_iff, FromJSPartial_nil] at h
    simp only [Option.some.injEq, Prod.mk.injEq, List.length_nil, and_true] at h
    exact ⟨[], [], rfl, rfl, h.symm⟩
  · have h46 := FromJS_head_ne_dot s p h h0
    rw [FromJS_ok_iff, FromJSPartial_eq_scanAt s h0 h46] at h
    obtain ⟨toks, cs, h1, h2, h3⟩ := tokens_of_scan s [] true [] p
      (by simpa using h) (fun _ => h46)
    exact ⟨toks, cs, h1, h2, by simpa using h3⟩

theorem decodeTokens_length (toks : List GoString) :
    ∀ (a : Bool) (cs : List Comp), decodeTokens a toks = some cs → cs.length = toks.length := by
  induction toks with
  | nil =>
    intro a cs h
    simp only [decodeTokens, Option.some.injEq] at h
    subst h
    rfl
  | cons t ts ih =>
    intro a cs h
    obtain ⟨c, cs1, _, h2, rfl⟩ := decodeTokens_cons a t ts cs h
    simp only [List.length_cons, ih false cs1 h2]

theorem quoteLoop_skip (tbl : Nat → Bool) (t : GoString) :
    ∀ k, quoteLoop tbl k t = quoteLoop tbl 0 (t.drop k) := by
  induction t with
  | nil => intro k; cases k <;> simp [quoteLoop]
  | cons c u ih =>
    intro k
    cases k with
    | zero => rfl
    | succ j =>
      simp only [List.drop_succ_cons]
      rw [← ih j]
      simp only [quoteLoop]

theorem hexDigits_length (w r : Nat) : (hexDigits w r).length = w := by
  induction w with
  | zero => rfl
  | succ k ih => simp [hexDigits, ih]

theorem hexVal_hexDigits (w r : Nat) :
    ∀ acc, hexVal (hexDigits w r) acc = some (acc * 16 ^ w + r % 16 ^ w) := by
  induction w with
  | zero => intro acc; simp [hexDigits, hexVal, Nat.mod_one]
  | succ k ih =>
    intro acc
    have hx := unhex_hexDigit ((r / 16 ^ k) % 16) (Nat.mod_lt _ (by decide))
    simp only [hexDigits, hexVal, hx]
    rw [ih, Nat.mod_pow_succ, pow_succ]
    congr 1
    ring

/-- What `UnquoteChar` reads from a hexadecimal escape written with `w` digits. -/
theorem UnquoteChar_hex (e w r : Nat) (y : GoString)
    (he : (e = 120 ∧ w = 2) ∨ (e = 117 ∧ w = 4) ∨ (e = 85 ∧ w = 8)) (hr : r < 16 ^ w) :
    UnquoteChar (92 :: e :: (hexDigits w r ++ y)) 34
      = if e = 120 then some (r, false, 2 + w)
        else if !ValidRune r then none else some (r, true, 2 + w) := by
  have hv : hexVal ((hexDigits w r ++ y).take w) 0 = some r := by
    rw [List.take_left' (hexDigits_length w r), hexVal_hexDigits, Nat.mod_eq_of_lt hr]
    simp
  have hlen : ¬ (hexDigits w r ++ y).length < w := by
    rw [List.length_append, hexDigits_length]
    omega
  unfold UnquoteChar
  simp only
  rw [if_neg (by decide), if_neg (by decide), if_neg (by decide)]
  rcases he with ⟨rfl, rfl⟩ | ⟨rfl, rfl⟩ | ⟨rfl, rfl⟩
  · simp only [show ¬ ((120 : Nat) = 97) by decide, show ¬ ((120 : Nat) = 98) by decide,
      show ¬ ((120 : Nat) = 102) by decide, show ¬ ((120 : Nat) = 110) by decide,
      show ¬ ((120 : Nat) = 114) by decide, show ¬ ((120 : Nat) = 116) by decide,
      show ¬ ((120 : Nat) = 118) by decide, if_false, true_or, if_true, hlen, hv]
  · simp only [show ¬ ((117 : Nat) = 97) by decide, show ¬ ((117 : Nat) = 98) by decide,
      show ¬ ((117 : Nat) = 102) by decide, show ¬ ((117 : Nat) = 110) by decide,
      show ¬ ((117 : Nat) = 114) by decide, show ¬ ((117 : Nat) = 116) by decide,
      show ¬ ((117 : Nat) = 118) by decide, show ¬ ((117 : Nat) = 120) by decide,
      if_false, true_or, or_true, if_true, hlen, hv]
  · simp only [show ¬ ((85 : Nat) = 97) by decide, show ¬ ((85 : Nat) = 98) by decide,
      show ¬ ((85 : Nat) = 102) by decide, show ¬ ((85 : Nat) = 110) by decide,
      show ¬ ((85 : Nat) = 114) by decide, show ¬ ((85 : Nat) = 116) by decide,
      show ¬ ((85 : Nat) = 118) by decide, show ¬ ((85 : Nat) = 120) by decide,
      show ¬ ((85 : Nat) = 117) by decide,
      if_false, true_or, or_true, if_true, hlen, hv]

theorem UnquoteChar_plain (c : Nat) (y : GoString) (h1 : c ≠ 34) (h2 : c < 0x80)
    (h3 : c ≠ 92) : UnquoteChar (c :: y) 34 = some (c, false, 1) := by
  unfold UnquoteChar
  simp only
  rw [if_neg (fun hh => h1 hh.1), if_neg (by omega), if_pos h3]

/-- The escape `Quote` writes for an ASCII byte is read back by `UnquoteChar` as that
byte. -/
theorem escape_ascii (tbl : Nat → Bool) (b : Nat) (hb : b < 0x80) :
    ∃ c pt, appendEscapedRune tbl b 34 = c :: pt ∧ c ≠ 34 ∧ c ≠ 10 ∧
      ∀ y, ∃ r mb, UnquoteChar (c :: pt ++ y) 34 = some (r, mb, (c :: pt).length) ∧
        runeBytes r mb = [b] := by
  have two : ∀ (e : Nat) (v : Nat), v = b →
      (∀ y, UnquoteChar (92 :: e :: y) 34 = some (v, false, 2)) →
      ∃ c pt, [92, e] = c :: pt ∧ c ≠ 34 ∧ c ≠ 10 ∧
        ∀ y, ∃ r mb, UnquoteChar (c :: pt ++ y) 34 = some (r, mb, (c :: pt).length) ∧
          runeBytes r mb = [b] := by
    intro e v hv hu
    refine ⟨92, [e], rfl, by decide, by decide, fun y => ⟨v, false, hu y, ?_⟩⟩
    rw [hv]
    simp [runeBytes]
  unfold appendEscapedRune
  by_cases c1 : b = 34 ∨ b = 92
  · rw [if_pos c1]
    rcases c1 with rfl | rfl
    · exact two 34 34 rfl (fun y => rfl)
    · exact two 92 92 rfl (fun y => rfl)
  rw [if_neg c1]
  by_cases c2 : IsPrint tbl b = true
  · rw [if_pos c2]
    have he : EncodeRune b = [b] := by
      unfold EncodeRune
      rw [if_pos hb]
    have h10 : b ≠ 10 := by
      rintro rfl
      revert c2
      simp [IsPrint]
    rw [he]
    refine ⟨b, [], rfl, by omega, h10, fun y => ⟨b, false, ?_, by simp [runeBytes]⟩⟩
    exact UnquoteChar_plain b _ (by omega) hb (by omega)
  rw [if_neg c2]
  by_cases c3 : b = 7
  · rw [if_pos c3]; exact two 97 7 c3.symm (fun y => rfl)
  rw [if_neg c3]
  by_cases c4 : b = 8
  · rw [if_pos c4]; exact two 98 8 c4.symm (fun y => rfl)
  rw [if_neg c4]
  by_cases c5 : b = 12
  · rw [if_pos c5]; exact two 102 12 c5.symm (fun y => rfl)
  rw [if_neg c5]
  by_cases c6 : b = 10
  · rw [if_pos c6]; exact two 110 10 c6.symm (fun y => rfl)
  rw [if_neg c6]
  by_cases c7 : b = 13
  · rw [if_pos c7]; exact two 114 13 c7.symm (fun y => rfl)
  rw [if_neg c7]
  by_cases c8 : b = 9
  · rw [if_pos c8]; exact two 116 9 c8.symm (fun y => rfl)
  rw [if_neg c8]
  by_cases c9 : b = 11
  · rw [if_pos c9]; exact two 118 11 c9.symm (fun y => rfl)
  rw [if_neg c9]
  have c10 : b < 32 ∨ b = 0x7F := by
    by_contra hn
    apply c2
    unfold IsPrint
    rw [if_pos (by omega), if_pos (by omega)]
  rw [if_pos c10]
  refine ⟨92, 120 :: hexDigits 2 b, rfl, by decide, by decide, fun y => ⟨b, false, ?_, ?_⟩⟩
  · have := UnquoteChar_hex 120 2 b y (Or.inl ⟨rfl, rfl⟩) (by omega)
    rw [if_pos rfl] at this
    simp only [List.cons_append, List.length_cons, hexDigits_length]
    exact this
  · simp [runeBytes]

theorem EncodeRune_head_high (r : Nat) (hr : 0x80 ≤ r) :
    ∃ b ot, EncodeRune r = b :: ot ∧ 0x80 ≤ b := by
  unfold EncodeRune
  rw [if_neg (by omega)]
  split_ifs
  · exact ⟨_, _, rfl, by omega⟩
  · exact ⟨_, _, rfl, by omega⟩
  · exact ⟨_, _, rfl, by omega⟩
  · exact ⟨_, _, rfl, by omega⟩

/-- The escape `Quote` writes for a rune outside ASCII that was decoded from the bytes
`o` is read back by `UnquoteChar` as those bytes. -/
theorem escape_high (tbl : Nat → Bool) (r : Nat) (o : GoString) (hr : 0x80 ≤ r)
    (hv : ValidRune r = true) (he : EncodeRune r = o)
    (hd : ∀ y, DecodeRune (o ++ y) = (r, o.length)) :
    ∃ c pt, appendEscapedRune tbl r 34 = c :: pt ∧ c ≠ 34 ∧ c ≠ 10 ∧
      ∀ y, ∃ r1 mb, UnquoteChar (c :: pt ++ y) 34 = some (r1, mb, (c :: pt).length) ∧
        runeBytes r1 mb = o := by
  have hrb : runeBytes r true = o := by
    unfold runeBytes
    rw [if_neg (by simp; omega), he]
  have hmax : r < 0x110000 := by
    simp only [ValidRune, Bool.or_eq_true, Bool.and_eq_true, decide_eq_true_eq] at hv
    omega
  unfold appendEscapedRune
  rw [if_neg (by omega)]
  by_cases c2 : IsPrint tbl r = true
  · rw [if_pos c2, he]
    obtain ⟨b, ot, hbo, hb⟩ := EncodeRune_head_high r hr
    rw [he] at hbo
    subst hbo
    refine ⟨b, ot, rfl, by omega, by omega, fun y => ⟨r, true, ?_, hrb⟩⟩
    have := hd y
    rw [List.cons_append] at this ⊢
    unfold UnquoteChar
    simp only
    rw [if_neg (by omega), if_pos hb, this]
  have k1 : ¬ (r = 7 ∨ r = 8 ∨ r = 12 ∨ r = 10 ∨ r = 13 ∨ r = 9 ∨ r = 11) := by omega
  have k2 : ¬ (r < 32 ∨ r = 0x7F) := by omega
  simp only [not_or] at k1
  obtain ⟨k7, k8, k12, k10, k13, k9, k11⟩ := k1
  simp only [c2, k7, k8, k12, k10, k13, k9, k11, k2, hv, Bool.not_true, Bool.false_eq_true,
    if_false]
  by_cases c3 : r < 0x10000
  · rw [if_pos c3]
    refine ⟨92, 117 :: hexDigits 4 r, rfl, by decide, by decide, fun y => ⟨r, true, ?_, hrb⟩⟩
    have := UnquoteChar_hex 117 4 r y (Or.inr (Or.inl ⟨rfl, rfl⟩)) (by omega)
    rw [if_neg (by decide)] at this
    simp only [hv, Bool.not_true, Bool.false_eq_true, if_false] at this
    simp only [List.cons_append, List.length_cons, hexDigits_length]
    exact this
  · rw [if_neg c3]
    refine ⟨92, 85 :: hexDigits 8 r, rfl, by decide, by decide, fun y => ⟨r, true, ?_, hrb⟩⟩
    have := UnquoteChar_hex 85 8 r y (Or.inr (Or.inr ⟨rfl, rfl⟩)) (by omega)
    rw [if_neg (by decide)] at this
    simp only [hv, Bool.not_true, Bool.false_eq_true, if_false] at this
    simp only [List.cons_append, List.length_cons, hexDigits_length]
    exact this

/-- What `Quote` writes for the first rune (or invalid byte) of a string is read back by
`UnquoteChar` as the bytes it was written for. -/
theorem quote_step (tbl : Nat → Bool) (b : Nat) (t : GoString) (hb : b < 256) :
    ∃ piece w, quoteLoop tbl 0 (b :: t) = piece ++ quoteLoop tbl 0 ((b :: t).drop w) ∧
      1 ≤ w ∧ w ≤ (b :: t).length ∧
      ∃ c pt, piece = c :: pt ∧ c ≠ 34 ∧ c ≠ 10 ∧
        ∀ y, ∃ r mb, UnquoteChar (c :: pt ++ y) 34 = some (r, mb, (c :: pt).length) ∧
          runeBytes r mb = (b :: t).take w := by
  by_cases hlo : b < 0x80
  · obtain ⟨c, pt, h1, h2, h3, h4⟩ := escape_ascii tbl b hlo
    refine ⟨appendEscapedRune tbl b 34, 1, ?_, by omega, by simp, c, pt, h1, h2, h3, ?_⟩
    · have hre : ¬ (b = RuneError) := by unfold RuneError; omega
      simp only [quoteLoop, show ¬ b ≥ 0x80 by omega, if_false, hre, and_false, Nat.sub_self,
        List.drop_succ_cons, List.drop_zero]
    · simpa using h4
  · by_cases hinv : (DecodeRune (b :: t)).2 = 1 ∧ (DecodeRune (b :: t)).1 = RuneError
    · refine ⟨[92, 120, hexDigit (b / 16), hexDigit (b % 16)], 1, ?_, by omega, by simp,
        92, _, rfl, by decide, by decide, ?_⟩
      · simp only [quoteLoop, show b ≥ 0x80 by omega, if_true, hinv, and_self,
          List.drop_succ_cons, List.drop_zero]
      · intro y
        have hh : hexDigits 2 b = [hexDigit (b / 16), hexDigit (b % 16)] := by
          simp only [hexDigits, pow_one, pow_zero, Nat.div_one]
          rw [Nat.mod_eq_of_lt (show b / 16 < 16 by omega)]
        have := UnquoteChar_hex 120 2 b y (Or.inl ⟨rfl, rfl⟩) (by omega)
        rw [if_pos rfl, hh] at this
        exact ⟨b, false, by simpa using this, by simp [runeBytes]⟩
    · have hv : ¬ ((DecodeRune (b :: t)).1 = RuneError ∧ (DecodeRune (b :: t)).2 = 1) :=
        fun hh => hinv ⟨hh.2, hh.1⟩
      obtain ⟨d1, d2, d3, d4⟩ := DecodeRune_valid (b :: t) (by simp) hv
      generalize hr : (DecodeRune (b :: t)).1 = r at *
      generalize hw : (DecodeRune (b :: t)).2 = w at *
      have hdec : DecodeRune (b :: t) = (r, w) := by rw [← hr, ← hw]
      obtain ⟨j, rfl⟩ : ∃ j, w = j + 1 := ⟨w - 1, by omega⟩
      have hrhi : 0x80 ≤ r := by
        by_contra hlt
        unfold EncodeRune at d1
        rw [if_pos (by omega)] at d1
        simp only [List.take_succ_cons, List.cons.injEq] at d1
        omega
      have hval : ValidRune r = true := by
        by_contra hnv
        have hnv2 : ValidRune r = false := by simpa using hnv
        have h800 : ¬ r < 0x800 := by
          intro hlt
          simp [ValidRune] at hnv2
          omega
        unfold EncodeRune at d1
        rw [if_neg (by omega), if_neg h800] at d1
        simp only [hnv2, Bool.not_false, if_true] at d1
        have := d4 []
        rw [← d1, hdec] at this
        have e2 : DecodeRune ([0xEF, 0xBF, 0xBD] ++ []) = (0xFFFD, 3) := by decide
        rw [e2] at this
        simp only [Prod.mk.injEq] at this
        rw [← this.1] at hnv2
        revert hnv2
        decide
      have hlen : ((b :: t).take (j + 1)).length = j + 1 := by
        rw [List.length_take]
        omega
      obtain ⟨c, pt, h1, h2, h3, h4⟩ := escape_high tbl r ((b :: t).take (j + 1)) hrhi hval d1
        (fun y => by rw [d4 y, hdec, hlen])
      refine ⟨appendEscapedRune tbl r 34, j + 1, ?_, by omega, d3, c, pt, h1, h2, h3, h4⟩
      simp only [quoteLoop, show b ≥ 0x80 by omega, if_true, hdec, hinv, if_false]
      rw [quoteLoop_skip]
      simp

/-- `Unquote` reads back what `Quote` writes, whatever follows the closing quote. -/
theorem unquote_quoteLoop (tbl : Nat → Bool) (v : GoString) :
    (∀ b ∈ v, b < 256) → ∀ y,
      unquoteLoop 34 0 (quoteLoop tbl 0 v ++ 34 :: y) = some (v, 34 :: y) := by
  generalize hlen : v.length = k
  induction k using Nat.strong_induction_on generalizing v with
  | _ k ih =>
    subst hlen
    intro hv y
    cases v with
    | nil => simp [quoteLoop, unquoteLoop]
    | cons b t =>
      obtain ⟨piece, w, h1, h2, h3, c, pt, h4, h5, h6, h7⟩ :=
        quote_step tbl b t (hv b (List.mem_cons_self _ _))
      obtain ⟨r, mb, h8, h9⟩ := h7 (quoteLoop tbl 0 ((b :: t).drop w) ++ 34 :: y)
      have hi := ih ((b :: t).drop w).length
        (by simp only [List.length_drop, List.length_cons] at h3 ⊢; omega)
        ((b :: t).drop w) rfl (fun x hx => hv x (List.mem_of_mem_drop hx)) y
      rw [h1, h4, List.append_assoc, List.cons_append, unquoteLoop, if_neg h5]
      rw [List.cons_append] at h8
      rw [h8]
      simp only
      rw [if_neg h6, unquoteLoop_skip]
      simp only [List.length_cons, Nat.add_sub_cancel, List.drop_left' rfl, hi]
      rw [h9, List.take_append_drop]

theorem Unquote_Quote (tbl : Nat → Bool) (v : GoString) (hv : ∀ b ∈ v, b < 256) :
    Unquote (Quote tbl v) = some v := by
  have := unquote_quoteLoop tbl v hv []
  unfold Quote Unquote
  simp only [List.singleton_append, List.cons_append, List.nil_append, if_true, this]

theorem writeComp_first (tbl : Nat → Bool) (c : Comp) :
    writeComp tbl [] c = renderTok tbl true c := by
  cases c with
  | str v =>
    unfold writeComp renderTok
    by_cases hv : canDot v = true <;> simp [hv]
  | int v => simp [writeComp, renderTok]

theorem writeComp_later (tbl : Nat → Bool) (b : GoString) (c : Comp) (hb : b ≠ []) :
    writeComp tbl b c = b ++ renderTok tbl false c := by
  have h1 : b.length > 0 := List.length_pos.mpr hb
  cases c with
  | str v =>
    unfold writeComp renderTok
    by_cases hv : canDot v = true <;> simp [hv, h1]
  | int v => simp [writeComp, renderTok]

theorem foldl_render (tbl : Nat → Bool) (cs : List Comp) :
    ∀ b : GoString, b ≠ [] →
      cs.foldl (writeComp tbl) b = b ++ (renderToks tbl false cs).flatten := by
  induction cs with
  | nil => intro b _; simp [renderToks]
  | cons c t ih =>
    intro b hb
    simp only [List.foldl_cons, renderToks, List.flatten_cons]
    rw [writeComp_later tbl b c hb, ih _ (by simp [hb]), List.append_assoc]

theorem ToJS_render (tbl : Nat → Bool) (p : P) :
    ToJS tbl p = (renderToks tbl true (elems p.components)).flatten := by
  unfold ToJS
  cases elems p.components with
  | nil => rfl
  | cons c cs =>
    simp only [List.foldl_cons, renderToks, List.flatten_cons]
    rw [foldl_render tbl cs _ (writeComp_ne_nil tbl [] c), writeComp_first]

/-- The token written for a component is a token in the words of the contract, for that
component. -/
theorem tokenComp_render (tbl : Nat → Bool) (first : Bool) (c : Comp)
    (h : parseable c = true) : tokenComp first (renderTok tbl first c) = some c := by
  cases c with
  | str v =>
    unfold renderTok
    simp only
    by_cases hv : canDot v = true
    · rw [if_pos hv]
      obtain ⟨hne, hall⟩ := (canDot_iff v).mp hv
      cases first with
      | true =>
        obtain ⟨c0, u, rfl⟩ := List.exists_cons_of_ne_nil hne
        have hw := isWord_head c0 (hall c0 (List.mem_cons_self _ _))
        simp [tokenComp, hw.1, hw.2, hv]
      | false => simp [tokenComp, hv]
    · rw [if_neg hv]
      have hb : ∀ b ∈ v, b < 256 := by
        simpa [parseable] using h
      have hq := Unquote_Quote tbl v hb
      have e1 : [91] ++ Quote tbl v ++ [93] = 91 :: (Quote tbl v ++ [93]) := by simp
      have hhead : (Quote tbl v).head? = some 34 := by simp [Quote]
      have hnd : ¬ ((!(Quote tbl v).isEmpty && (Quote tbl v).all isDigit) = true) := by
        simp [Quote, isDigit]
      rw [e1, tokenComp_bracket, if_neg hnd, if_pos hhead, hq]
      rfl
  | int v =>
    simp only [parseable, Bool.and_eq_true, decide_eq_true_eq] at h
    obtain ⟨ds, h1, h2, h3, h4, _⟩ := formatNat_spec v.natAbs
    have hf : FormatInt v = ds := by
      unfold FormatInt
      rw [if_neg (by omega), h1]
    have hd : (!ds.isEmpty && ds.all isDigit) = true := by
      simp only [Bool.and_eq_true, Bool.not_eq_true', List.isEmpty_eq_false,
        List.all_eq_true]
      exact ⟨h2, h3⟩
    have e1 : [91] ++ ds ++ [93] = 91 :: (ds ++ [93]) := by simp
    unfold renderTok
    simp only
    rw [hf, e1, tokenComp_bracket, if_pos hd, h4, if_pos (by omega)]
    congr 2
    omega

theorem decodeTokens_render (tbl : Nat → Bool) (cs : List Comp) :
    ∀ first, (∀ c ∈ cs, parseable c = true) →
      decodeTokens first (renderToks tbl first cs) = some cs := by
  induction cs with
  | nil => intro _ _; rfl
  | cons c t ih =>
    intro first h
    simp only [renderToks, decodeTokens]
    rw [tokenComp_render tbl first c (h c (List.mem_cons_self _ _)),
      ih false (fun x hx => h x (List.mem_cons_of_mem _ hx))]

/-- Appends in order. The components of `p.Str(s1..sn)` are those of `p` followed by
`s1..sn`, and the components of `p.Int(i1..in)` are those of `p` followed by `i1..in`.
When no argument `qi` holds an element of the backing array of `p` beyond `len(p)`, the
components of `p.Path(q1..qn)` are those of `p` followed by those of `q1`, ..., `qn`,
and every `qi` keeps its components. The length of the result is the sum of the
lengths. -/
theorem append_order_preserving (grow : Nat → Nat → Nat) (hg : ∀ c n, n ≤ grow c n)
    (h : Heap) (p : HP) (hp : okSlice h p.components = true) :
    (∀ s : List GoString,
      cells (HP.Str grow h p s).1 (HP.Str grow h p s).2.components
        = cells h p.components ++ s.map (fun si => some (Comp.str si)) ∧
      (HP.Str grow h p s).2.Len = p.Len + s.length) ∧
    (∀ i : List ℤ,
      cells (HP.Int grow h p i).1 (HP.Int grow h p i).2.components
        = cells h p.components ++ i.map (fun ii => some (Comp.int ii)) ∧
      (HP.Int grow h p i).2.Len = p.Len + i.length) ∧
    (∀ qs : List HP,
      (∀ q ∈ qs, okSlice h q.components = true ∧ covers p.components q.components = true) →
      cells (HP.Path grow h p qs).1 (HP.Path grow h p qs).2.components
        = cells h p.components ++ (qs.map (fun q => cells h q.components)).flatten ∧
      (HP.Path grow h p qs).2.Len = p.Len + (qs.map (fun q => q.Len)).sum ∧
      ∀ q ∈ qs, cells (HP.Path grow h p qs).1 q.components = cells h q.components) := by
  refine ⟨?_, ?_, ?_⟩
  · intro s
    obtain ⟨a1, a2, _⟩ := foldl_append_one grow hg (fun si => some (Comp.str si)) s h p hp
    exact ⟨a1, a2⟩
  · intro i
    obtain ⟨a1, a2, _⟩ := foldl_append_one grow hg (fun ii => some (Comp.int ii)) i h p hp
    exact ⟨a1, a2⟩
  · intro qs hq
    obtain ⟨a1, a2, a3⟩ := Path_fold grow hg qs h p hp hq
    exact ⟨a1, a2, fun q hmem => a3 _ (hq q hmem).1 (hq q hmem).2⟩

/-- The paths `base` and `q2` share an array and `q1` has its own: `q1.Path(base, q2)`
is `[z a b c a b c d]` and leaves `q2` as it was. -/
theorem append_order_preserving_example :
    cells (HP.Path growslice aliasQ1.1 aliasQ1.2 [aliasBase.2, aliasQ2.2]).1
        (HP.Path growslice aliasQ1.1 aliasQ1.2 [aliasBase.2, aliasQ2.2]).2.components
      = [strCell "z", strCell "a", strCell "b", strCell "c",
         strCell "a", strCell "b", strCell "c", strCell "d"] ∧
    cells (HP.Path growslice aliasQ1.1 aliasQ1.2 [aliasBase.2, aliasQ2.2]).1
        aliasQ2.2.components
      = [strCell "a", strCell "b", strCell "c", strCell "d"] :=
  ⟨((append_order_preserving growslice growslice_le aliasQ1.1 aliasQ1.2 (by decide)).2.2
      [aliasBase.2, aliasQ2.2] (by decide)).1.trans (by decide),
    (((append_order_preserving growslice growslice_le aliasQ1.1 aliasQ1.2 (by decide)).2.2
      [aliasBase.2, aliasQ2.2] (by decide)).2.2 aliasQ2.2 (by decide)).trans (by decide)⟩

/-! ## The claims about construction, rendering and parsing -/

/-- C11 at `base.Path(q1, q2)`, with `base := path.Str("a", "b", "c")` (length 3,
capacity 4), `q2 := base.Str("d")` and `q1 := path.Str("z")`. Before the call the three
paths are `[a b c]`, `[z]` and `[a b c d]`. The call stores `z` in the array that `base`
and `q2` share: the result is `[a b c z a b c z]`, which is not the components of
`base` followed by those of `q1` and `q2`, and after the call the argument `q2` is
`[a b c z]`, so `Path` has changed one of its arguments. -/
theorem Path_alias_mutates :
    cells aliasQ1.1 aliasBase.2.components = [strCell "a", strCell "b", strCell "c"] ∧
    cells aliasQ1.1 aliasQ1.2.components = [strCell "z"] ∧
    cells aliasQ1.1 aliasQ2.2.components
      = [strCell "a", strCell "b", strCell "c", strCell "d"] ∧
    cells aliasResult.1 aliasResult.2.components
      = [strCell "a", strCell "b", strCell "c", strCell "z",
         strCell "a", strCell "b", strCell "c", strCell "z"] ∧
    cells aliasResult.1 aliasResult.2.components
      ≠ cells aliasQ1.1 aliasBase.2.components ++ cells aliasQ1.1 aliasQ1.2.components
          ++ cells aliasQ1.1 aliasQ2.2.components ∧
    cells aliasResult.1 aliasQ2.2.components
      = [strCell "a", strCell "b", strCell "c", strCell "z"] ∧
    cells aliasResult.1 aliasQ2.2.components ≠ cells aliasQ1.1 aliasQ2.2.components := by
  refine ⟨by decide, by decide, by decide, by decide, by decide, by decide, by decide⟩

/-- C12. Sub-range extraction. For every path `p` and integers
`0 <= start <= end <= p.Len()`, `p.Sub(start, end)` returns, with no fault, a path whose
components are those of `p` at the indices `start..end-1` in order, of length
`end - start`, and not nil; `p.Sub()` has the components of `p`; `p.Sub(start)` is
`p.Sub(start, p.Len())`; `p.Sub(start, start)` has no component; and the components of
`p` are the same after each call. -/
theorem Sub_in_range (grow : Nat → Nat → Nat) (hg : ∀ c n, n ≤ grow c n) (h : Heap) (p : HP)
    (hp : okSlice h p.components = true) (start end_ : ℤ)
    (h0 : 0 ≤ start) (h1 : start ≤ end_) (h2 : end_ ≤ (p.Len : ℤ)) :
    (∃ h1 r, HP.Sub grow h p [start, end_] = some (h1, r) ∧
      cells h1 r.components
        = ((cells h p.components).drop start.toNat).take (end_.toNat - start.toNat) ∧
      (r.Len : ℤ) = end_ - start ∧ r.components ≠ none ∧
      cells h1 p.components = cells h p.components) ∧
    (∃ h1 r, HP.Sub grow h p [] = some (h1, r) ∧
      cells h1 r.components = cells h p.components ∧
      cells h1 p.components = cells h p.components) ∧
    HP.Sub grow h p [start] = HP.Sub grow h p [start, (p.Len : ℤ)] ∧
    (∃ h1 r, HP.Sub grow h p [start, start] = some (h1, r) ∧
      cells h1 r.components = [] ∧ r.Len = 0 ∧
      cells h1 p.components = cells h p.components) := by
  refine ⟨?_, ?_, rfl, ?_⟩
  · obtain ⟨x, r, a1, a2, a3, a4, _, a6⟩ := Sub_core grow hg h p hp start end_ h0 h1 h2
    exact ⟨x, r, a1, a2, a3, a4, a6⟩
  · obtain ⟨x, r, a1, a2, _, _, _, a6⟩ :=
      Sub_core grow hg h p hp 0 (p.Len : ℤ) (le_refl _) (by omega) (le_refl _)
    refine ⟨x, r, a1, ?_, a6⟩
    rw [a2]
    have := cells_length h p.components hp
    simp only [Int.toNat_zero, List.drop_zero, Int.toNat_ofNat, Nat.sub_zero]
    exact List.take_of_length_le (by unfold HP.Len; omega)
  · obtain ⟨x, r, a1, a2, a3, _, _, a6⟩ :=
      Sub_core grow hg h p hp start start h0 (le_refl _) (by omega)
    refine ⟨x, r, a1, ?_, ?_, a6⟩
    · rw [a2]
      simp
    · omega

/-- C12 at `path.Str("a", "b", "c").Sub(1, 3)`, which is `[b c]`. -/
theorem Sub_in_range_witness :
    (HP.Sub growslice aliasBase.1 aliasBase.2 [1, 3]).map
        (fun r => (cells r.1 r.2.components, cells r.1 aliasBase.2.components))
      = some ([strCell "b", strCell "c"], [strCell "a", strCell "b", strCell "c"]) := by
  obtain ⟨x, r, a1, a2, _, _, a5⟩ :=
    (Sub_in_range growslice growslice_le aliasBase.1 aliasBase.2 (by decide) 1 3
      (by decide) (by decide) (by decide)).1
  rw [a1, Option.map_some', a2, a5]
  decide

/-- C13. Empty path encodings. For the zero value (nil components) and for a path with
an empty component slice, `ToJS` returns the empty string, and `MarshalJSON` and
`String` both return exactly `[]`, which is not `null`; and for every path `p`,
`String(p)` is the bytes of `MarshalJSON(p)`. -/
theorem empty_path_encodings :
    (∀ tbl, ToJS tbl { components := none } = [] ∧ ToJS tbl { components := some [] } = []) ∧
    MarshalJSON { components := none } = ascii "[]" ∧
    MarshalJSON { components := some [] } = ascii "[]" ∧
    P.String { components := none } = ascii "[]" ∧
    P.String { components := some [] } = ascii "[]" ∧
    ascii "[]" ≠ ascii "null" ∧
    (∀ p : P, p.String = MarshalJSON p) :=
  ⟨fun _ => ⟨rfl, rfl⟩, by decide, by decide, by decide, by decide, by decide, fun _ => rfl⟩

/-- C14. Parsing never faults. For every input string `s`, `FromJSPartial(s)` and
`FromJS(s)` return: their result is never the fault outcome `none`. Every match `m` that
`FindAllStringIndex` reports is a slice `s[m[0]:m[1]]` in range and not empty, so the
indexing `m[0]` is in bounds, the slicing `m[1:len(m)-1]` of a token that starts with
`[` is in range, and the loop body returns on it. On the five inputs of the test
`TestInvalidJS` that start or continue with a bracket, `FromJS` returns the error
"could not parse entire string". -/
theorem FromJS_never_faults :
    (∀ s : GoString, FromJSPartial s ≠ none ∧ FromJS s ≠ none) ∧
    (∀ s : GoString, ∀ m ∈ FindAllStringIndex s,
      ∃ tok, goSlice s m.1 m.2 = some tok ∧ 0 < tok.length ∧
        (tok.head? = some 91 → goSlice tok 1 (tok.length - 1) ≠ none) ∧
        decodePiece tok ≠ none) ∧
    FromJS (ascii "[") = some ({ components := some [] }, some "could not parse entire string") ∧
    FromJS (ascii "]") = some ({ components := some [] }, some "could not parse entire string") ∧
    FromJS (ascii "[[]") = some ({ components := some [] }, some "could not parse entire string") ∧
    FromJS (ascii "outputs[\"\"\"]")
      = some ({ components := some [Comp.str (ascii "outputs")] },
          some "could not parse entire string") ∧
    FromJS (ascii "outputs[.]")
      = some ({ components := some [Comp.str (ascii "outputs")] },
          some "could not parse entire string") := by
  refine ⟨fun s => ⟨FromJSPartial_isSome s, FromJS_isSome s⟩, ?_, by decide, by decide,
    by decide, by decide, by decide⟩
  intro s m hm
  obtain ⟨k, n, h1, _, h3, h4⟩ := findAllFrom_sound s true 0 0 m hm
  have hb := pieceRegAt_bounds _ _ n h4
  have hs : goSlice s m.1 m.2 = some ((s.drop k).take n) := by
    rw [h1]
    unfold goSlice
    simp only [Nat.zero_add]
    rw [if_pos ⟨by omega, h3⟩]
    simp
  refine ⟨_, hs, by rw [List.length_take, List.length_drop]; omega, ?_,
    decodePiece_isSome _ _ n h4⟩
  intro h91
  have h91' : (s.drop k).head? = some 91 := by
    cases hd : s.drop k with
    | nil => rw [hd] at hb; simp at hb; omega
    | cons c t =>
      rw [hd] at h91
      obtain ⟨j, rfl⟩ : ∃ j, n = j + 1 := ⟨n - 1, by omega⟩
      simpa using h91
  have h3' := pieceRegAt_bracket_len _ _ n h4 h91'
  unfold goSlice
  rw [if_pos (by rw [List.length_take, List.length_drop]; omega)]
  simp

/-- C15 fails as stated: `[9223372036854775808]` is `[` + digits + `]`, the digits have
the decimal value `2^63`, and `FromJS` returns the error "could not parse portion in
square brackets" for it, not a path with that integer key. -/
theorem FromJS_digits_beyond_int :
    ascii "[9223372036854775808]" = [91] ++ ascii "9223372036854775808" ++ [93] ∧
    (ascii "9223372036854775808").all isDigit = true ∧
    digitsVal (ascii "9223372036854775808") = 2 ^ 63 ∧
    FromJS (ascii "[9223372036854775808]")
      = some ({ components := some [] }, some "could not parse portion in square brackets") := by
  refine ⟨by decide, by decide, by decide, by decide⟩

/-- C15, amended. `FromJS(s)` returns a nil error and the path `p` if and only if `s` is
the concatenation of `n >= 0` tokens `t1..tn` where `t1` is a bare identifier (one or
more ASCII letters, digits or underscores) or a bracket token, every later `ti` is a
dotted identifier or a bracket token, and each bracket token is `[` + one or more digits
of decimal value at most `2^63 - 1` + `]`, or `["` + text + `"]` where
`strconv.Unquote` accepts the text between the brackets; then `p` has exactly `n`
components, the `i`-th being the decoding of `ti`: the identifier without its dot, the
decimal value of the digits, or the string `strconv.Unquote` returns. -/
theorem FromJS_tokenization (s : GoString) (p : P) :
    (FromJS s = some (p, none) ↔
      ∃ toks cs, toks.flatten = s ∧ decodeTokens true toks = some cs ∧
        p = { components := some cs }) ∧
    (∀ (a : Bool) (toks : List GoString) (cs : List Comp),
      decodeTokens a toks = some cs → cs.length = toks.length) := by
  refine ⟨⟨tokens_of_FromJS s p, ?_⟩, fun a toks cs h => decodeTokens_length toks a cs h⟩
  rintro ⟨toks, cs, rfl, h2, rfl⟩
  exact FromJS_of_tokens toks cs h2

/-- C16 at `path.Str("a", "b", "c").Sub(0, 4)`. The path has length 3 and its backing
array has capacity 4, so the slice expression is in range: `Sub` returns a path of
length 4 whose last component is nil, and after `base.Str("d")` it returns `d` there,
which is not a component of `base`. In general `Sub(start, end)` faults exactly when
`start < 0`, `end < start` or `end` exceeds the capacity, and `At(i)` faults exactly
when `i < 0` or `i >= Len()`. -/
theorem Sub_beyond_len_returns :
    aliasBase.2.Len = 3 ∧ goCap aliasBase.1 aliasBase.2.components = 4 ∧
    (HP.Sub growslice aliasBase.1 aliasBase.2 [0, 4]).map
        (fun r => (cells r.1 r.2.components, r.2.Len))
      = some ([strCell "a", strCell "b", strCell "c", none], 4) ∧
    cells aliasQ2.1 aliasBase.2.components = [strCell "a", strCell "b", strCell "c"] ∧
    (HP.Sub growslice aliasQ2.1 aliasBase.2 [0, 4]).map
        (fun r => (cells r.1 r.2.components, r.2.Len))
      = some ([strCell "a", strCell "b", strCell "c", strCell "d"], 4) ∧
    (∀ (grow : Nat → Nat → Nat) (h : Heap) (p : HP) (start end_ : ℤ),
      HP.Sub grow h p [start, end_] = none
        ↔ (start < 0 ∨ end_ < start ∨ (goCap h p.components : ℤ) < end_)) ∧
    (∀ (h : Heap) (p : HP) (i : ℤ), HP.At h p i = none ↔ (i < 0 ∨ (p.Len : ℤ) ≤ i)) := by
  refine ⟨by decide, by decide, by decide, by decide, by decide, ?_, ?_⟩
  · intro grow h p start end_
    simp only [HP.Sub]
    split
    · rename_i hc
      simp only [reduceCtorEq, false_iff]
      omega
    · rename_i hc
      simp only [true_iff]
      omega
  · intro h p i
    unfold HP.At HP.Len
    split
    · rename_i hc
      simp only [reduceCtorEq, false_iff]
      omega
    · rename_i hc
      simp only [true_iff]
      omega

/-- C17 fails as stated: `"<"` and the byte `0x7F` are not word strings; `ToJS` renders
them as `["<"]` and `["\x7f"]`, while their JSON string literals, as `json.Marshal`
writes them, are `"\u003c"` and the byte `0x7F` between quotes. -/
theorem ToJS_bracket_not_json :
    canDot (ascii "<") = false ∧
    (∀ tbl, ToJS tbl { components := some [Comp.str (ascii "<")] } = ascii "[\"<\"]") ∧
    jsonString (ascii "<") = ascii "\"\\u003c\"" ∧
    ascii "[\"<\"]" ≠ [91] ++ jsonString (ascii "<") ++ [93] ∧
    canDot [127] = false ∧
    (∀ tbl, ToJS tbl { components := some [Comp.str [127]] } = ascii "[\"\\x7f\"]") ∧
    jsonString [127] = [34, 127, 34] ∧
    ascii "[\"\\x7f\"]" ≠ [91] ++ jsonString [127] ++ [93] :=
  ⟨by decide, fun _ => rfl, by decide, by decide, by decide, fun _ => rfl, by decide,
    by decide⟩

/-- C17, amended. For every string component `v` that is not one or more word
characters, `ToJS` renders it as `[` + `strconv.Quote(v)` + `]`. When `v` is printable
ASCII (bytes `0x20` to `0x7E`) without `&`, `<` and `>`, that literal is the JSON string
literal `json.Marshal` writes for `v`; when `v` has no `"` and no `\` either, it is
`v` between quotes, with no escape. -/
theorem ToJS_bracket_quote (tbl : Nat → Bool) (v : GoString) (hv : canDot v = false) :
    ToJS tbl { components := some [Comp.str v] } = [91] ++ Quote tbl v ++ [93] ∧
    (jsonLike v = true → Quote tbl v = jsonString v) ∧
    (plainText v = true → Quote tbl v = [34] ++ v ++ [34]) := by
  refine ⟨?_, ?_, ?_⟩
  · simp [ToJS, elems, writeComp, hv]
  · intro h
    unfold Quote jsonString
    rw [quoteLoop_jsonLike tbl v h]
  · intro h
    unfold Quote
    rw [quoteLoop_plain tbl v h]

/-- C17, amended, at the text `a "b" \ c`, where both quotings escape the quotes and
the backslash. -/
theorem ToJS_bracket_quote_witness :
    Quote (fun _ => false) (ascii "a \"b\" \\ c") = jsonString (ascii "a \"b\" \\ c") :=
  (ToJS_bracket_quote (fun _ => false) (ascii "a \"b\" \\ c") (by decide)).2.1 (by decide)

/-- C18. Round trip on the range of the parser. For every path `p` whose integer
components are not negative (string components being any Go strings, integers any Go
`int`s), `FromJS(p.ToJS())` returns a nil error and a path with exactly the components
of `p`; and the token `ToJS` writes for a component of `p` is matched whole by
`pieceReg`, whatever token follows it, and decoded by the loop body (with `Atoi` or
`Unquote` for a bracket token) to that component. -/
theorem FromJS_ToJS_roundtrip (tbl : Nat → Bool) (p : P)
    (h : ∀ c ∈ elems p.components, parseable c = true) :
    FromJS (ToJS tbl p) = some ({ components := some (elems p.components) }, none) ∧
    ∀ c ∈ elems p.components, ∀ z, notWordHead z →
      pieceRegAt true (ToJS tbl { components := some [c] } ++ z)
        = some (ToJS tbl { components := some [c] }).length ∧
      decodePiece (ToJS tbl { components := some [c] }) = some (Except.ok c) := by
  constructor
  · rw [ToJS_render]
    exact FromJS_of_tokens _ _ (decodeTokens_render tbl _ true h)
  · intro c hc z hz
    have e : ToJS tbl { components := some [c] } = renderTok tbl true c := by
      rw [ToJS_render]
      simp [elems, renderToks]
    rw [e]
    exact token_match true _ z c (tokenComp_render tbl true c (h c hc)) hz

/-- C18 at the path `["a b", 5, "", "x\"y\\", "k"]`, rendered as
`["a b"][5][""]["x\"y\\"].k`. -/
theorem FromJS_ToJS_roundtrip_witness :
    FromJS (ToJS (fun _ => false) { components := some [Comp.str (ascii "a b"), Comp.int 5,
        Comp.str [], Comp.str (ascii "x\"y\\"), Comp.str (ascii "k")] })
      = some ({ components := some [Comp.str (ascii "a b"), Comp.int 5,
        Comp.str [], Comp.str (ascii "x\"y\\"), Comp.str (ascii "k")] }, none) :=
  (FromJS_ToJS_roundtrip (fun _ => false) _ (by decide)).1

/-- C19. Prefix consistency of the partial parse. For every string `s` for which
`FromJSPartial(s)` returns `(p, idx, nil)`, the strict parse of the consumed prefix
returns the same path and a nil error: `FromJS(s[:idx]) = (p, nil)`. -/
theorem FromJSPartial_prefix_consistent (s : GoString) (p : P) (idx : Nat)
    (h : FromJSPartial s = some (p, idx, none)) : FromJS (s.take idx) = some (p, none) :=
  FromJS_take_idx s p idx h

/-- C19 at `s = "foo[0].bar asdf"`, where the partial parse stops at index 10. -/
theorem FromJSPartial_prefix_consistent_witness :
    FromJS ((ascii "foo[0].bar asdf").take 10)
      = some ({ components := some [Comp.str (ascii "foo"), Comp.int 0,
          Comp.str (ascii "bar")] }, none) :=
  FromJSPartial_prefix_consistent (ascii "foo[0].bar asdf") _ 10 (by decide)

end path
